import Mathlib

/-!
# cath-tools: segment runs, architectures of hits and the resolver

A shallow embedding of `cath::seq::seq_seg_run` and of the free functions of
`seq/seq_seg_run.hpp`, of `cath::rslv::hit_arch` (`resolve_hits/hit_arch.h`) and of the
resolver as the specification describes it, followed by the properties proved about them.

Conventions of the embedding

* A `seq_arrow` is the boundary index it stores (`resarw_t`, an `unsigned int`), a `Nat`.
* `residx_t` arithmetic (`unsigned int`) is written with an explicit `% residx_mod`.
* A C++ function that can throw, or that can read a vector out of range, returns
  `Except cath_error _`; `while` loops take a fuel argument and report `out_of_fuel`
  when it is used up.
-/

namespace cath
namespace seq

/-! ## Outcomes -/

/-- The ways in which an embedded function can fail to return a value. -/
inductive cath_error where
  /-- The function `common::invalid_argument_exception` was thrown with this message -/
  | invalid_argument_exception (msg : String)
  /-- The function `front()` / `back()` of an empty vector, or `operator[]` out of range -/
  | undefined_behaviour
  /-- the fuel given to the model of a loop was used up -/
  | out_of_fuel
  deriving DecidableEq, Repr

deriving instance DecidableEq for Except

/-- Whether an outcome is a thrown `invalid_argument_exception` (with any message). -/
def raises_invalid_argument {α : Type} : Except cath_error α → Bool
  | .error (.invalid_argument_exception _) => true
  | _ => false

/-! ## Types of `seq_type_aliases.hpp` -/

/-- The types `resarw_t` and `residx_t` are `unsigned int`: values live in `[0, residx_mod)`. -/
def residx_mod : Nat := 4294967296

/-- Modelled from the spec: class `seq_arrow` and its `operator-` (`seq/seq_arrow.hpp`) are
missing. The spec's Boundary is "an integral value denoting a point between two residue
positions", totally ordered: a `seq_arrow` is written as the `resarw_t` index it holds, a
`Nat`, with the order of `Nat`. The spec has "length = stop − start": the difference is taken
in the integers, and `to_residx` is the `static_cast<residx_t>` the callers apply to it. -/
def arrow_diff (a b : Nat) : Int := (a : Int) - (b : Int)

/-- The conversion `static_cast<residx_t>( . )` of an integer to `unsigned int`. -/
def to_residx (i : Int) : Nat := (i % (residx_mod : Int)).toNat

/-- Modelled from the spec: class `seq_seg` (`seq/seq_seg.hpp`) is missing; the spec's Segment
is "an ordered pair (start-boundary, stop-boundary) with start < stop". The structure holds
the two boundaries; `seq_seg.valid` is the class invariant and `seq_seg.make` the checking
constructor. -/
structure seq_seg where
  start_arrow : Nat
  stop_arrow : Nat
  deriving DecidableEq, Repr

/-- Modelled from the spec: the invariant of `seq_seg` (`seq/seq_seg.hpp` is missing), the
spec's "start < stop". -/
def seq_seg.valid (s : seq_seg) : Prop := s.start_arrow < s.stop_arrow

instance (s : seq_seg) : Decidable s.valid := by
  unfold seq_seg.valid; infer_instance

/-- Modelled from the spec: the constructor `seq_seg(seq_arrow, seq_arrow)` (`seq/seq_seg.hpp`
is missing); the spec lists "boundary with stop ≤ start" as an invalid-construction error. -/
def seq_seg.make (start stop : Nat) : Except cath_error seq_seg :=
  if stop ≤ start then
    .error (.invalid_argument_exception "Start index must not be greater than or equal to the stop index")
  else
    .ok ⟨start, stop⟩

/-- Modelled from the spec: `are_overlapping(const seq_seg &, const seq_seg &)`
(`seq/seq_seg.hpp` is missing); the spec's "genuinely intersecting segment pairs": the two
half-open intervals share a position. -/
def seq_seg.are_overlapping (x y : seq_seg) : Bool :=
  decide (x.start_arrow < y.stop_arrow) && decide (y.start_arrow < x.stop_arrow)

/-- Modelled from the spec: `overlap_by(const seq_seg &, const seq_seg &)` (`seq/seq_seg.hpp`
is missing); the spec's "overlap length" of two segments: the number of positions they share,
`max( 0, min(stops) - max(starts) )`. -/
def seq_seg.overlap_by (x y : seq_seg) : Nat :=
  min x.stop_arrow y.stop_arrow - max x.start_arrow y.start_arrow

/-- Modelled from the spec: `make_fragments_of_segments` (`seq/seq_seg.hpp` is missing); the
spec's fragments are the "boundary-pairs representing gaps between segments": one `seq_seg`
from each segment's stop to the next segment's start. -/
def make_fragments_of_segments : List seq_seg → Except cath_error (List seq_seg)
  | x :: y :: rest => do
      let f ← seq_seg.make x.stop_arrow y.start_arrow
      let fs ← make_fragments_of_segments (y :: rest)
      pure (f :: fs)
  | _ => pure []

/-- Modelled from the spec: `common::contains_adjacent_match` (`common/algorithm/contains.hpp`
is missing): whether some element and its successor satisfy the predicate. -/
def contains_adjacent_match {α : Type} (p : α → α → Bool) : List α → Bool
  | x :: y :: rest => p x y || contains_adjacent_match p (y :: rest)
  | _ => false

/-- The algorithm of `std::lower_bound` on the index range `[first, first + count)`:
`fuel` bounds the number of halvings (`count` itself is always enough). -/
def lower_bound_loop (comp : Nat → Bool) : Nat → Nat → Nat → Nat
  | 0, first, _ => first
  | fuel + 1, first, count =>
      if count = 0 then first
      else
        let step := count / 2
        let it := first + step
        if comp it then lower_bound_loop comp fuel (it + 1) (count - (step + 1))
        else lower_bound_loop comp fuel first step

/-- The call `lower_bound( boost::irange( 0_z, n ), value, comp )` as the index it points at (`n` for the
end iterator); `comp i` stands for `comp( i, value )`. -/
def lower_bound (n : Nat) (comp : Nat → Bool) : Nat :=
  lower_bound_loop comp n 0 n

/-! ## `seq_seg_run` -/

/-- The class `seq_seg_run`: the first start, the last stop, and the gaps between segments. -/
structure seq_seg_run where
  start_arrow : Nat
  stop_arrow : Nat
  fragments : List seq_seg
  deriving DecidableEq, Repr

namespace seq_seg_run

/-- The method `seq_seg_run::sanity_check()` -/
def sanity_check (r : seq_seg_run) : Except cath_error Unit :=
  if r.stop_arrow ≤ r.start_arrow then
    .error (.invalid_argument_exception "Start index must not be greater than or equal to the stop index")
  else if h : r.fragments ≠ [] then
    if r.start_arrow ≥ (r.fragments.head h).start_arrow then
      .error (.invalid_argument_exception "Cannot create a seq_seg_run with fragments that don't start after the start")
    else if r.stop_arrow ≤ (r.fragments.getLast h).stop_arrow then
      .error (.invalid_argument_exception "Cannot create a seq_seg_run with fragments that don't end before the end")
    else if contains_adjacent_match (fun x y => decide (x.stop_arrow ≥ y.start_arrow)) r.fragments then
      .error (.invalid_argument_exception "Cannot create a seq_seg_run with fragments that aren't increasing")
    else
      .ok ()
  else
    .ok ()

/-- The constructor `seq_seg_run(seq_arrow, seq_arrow)` for a contiguous run. -/
def ctor_contig (arg_start_arrow arg_stop_arrow : Nat) : Except cath_error seq_seg_run := do
  let r : seq_seg_run := ⟨arg_start_arrow, arg_stop_arrow, []⟩
  r.sanity_check
  pure r

/-- The constructor `seq_seg_run(const seq_seg_vec &)` from segments; `front()` and `back()`
of an empty vector are undefined. -/
def ctor_segments (arg_segments : List seq_seg) : Except cath_error seq_seg_run :=
  if h : arg_segments ≠ [] then do
    let fragments ← make_fragments_of_segments arg_segments
    let r : seq_seg_run :=
      ⟨(arg_segments.head h).start_arrow, (arg_segments.getLast h).stop_arrow, fragments⟩
    r.sanity_check
    pure r
  else
    .error .undefined_behaviour

/-- The constructor `seq_seg_run(seq_arrow, seq_arrow, seq_seg_vec)`. -/
def ctor_fragments (arg_start_arrow arg_stop_arrow : Nat) (arg_fragments : List seq_seg) :
    Except cath_error seq_seg_run := do
  let r : seq_seg_run := ⟨arg_start_arrow, arg_stop_arrow, arg_fragments⟩
  r.sanity_check
  pure r

/-- The method `seq_seg_run::is_discontig()` -/
def is_discontig (r : seq_seg_run) : Bool := !r.fragments.isEmpty

/-- The method `seq_seg_run::get_num_segments()` -/
def get_num_segments (r : seq_seg_run) : Nat := r.fragments.length + 1

/-- The method `seq_seg_run::get_start_arrow_of_segment()`; `fragments[ i - 1 ]` out of range is
undefined. -/
def get_start_arrow_of_segment (r : seq_seg_run) (arg_segment_index : Nat) :
    Except cath_error Nat :=
  if arg_segment_index > 0 then
    match r.fragments[arg_segment_index - 1]? with
    | some f => .ok f.stop_arrow
    | none => .error .undefined_behaviour
  else
    .ok r.start_arrow

/-- The method `seq_seg_run::get_stop_arrow_of_segment()`; the read `fragments[ i ]` is guarded by
`i < fragments.size()`. -/
def get_stop_arrow_of_segment (r : seq_seg_run) (arg_segment_index : Nat) : Nat :=
  if h : arg_segment_index < r.fragments.length then
    (r.fragments.get ⟨arg_segment_index, h⟩).start_arrow
  else
    r.stop_arrow

/-- The method `seq_seg_run::get_start_arrow()` -/
def get_start_arrow (r : seq_seg_run) : Nat := r.start_arrow

/-- The method `seq_seg_run::get_stop_arrow()` -/
def get_stop_arrow (r : seq_seg_run) : Nat := r.stop_arrow

end seq_seg_run

open seq_seg_run

/-- The function `get_length_of_seq_seg()` -/
def get_length_of_seq_seg (r : seq_seg_run) (arg_seg_idx : Nat) : Except cath_error Nat := do
  let start ← r.get_start_arrow_of_segment arg_seg_idx
  pure (to_residx (arrow_diff (r.get_stop_arrow_of_segment arg_seg_idx) start))

/-- The function `get_seq_seg_of_seg_idx()`: builds a `seq_seg` from the segment's two boundaries. -/
def get_seq_seg_of_seg_idx (r : seq_seg_run) (arg_seg_idx : Nat) : Except cath_error seq_seg := do
  let start ← r.get_start_arrow_of_segment arg_seg_idx
  seq_seg.make start (r.get_stop_arrow_of_segment arg_seg_idx)

/-- The function `get_seq_segs(const seq_seg_run &)`: the segments of indices `0 .. get_num_segments() - 1`. -/
def get_seq_segs (r : seq_seg_run) : Except cath_error (List seq_seg) :=
  (List.range r.get_num_segments).mapM (fun x => get_seq_seg_of_seg_idx r x)

/-- The function `get_total_length()`: `boost::accumulate` of the segment lengths in `residx_t`. -/
def get_total_length (r : seq_seg_run) : Except cath_error Nat :=
  (List.range r.get_num_segments).foldlM
    (fun acc x => do
      let len ← get_length_of_seq_seg r x
      pure ((acc + len) % residx_mod))
    0

/-- The function `any_interaction()` -/
def any_interaction (a b : seq_seg_run) : Bool :=
  decide (a.get_start_arrow < b.get_stop_arrow) && decide (b.get_start_arrow < a.get_stop_arrow)

namespace detail

/-- The function `detail::index_of_first_seg_not_earlier_than_arrow()` -/
def index_of_first_seg_not_earlier_than_arrow (r : seq_seg_run) (arg_arrow : Nat) : Nat :=
  let num_segs := r.get_num_segments
  lower_bound num_segs (fun seg_index => decide (r.get_stop_arrow_of_segment seg_index ≤ arg_arrow))

/-- The `while` loop of `detail::apply_to_overlaps_in_seq_seg_runs()`: `s` is the state that
`arg_fn` updates through its captures. -/
def apply_loop {σ : Type} (a b : seq_seg_run) (arg_fn : σ → seq_seg → seq_seg → σ) :
    Nat → Nat → Nat → σ → Except cath_error σ
  | 0, _, _, _ => .error .out_of_fuel
  | fuel + 1, ctr_a, ctr_b, s =>
      if ctr_a ≠ a.get_num_segments ∧ ctr_b ≠ b.get_num_segments then do
        let seg_a ← get_seq_seg_of_seg_idx a ctr_a
        let seg_b ← get_seq_seg_of_seg_idx b ctr_b
        let s1 := if seg_a.are_overlapping seg_b then arg_fn s seg_a seg_b else s
        let ctr_a1 := if seg_a.stop_arrow ≤ seg_b.stop_arrow then ctr_a + 1 else ctr_a
        let ctr_b1 := if seg_b.stop_arrow ≤ seg_a.stop_arrow then ctr_b + 1 else ctr_b
        apply_loop a b arg_fn fuel ctr_a1 ctr_b1 s1
      else
        .ok s

/-- The function `detail::apply_to_overlaps_in_seq_seg_runs()`; the loop gets one unit of fuel for each
segment of either run and one for the final test of its condition. -/
def apply_to_overlaps_in_seq_seg_runs {σ : Type} (a b : seq_seg_run)
    (arg_fn : σ → seq_seg → seq_seg → σ) (s : σ) : Except cath_error σ :=
  let ctr_a := index_of_first_seg_not_earlier_than_arrow a b.get_start_arrow
  let ctr_b := index_of_first_seg_not_earlier_than_arrow b a.get_start_arrow
  apply_loop a b arg_fn (a.get_num_segments + b.get_num_segments + 1) ctr_a ctr_b s

end detail

/-- The function `are_overlapping(const seq_seg_run &, const seq_seg_run &)` -/
def are_overlapping (a b : seq_seg_run) : Except cath_error Bool :=
  detail.apply_to_overlaps_in_seq_seg_runs a b (fun _ _ _ => true) false

/-- The function `overlap_by(const seq_seg_run &, const seq_seg_run &)`: `overlap_size` is a `residx_t`. -/
def overlap_by (a b : seq_seg_run) : Except cath_error Nat :=
  if ! any_interaction a b then
    .ok 0
  else
    detail.apply_to_overlaps_in_seq_seg_runs a b
      (fun overlap_size x y => (overlap_size + x.overlap_by y) % residx_mod) 0

/-! ## Validity and specification-level definitions -/

/-- A valid `seq_seg_run`: one that passes `sanity_check`, whose fragments are `seq_seg`s
(they satisfy the `seq_seg` invariant) and whose boundaries fit `resarw_t`. -/
def seq_seg_run.valid (r : seq_seg_run) : Prop :=
  r.sanity_check = .ok () ∧ (∀ f ∈ r.fragments, f.valid) ∧ r.stop_arrow < residx_mod

instance (r : seq_seg_run) : Decidable r.valid := by
  unfold seq_seg_run.valid; infer_instance

/-- The segments of a run written out from its fields: from `start` to the first gap, between
consecutive gaps, and from the last gap to `stop`. -/
def segs_from (start : Nat) : List seq_seg → Nat → List seq_seg
  | [], stop => [⟨start, stop⟩]
  | f :: fs, stop => ⟨start, f.start_arrow⟩ :: segs_from f.stop_arrow fs stop

/-- The segments of a run, as a list. -/
def seq_seg_run.segs (r : seq_seg_run) : List seq_seg :=
  segs_from r.start_arrow r.fragments r.stop_arrow

/-- The number of positions two segments share: the length of the intersection of the
half-open intervals, `0` when they do not intersect. -/
def intersection_length (x y : seq_seg) : Nat :=
  if x.start_arrow < y.stop_arrow ∧ y.start_arrow < x.stop_arrow then
    min x.stop_arrow y.stop_arrow - max x.start_arrow y.start_arrow
  else 0

/-- The sum, over every pair of a segment of `xs` and a segment of `ys`, of the length of the
intersection of the two. -/
def pairwise_intersection_sum (xs ys : List seq_seg) : Nat :=
  (xs.map (fun x => (ys.map (fun y => intersection_length x y)).sum)).sum

/-- The sum of the lengths `stop - start` of the segments of a list. -/
def seg_length_sum (l : List seq_seg) : Nat :=
  (l.map (fun x => x.stop_arrow - x.start_arrow)).sum

/-- The pairs of a segment of `xs` and a segment of `ys` that share a position, each pair of
indices once, in index order. -/
def intersecting_pairs : List seq_seg → List seq_seg → List (seq_seg × seq_seg)
  | [], _ => []
  | x :: xs, ys =>
      (ys.filter (fun y => x.are_overlapping y)).map (fun y => (x, y)) ++ intersecting_pairs xs ys

/-- The chain of strict inequalities `start < f₀.start < f₀.stop < f₁.start < ... < stop`. -/
def chain_ok (start : Nat) : List seq_seg → Nat → Prop
  | [], stop => start < stop
  | f :: fs, stop => start < f.start_arrow ∧ f.start_arrow < f.stop_arrow ∧ chain_ok f.stop_arrow fs stop

/-- Segments that are non-empty, in increasing order and disjoint. -/
def seg_sorted (l : List seq_seg) : Prop :=
  (∀ x ∈ l, x.start_arrow < x.stop_arrow) ∧ l.Pairwise (fun x y => x.stop_arrow ≤ y.start_arrow)

/-! ## Residue indices and boundaries -/

/-- Modelled from the spec: `arrow_before_res` (`seq/seq_arrow.hpp` is missing); the spec's
"boundary-before(i)": the boundary just before residue `i`, which holds the index `i`. -/
def arrow_before_res (arg_res_index : Nat) : Nat := arg_res_index

/-- Modelled from the spec: `arrow_after_res` (`seq/seq_arrow.hpp` is missing); the spec's
"boundary-after(i)", the same boundary as "before position i + 1"; the index is a `resarw_t`,
so `i + 1` is taken in `unsigned int`. -/
def arrow_after_res (arg_res_index : Nat) : Nat := (arg_res_index + 1) % residx_mod

/-- Modelled from the spec: `seq_arrow::res_after()` (`seq/seq_arrow.hpp` is missing): the
index of the residue just after the boundary, which is the index the boundary holds. -/
def res_after (arrow : Nat) : Nat := arrow

/-- Modelled from the spec: `seq_arrow::res_before()` (`seq/seq_arrow.hpp` is missing): the
index of the residue just before the boundary, the boundary's index minus one in
`unsigned int`. -/
def res_before (arrow : Nat) : Nat := (arrow + residx_mod - 1) % residx_mod

/-- The function `get_start_res_index()` -/
def get_start_res_index (r : seq_seg_run) : Nat := res_after r.get_start_arrow

/-- The function `get_stop_res_index()` -/
def get_stop_res_index (r : seq_seg_run) : Nat := res_before r.get_stop_arrow

/-- The function `make_seq_seg_run_from_res_indices(const residx_t &, const residx_t &)` -/
def make_seq_seg_run_from_res_indices (arg_start_res_idx arg_stop_res_idx : Nat) :
    Except cath_error seq_seg_run :=
  seq_seg_run.ctor_contig (arrow_before_res arg_start_res_idx) (arrow_after_res arg_stop_res_idx)

/-- The function `get_stop_of_first_segment()` -/
def get_stop_of_first_segment (r : seq_seg_run) : Except cath_error Nat :=
  if ! r.is_discontig then
    .error (.invalid_argument_exception "Cannot get_stop_of_first_segment of contiguous seq_seg_run")
  else
    .ok (r.get_stop_arrow_of_segment 0)

/-- The function `get_start_of_last_segment()` -/
def get_start_of_last_segment (r : seq_seg_run) : Except cath_error Nat :=
  if ! r.is_discontig then
    .error (.invalid_argument_exception "Cannot get_start_of_last_segment of contiguous seq_seg_run")
  else
    r.get_start_arrow_of_segment (r.get_num_segments - 1)

/-! ## Lengths and fractions of overlap -/

/-- The function `shorter_length()` -/
def shorter_length (a b : seq_seg_run) : Except cath_error Nat := do
  let length_a ← get_total_length a
  let length_b ← get_total_length b
  pure (min length_a length_b)

/-- The function `longer_length()` -/
def longer_length (a b : seq_seg_run) : Except cath_error Nat := do
  let length_a ← get_total_length a
  let length_b ← get_total_length b
  pure (max length_a length_b)

/-- The two `residx_t` operands of `fraction_overlap_over_shorter()`, numerator first; the
function casts each to `double` and divides. -/
def fraction_overlap_over_shorter_operands (a b : seq_seg_run) : Except cath_error (Nat × Nat) := do
  let numerator ← overlap_by a b
  let denominator ← shorter_length a b
  pure (numerator, denominator)

/-- The two `residx_t` operands of `fraction_overlap_over_longer()`, numerator first; the
function casts each to `double` and divides. -/
def fraction_overlap_over_longer_operands (a b : seq_seg_run) : Except cath_error (Nat × Nat) := do
  let numerator ← overlap_by a b
  let denominator ← longer_length a b
  pure (numerator, denominator)

end seq

/-! # Architectures of hits (`resolve_hits/res_arrow.cpp`, `resolve_hits/hit_arch.h`) -/

namespace rslv

open seq seq.seq_seg_run

/-! ## `res_arrow` -/

/-- Modelled from the spec: class `res_arrow` (`resolve_hits/res_arrow.h` is missing) is
written as the boundary index it holds; `arrow_before_res` is the spec's
"boundary-before(i)". -/
def arrow_before_res (arg_res_index : Nat) : Nat := arg_res_index

/-- Modelled from the spec: `arrow_after_res` (`resolve_hits/res_arrow.h` is missing); the
spec's "boundary-after(i)": "before position N" and "after position N-1" are the same
boundary. The index is an `unsigned int`, so `i + 1` wraps at `residx_mod`. -/
def arrow_after_res (arg_res_index : Nat) : Nat := (arg_res_index + 1) % residx_mod

/-- Modelled from the spec: `start_arrow` (`resolve_hits/res_arrow.h` is missing); the spec's
"start-of-sequence boundary (position 0)". -/
def start_arrow : Nat := arrow_before_res 0

/-- Modelled from the spec: `res_arrow::res_after()` (`resolve_hits/res_arrow.h` is missing):
the index of the residue just after the boundary. -/
def res_after (arrow : Nat) : Nat := arrow

/-- Modelled from the spec: `res_arrow::res_before()` (`resolve_hits/res_arrow.h` is missing):
the index of the residue just before the boundary, the boundary's index minus one in
`unsigned int`. -/
def res_before (arrow : Nat) : Nat := (arrow + residx_mod - 1) % residx_mod

/-! ## `calc_hit` -/

/-- Modelled from the spec: class `calc_hit` (`resolve_hits/calc_hit.h` is missing); the spec's
CandidateHit is "a SegmentRun, a numeric score ... and an opaque label". Two hits are equal
(`operator==`) when all three agree. -/
structure calc_hit where
  segments : seq_seg_run
  score : Int
  label : Nat
  deriving DecidableEq, Repr

/-- Modelled from the spec: `hits_overlap` (`resolve_hits/calc_hit.h` is missing); the spec's
architecture check uses "the exact overlap predicate (§4.1)" on the two hits' segment runs,
which is `are_overlapping` of `seq_seg_run.hpp`. -/
def hits_overlap (a b : calc_hit) : Except cath_error Bool :=
  seq.are_overlapping a.segments b.segments

/-- Modelled from the spec: the comparator `calc_hit::get_hit_start_less()`
(`resolve_hits/calc_hit.h` is missing): "sort by start boundary". -/
def get_hit_start_less (x y : calc_hit) : Bool :=
  decide (x.segments.get_start_arrow < y.segments.get_start_arrow)

/-- The order in which a sort by `get_hit_start_less` may leave `x` before `y`: `y` is not
less than `x`. -/
def hit_start_le (x y : calc_hit) : Prop := get_hit_start_less y x = false

instance : DecidableRel hit_start_le := fun x y =>
  inferInstanceAs (Decidable (get_hit_start_less y x = false))

/-- Whether some segment of `a` and some segment of `b` share a position: the value
`hits_overlap` returns on hits whose segment runs are valid. -/
def hits_share_position (a b : calc_hit) : Bool :=
  !(intersecting_pairs a.segments.segs b.segments.segs).isEmpty

/-- Ascending order of start boundary. -/
def start_le (x y : calc_hit) : Prop :=
  x.segments.get_start_arrow ≤ y.segments.get_start_arrow

instance : DecidableRel start_le := fun x y =>
  inferInstanceAs (Decidable (x.segments.get_start_arrow ≤ y.segments.get_start_arrow))

/-! ## `hit_arch` -/

/-- The class `hit_arch`: the hits that make up the architecture. -/
structure hit_arch where
  the_hits : List calc_hit
  deriving DecidableEq, Repr

namespace hit_arch

/-- The method `hit_arch::sort_hit_vec()`: `boost::range::sort` by `get_hit_start_less`,
written as an insertion sort (`std::sort` leaves the order of hits with equal starts open;
this model keeps their order). -/
def sort_hit_vec (arg_hit_vec : List calc_hit) : List calc_hit :=
  arg_hit_vec.insertionSort hit_start_le

/-- The call `boost::range::adjacent_find( the_hits, &hits_overlap )` of `sanity_check`,
as whether it finds a pair (its result differs from the end iterator). -/
def adjacent_find_overlap : List calc_hit → Except cath_error Bool
  | x :: y :: rest => do
      if (← hits_overlap x y) then pure true else adjacent_find_overlap (y :: rest)
  | _ => pure false

/-- The method `hit_arch::sanity_check()` -/
def sanity_check (a : hit_arch) : Except cath_error Unit := do
  if (← adjacent_find_overlap a.the_hits) then
    .error (.invalid_argument_exception "Cannot create hit_arch with overlapping domains")
  else
    .ok ()

/-- The constructor `hit_arch(const calc_hit_vec &)` -/
def ctor (arg_hit_arch : List calc_hit) : Except cath_error hit_arch := do
  let a : hit_arch := ⟨sort_hit_vec arg_hit_arch⟩
  a.sanity_check
  pure a

/-- The method `hit_arch::size()` -/
def size (a : hit_arch) : Nat := a.the_hits.length

/-- The method `hit_arch::empty()` -/
def empty (a : hit_arch) : Bool := a.the_hits.isEmpty

/-- The method `hit_arch::remove()`: the architecture after the call and the value returned;
`boost::range::find` gives the first hit equal to `arg_hit`, which `erase` deletes. -/
def remove (a : hit_arch) (arg_hit : calc_hit) : hit_arch × Bool :=
  match a.the_hits.indexOf? arg_hit with
  | some find_itr => (⟨a.the_hits.eraseIdx find_itr⟩, true)
  | none => (a, false)

/-- The method `hit_arch::operator+=(const calc_hit &)`: the architecture after the call, and
whether the call returned or threw. The hit is pushed and the hits are sorted before
`sanity_check` runs, and nothing undoes that when it throws. -/
def op_plus_eq_hit (a : hit_arch) (arg_hit : calc_hit) : hit_arch × Except cath_error Unit :=
  let a1 : hit_arch := ⟨sort_hit_vec (a.the_hits ++ [arg_hit])⟩
  (a1, a1.sanity_check)

/-- The method `hit_arch::operator+=(const hit_arch &)`: the loop over the hits of the other
architecture, which ends at the first `+=` that throws. -/
def op_plus_eq_hits (a : hit_arch) : List calc_hit → hit_arch × Except cath_error Unit
  | [] => (a, .ok ())
  | the_hit :: rest =>
      match a.op_plus_eq_hit the_hit with
      | (a1, .ok _) => op_plus_eq_hits a1 rest
      | (a1, .error e) => (a1, .error e)

/-- The method `hit_arch::operator+=(const hit_arch &)` -/
def op_plus_eq_arch (a arg_hit_arch : hit_arch) : hit_arch × Except cath_error Unit :=
  a.op_plus_eq_hits arg_hit_arch.the_hits

/-- The architectures a program can hold: default-constructed, or constructed from a vector
without a throw, and then changed by any sequence of `+=` (returning or throwing) and
`remove` calls. -/
inductive reachable : hit_arch → Prop
  | default : reachable ⟨[]⟩
  | ctor (v : List calc_hit) (a : hit_arch) : hit_arch.ctor v = .ok a → reachable a
  | plus_eq_hit (a : hit_arch) (h : calc_hit) : reachable a → reachable (a.op_plus_eq_hit h).1
  | plus_eq_arch (a b : hit_arch) : reachable a → reachable (a.op_plus_eq_arch b).1
  | remove (a : hit_arch) (h : calc_hit) : reachable a → reachable (a.remove h).1

end hit_arch

/-! ## The resolver (`resolve_hits/hit_resolver.h`) -/

/-- Modelled from the spec: class `scored_hit_arch` (`resolve_hits/scored_hit_arch.h` is
missing); the spec's ScoredArchitecture is "an Architecture plus its aggregate score (sum of
member hit scores)". -/
structure scored_hit_arch where
  arch : hit_arch
  score : Int
  deriving DecidableEq, Repr

/-- The start boundary of a hit. -/
def calc_hit.start (x : calc_hit) : Nat := x.segments.get_start_arrow

/-- The stop boundary of a hit. -/
def calc_hit.stop (x : calc_hit) : Nat := x.segments.get_stop_arrow

/-- Modelled from the spec: the order of step 1 of the resolver (`resolve_hits/hit_resolver.h`
is missing): "Sort all candidate hits by stop boundary (ties broken by start boundary, then
by score descending, ...)". -/
def resolve_order_le (x y : calc_hit) : Prop :=
  x.stop < y.stop ∨
    (x.stop = y.stop ∧ (x.start < y.start ∨ (x.start = y.start ∧ y.score ≤ x.score)))

instance : DecidableRel resolve_order_le := fun x y =>
  inferInstanceAs (Decidable (x.stop < y.stop ∨
    (x.stop = y.stop ∧ (x.start < y.start ∨ (x.start = y.start ∧ y.score ≤ x.score)))))

/-- Modelled from the spec: step 1 of the resolver; the last tie-break, "then by insertion
order", is the stability of the insertion sort. -/
def sort_hits_by_stop (hits : List calc_hit) : List calc_hit :=
  hits.insertionSort resolve_order_le

/-- Modelled from the spec: one entry `best[b]` of the resolver's table, "the best
ScoredArchitecture whose members all end at or before boundary `b`": the boundary, the member
hits in the order in which they were included, and their total score. -/
structure dp_entry where
  boundary : Nat
  members : List calc_hit
  score : Int
  deriving DecidableEq, Repr

/-- Modelled from the spec: the initial entry, "`best[start-of-sequence]` = empty
architecture, score 0". -/
def dp_entry.initial : dp_entry := ⟨0, [], 0⟩

/-- Modelled from the spec: `best[last boundary ≤ s]`, the entry written last among those
whose boundary is at most `s`. -/
def best_at (table : List dp_entry) (s : Nat) : dp_entry :=
  ((table.filter (fun e => decide (e.boundary ≤ s))).getLast?).getD dp_entry.initial

/-- Modelled from the spec: step 3 of the resolver for a hit `h` with start `s` and stop `e`:
"the candidate value of including `h` is `score(h) + best[last boundary ≤ s].score`", it is
compared with the best found without `h` (the entry written last), and the larger is written
as `best[e]`; step 4: on a tie the architecture with fewer members is preferred, then the one
found earlier. -/
def dp_step (table : List dp_entry) (h : calc_hit) : List dp_entry :=
  let base := best_at table h.start
  let skip := (table.getLast?).getD dp_entry.initial
  let included : dp_entry := ⟨h.stop, base.members ++ [h], base.score + h.score⟩
  let best : dp_entry :=
    if skip.score < included.score then included
    else if included.score = skip.score ∧ included.members.length < skip.members.length then
      included
    else ⟨h.stop, skip.members, skip.score⟩
  table ++ [best]

/-- Modelled from the spec: the table after steps 1 to 4 of the resolver. -/
def resolve_table (hits : List calc_hit) : List dp_entry :=
  (sort_hits_by_stop hits).foldl dp_step [dp_entry.initial]

/-- Modelled from the spec: `resolve_hits` (`resolve_hits/hit_resolver.h` is missing; only its
call in `write_results_hits_processor.cpp` is there), as §4.3 describes it: weighted interval
scheduling by dynamic programming over boundaries; step 5: "the final answer is
`best[final boundary]`", whose member hits are "assembled into an Architecture". -/
def resolve_hits (hits : List calc_hit) : Except cath_error scored_hit_arch := do
  let final := ((resolve_table hits).getLast?).getD dp_entry.initial
  let arch ← hit_arch.ctor final.members
  pure ⟨arch, final.score⟩

/-- Two hits whose spans `[start, stop)` do not intersect: `any_interaction` is false. -/
def no_interaction (x y : calc_hit) : Prop :=
  seq.any_interaction x.segments y.segments = false

instance : DecidableRel no_interaction := fun x y =>
  inferInstanceAs (Decidable (seq.any_interaction x.segments y.segments = false))

/-- The function `operator+(hit_arch, const calc_hit &)`: `+=` on the copy it is handed, which
is returned unless `+=` throws. -/
def op_plus_hit (arg_hit_arch : hit_arch) (arg_hit : calc_hit) : Except cath_error hit_arch :=
  match arg_hit_arch.op_plus_eq_hit arg_hit with
  | (a1, .ok _) => .ok a1
  | (_, .error e) => .error e

/-- The function `operator+(hit_arch, const hit_arch &)`: `+=` on the copy it is handed, which
is returned unless `+=` throws. -/
def op_plus_arch (arg_hit_arch_lhs arg_hit_arch_rhs : hit_arch) : Except cath_error hit_arch :=
  match arg_hit_arch_lhs.op_plus_eq_arch arg_hit_arch_rhs with
  | (a1, .ok _) => .ok a1
  | (_, .error e) => .error e

/-! ## Writing the results of a query (`write_results_hits_processor.cpp`) -/

/-- Modelled from the spec: the enumeration `hit_boundary_output` (its header is missing); the
spec's "trimming-state (trimmed vs untrimmed boundaries)". The code names `TRIMMED`. -/
inductive hit_boundary_output where
  | ORIG
  | TRIMMED
  deriving DecidableEq, Repr

/-- The function `boost::make_optional( cond, value )`: the value when the condition holds,
otherwise nothing. -/
def make_optional {α : Type} (cond : Bool) (value : α) : Option α :=
  if cond then some value else none

namespace detail

/-- The functions that `do_process_hits_for_query` calls and whose code is in other files
(`calc_hit_list.h`, `hit_resolver.h`, the output functions, `crh_segment_spec`): each is taken as
given, and each may throw. A `full_hit_list` is taken as the list of its hits. -/
structure hits_processor_deps (full_hit crh_score_spec crh_segment_spec crh_filter_spec
    calc_hit_list trim_spec hit_output_format : Type) where
  calc_hit_list_ctor : List full_hit → crh_score_spec → crh_segment_spec → crh_filter_spec →
    Except cath_error calc_hit_list
  get_full_hits : calc_hit_list → List full_hit
  resolve_hits : calc_hit_list → Except cath_error scored_hit_arch
  get_overlap_trim_spec : crh_segment_spec → trim_spec
  JON : hit_output_format
  to_output_string : hit_arch → List full_hit → hit_output_format → String → Option trim_spec →
    Except cath_error String

/-- The class `write_results_hits_processor`: the stream it writes to (as the text written so
far), the two specs its base class holds, and `boundary_output`. -/
structure write_results_hits_processor (crh_score_spec crh_segment_spec : Type) where
  the_ostream : String
  score_spec : crh_score_spec
  segment_spec : crh_segment_spec
  boundary_output : hit_boundary_output
  deriving DecidableEq, Repr

/-- The method `write_results_hits_processor::do_process_hits_for_query()`: the processor and
the caller's `arg_full_hits` after the call. -/
def do_process_hits_for_query {full_hit crh_score_spec crh_segment_spec crh_filter_spec
    calc_hit_list trim_spec hit_output_format : Type}
    (deps : hits_processor_deps full_hit crh_score_spec crh_segment_spec crh_filter_spec
      calc_hit_list trim_spec hit_output_format)
    (self : write_results_hits_processor crh_score_spec crh_segment_spec)
    (arg_query_id : String) (arg_filter_spec : crh_filter_spec) (arg_full_hits : List full_hit) :
    Except cath_error
      (write_results_hits_processor crh_score_spec crh_segment_spec × List full_hit) := do
  let the_calc_hit_list ←
    deps.calc_hit_list_ctor arg_full_hits self.score_spec self.segment_spec arg_filter_spec
  let arg_full_hits : List full_hit := []
  let best_result ← deps.resolve_hits the_calc_hit_list
  let output ← deps.to_output_string
    best_result.arch
    (deps.get_full_hits the_calc_hit_list)
    deps.JON
    arg_query_id
    (make_optional
      (self.boundary_output == hit_boundary_output.TRIMMED)
      (deps.get_overlap_trim_spec self.segment_spec))
  pure ({ self with the_ostream := self.the_ostream ++ output }, arg_full_hits)

/-- An instance of the functions `do_process_hits_for_query` calls, for examples: the full
hits are `calc_hit`s and the `calc_hit_list` is the list of them, the resolver is
`resolve_hits`, the trim spec is the segment spec (a number), and the output is the query id,
a `+` for each hit of the architecture and then `trimmed` or `orig`. -/
def example_deps : hits_processor_deps calc_hit Unit Nat Unit (List calc_hit) Nat Unit :=
  ⟨fun hits _ _ _ => .ok hits, id, resolve_hits, id, (),
    fun a _ _ q t => .ok (q ++ String.join (a.the_hits.map (fun _ => "+")) ++
      (if t.isSome then " trimmed" else " orig"))⟩

end detail

/-! ## The score category of an id (`cath_id_score_category.cpp`) -/

/-- The enumeration `cath_id_score_category` -/
inductive cath_id_score_category where
  | NORMAL
  | DC_TYPE
  deriving DecidableEq, Repr

/-- The class `\w` of `std::regex` (ECMAScript grammar, classic locale): a letter, a digit or
an underscore. -/
def is_word_char (c : Char) : Bool := c.isAlphanum || c == '_'

/-- A match of `dc_\w{32}` that begins at the front of the characters: what follows it. -/
def match_dc_word32 (s : List Char) : Option (List Char) :=
  if ['d', 'c', '_'].isPrefixOf s ∧ 32 ≤ (s.drop 3).length ∧
      ((s.drop 3).take 32).all is_word_char then
    some (s.drop 35)
  else
    none

/-- The call `regex_search( begin, end, dc_regex )` with `dc_regex` the expression
`^dc_\w{32}$`: `^` holds at the beginning of the characters only, so a match begins there; `$`
holds at their end only. -/
def regex_search_dc_regex (prm_id : List Char) : Bool :=
  match match_dc_word32 prm_id with
  | some rest => rest.isEmpty
  | none => false

/-- The function `cath_score_category_of_id()`; the id is the list of its characters. -/
def cath_score_category_of_id (prm_id : List Char) (prm_apply_cath_policies : Bool) :
    cath_id_score_category :=
  if prm_apply_cath_policies then
    if prm_id.length = 35 ∧ ['d', 'c', '_'].isPrefixOf prm_id then
      if regex_search_dc_regex prm_id then
        cath_id_score_category.DC_TYPE
      else
        cath_id_score_category.NORMAL
    else
      cath_id_score_category.NORMAL
  else
    cath_id_score_category.NORMAL

end rslv

/-! ## Names for the viewer (`display/viewer/viewer.cpp`) -/

/-- The predicate `boost::algorithm::is_alnum()` in the classic locale: a letter or a digit. -/
def is_alnum (c : Char) : Bool := c.isAlphanum

/-- The predicate `boost::algorithm::is_space()` in the classic locale: the space, and the
characters 9 to 13 (tab, line feed, vertical tab, form feed, carriage return). -/
def is_space (c : Char) : Bool := c == ' ' || (decide (9 ≤ c.toNat) && decide (c.toNat ≤ 13))

/-- The function `clean_name_for_viewer()`; a string is the list of its characters, and the
loop over them is a fold whose state is `new_name`. -/
def clean_name_for_viewer (arg_name : List Char) : List Char :=
  arg_name.foldl
    (fun new_name name_char =>
      if is_alnum name_char then
        new_name ++ [name_char]
      else if is_space name_char || name_char == '_' then
        new_name ++ ['_']
      else
        new_name)
    []

/-- The string the heuristic in the comment above `clean_name_for_viewer()` describes: keep the
alphanumeric characters, turn each space character into an underscore, drop every other
character. -/
def clean_name_as_described (arg_name : List Char) : List Char :=
  arg_name.filterMap
    (fun c => if is_alnum c then some c else if is_space c then some '_' else none)

namespace opts

/-! ## The options of `cath-score-align` (`cath_score_align_options.cpp`) -/

/-- The method `cath_score_align_options::do_get_error_or_help_string()`; the two counts that
`get_num_acquirers` returns for the alignment and the PDB options blocks are given. -/
def do_get_error_or_help_string (num_aln_acquirers num_pdb_acquirers : Nat) : Option String :=
  if num_aln_acquirers = 0 ∧ num_pdb_acquirers = 0 then
    some ""
  else if num_aln_acquirers > 1 then
    some ("Please specify at most one source of an alignment or superposition ("
      ++ toString num_aln_acquirers
      ++ " specified)")
  else if num_pdb_acquirers ≠ 1 then
    some ("Please specify one source of PDBs ("
      ++ toString num_pdb_acquirers
      ++ " specified)")
  else
    none

/-- The method `cath_score_align_options::check_ok_to_use()`; the value that
`get_error_or_help_string()` of the base class returns is given. -/
def check_ok_to_use (error_or_help_string : Option String) : Except seq.cath_error Unit :=
  if error_or_help_string.isSome then
    .error (.invalid_argument_exception "Attempt to use invalid cath_score_align_options")
  else
    .ok ()

end opts

namespace seq

open seq_seg_run

/-! # Properties -/

/-! ## Lemmas: `sanity_check` and the chain of boundaries -/

theorem sanity_check_ok_iff (s e : Nat) (fs : List seq_seg) :
    (seq_seg_run.mk s e fs).sanity_check = .ok () ↔
      s < e ∧ (∀ h : fs ≠ [], s < (fs.head h).start_arrow ∧ (fs.getLast h).stop_arrow < e) ∧
        contains_adjacent_match (fun x y => decide (x.stop_arrow ≥ y.start_arrow)) fs = false := by
  unfold seq_seg_run.sanity_check
  by_cases h1 : e ≤ s
  · simp [h1]
  · by_cases h2 : fs = []
    · subst h2; simp [h1, contains_adjacent_match]; omega
    · simp only [h1, h2, ne_eq, not_false_eq_true, ↓reduceIte, ↓reduceDIte, ge_iff_le]
      by_cases h3 : (fs.head h2).start_arrow ≤ s
      · simp [h3]
      · by_cases h4 : e ≤ (fs.getLast h2).stop_arrow
        · simp [h3, h4]
        · simp only [h3, h4, ↓reduceIte]
          cases hc : contains_adjacent_match (fun x y => decide (y.start_arrow ≤ x.stop_arrow)) fs
          · simp; refine ⟨by omega, by omega, by omega⟩
          · simp

theorem chain_ok_lt {s e : Nat} {fs : List seq_seg} (h : chain_ok s fs e) : s < e := by
  induction fs generalizing s with
  | nil => exact h
  | cons f fs ih =>
    obtain ⟨h1, h2, h3⟩ := h
    have := ih h3
    omega

theorem chain_ok_cons_iff (e : Nat) (f : seq_seg) (fs : List seq_seg) (s : Nat) :
    (s < f.start_arrow ∧ ((f :: fs).getLast (List.cons_ne_nil f fs)).stop_arrow < e ∧
        contains_adjacent_match (fun x y => decide (x.stop_arrow ≥ y.start_arrow)) (f :: fs) = false ∧
        ∀ g ∈ f :: fs, g.valid) ↔ chain_ok s (f :: fs) e := by
  induction fs generalizing f s with
  | nil =>
    simp [chain_ok, contains_adjacent_match, seq_seg.valid]
    tauto
  | cons g rest ih =>
    have ih2 := ih g f.stop_arrow
    rw [chain_ok, ← ih2]
    simp [contains_adjacent_match, seq_seg.valid]
    tauto

theorem valid_iff_chain_ok (s e : Nat) (fs : List seq_seg) :
    ((seq_seg_run.mk s e fs).sanity_check = .ok () ∧ ∀ f ∈ fs, f.valid) ↔ chain_ok s fs e := by
  rw [sanity_check_ok_iff]
  cases fs with
  | nil => simp [chain_ok, contains_adjacent_match]
  | cons f fs =>
    rw [← chain_ok_cons_iff]
    constructor
    · rintro ⟨⟨h1, h2, h3⟩, h4⟩
      exact ⟨(h2 (List.cons_ne_nil f fs)).1, (h2 (List.cons_ne_nil f fs)).2, h3, h4⟩
    · rintro ⟨h1, h2, h3, h4⟩
      have hc := (chain_ok_cons_iff e f fs s).1 ⟨h1, h2, h3, h4⟩
      exact ⟨⟨chain_ok_lt hc, fun _ => ⟨h1, h2⟩, h3⟩, h4⟩

theorem valid_chain_ok {r : seq_seg_run} (h : r.valid) : chain_ok r.start_arrow r.fragments r.stop_arrow :=
  (valid_iff_chain_ok r.start_arrow r.stop_arrow r.fragments).1 ⟨h.1, h.2.1⟩

/-! ## Lemmas: the segments of a run -/

theorem segs_from_length (s e : Nat) (fs : List seq_seg) :
    (segs_from s fs e).length = fs.length + 1 := by
  induction fs generalizing s with
  | nil => rfl
  | cons f fs ih => simp [segs_from, ih]

theorem segs_from_bounds {s e : Nat} {fs : List seq_seg} (h : chain_ok s fs e) :
    ∀ x ∈ segs_from s fs e, s ≤ x.start_arrow ∧ x.start_arrow < x.stop_arrow ∧ x.stop_arrow ≤ e := by
  induction fs generalizing s with
  | nil =>
    intro x hx
    simp [segs_from] at hx
    subst hx
    simp only [chain_ok] at h
    simp; omega
  | cons f fs ih =>
    obtain ⟨h1, h2, h3⟩ := h
    intro x hx
    simp only [segs_from, List.mem_cons] at hx
    rcases hx with hx | hx
    · subst hx
      have := chain_ok_lt h3
      simp; omega
    · have := ih h3 x hx
      omega

theorem segs_from_sorted {s e : Nat} {fs : List seq_seg} (h : chain_ok s fs e) :
    seg_sorted (segs_from s fs e) := by
  refine ⟨fun x hx => (segs_from_bounds h x hx).2.1, ?_⟩
  induction fs generalizing s with
  | nil => simp [segs_from]
  | cons f fs ih =>
    obtain ⟨h1, h2, h3⟩ := h
    simp only [segs_from, List.pairwise_cons]
    refine ⟨fun y hy => ?_, ih h3⟩
    have := segs_from_bounds h3 y hy
    simp; omega

theorem segs_from_getElem? (s e : Nat) (fs : List seq_seg) (i : Nat) (x : seq_seg)
    (h : (segs_from s fs e)[i]? = some x) :
    (seq_seg_run.mk s e fs).get_start_arrow_of_segment i = .ok x.start_arrow ∧
      (seq_seg_run.mk s e fs).get_stop_arrow_of_segment i = x.stop_arrow := by
  induction fs generalizing s i with
  | nil =>
    cases i with
    | zero =>
      simp [segs_from] at h
      subst h
      simp [get_start_arrow_of_segment, get_stop_arrow_of_segment]
    | succ i => simp [segs_from] at h
  | cons f fs ih =>
    cases i with
    | zero =>
      simp [segs_from] at h
      subst h
      simp [get_start_arrow_of_segment, get_stop_arrow_of_segment]
    | succ i =>
      simp only [segs_from, List.getElem?_cons_succ] at h
      have ih2 := ih f.stop_arrow i h
      cases i with
      | zero =>
        simp [get_start_arrow_of_segment, get_stop_arrow_of_segment] at ih2 ⊢
        exact ih2
      | succ j =>
        simp [get_start_arrow_of_segment, get_stop_arrow_of_segment] at ih2 ⊢
        exact ih2

theorem get_seq_seg_of_seg_idx_of_chain {r : seq_seg_run}
    (h : chain_ok r.start_arrow r.fragments r.stop_arrow) (i : Nat) (x : seq_seg)
    (hx : r.segs[i]? = some x) : get_seq_seg_of_seg_idx r i = .ok x := by
  have hb := segs_from_bounds h x (List.getElem?_mem hx)
  obtain ⟨h1, h2⟩ := segs_from_getElem? r.start_arrow r.stop_arrow r.fragments i x hx
  have h3 : ¬ x.stop_arrow ≤ x.start_arrow := by omega
  simp only [get_seq_seg_of_seg_idx, h1, h2, seq_seg.make, bind, Except.bind, h3, ↓reduceIte]

theorem get_seq_seg_of_seg_idx_eq {r : seq_seg_run} (h : r.valid) (i : Nat) (x : seq_seg)
    (hx : r.segs[i]? = some x) : get_seq_seg_of_seg_idx r i = .ok x :=
  get_seq_seg_of_seg_idx_of_chain (valid_chain_ok h) i x hx

theorem get_length_of_seq_seg_eq {r : seq_seg_run} (h : r.valid) (i : Nat) (x : seq_seg)
    (hx : r.segs[i]? = some x) :
    get_length_of_seq_seg r i = .ok (x.stop_arrow - x.start_arrow) := by
  have hb := segs_from_bounds (valid_chain_ok h) x (List.getElem?_mem hx)
  obtain ⟨h1, h2⟩ := segs_from_getElem? r.start_arrow r.stop_arrow r.fragments i x hx
  have h3 := h.2.2
  simp only [get_length_of_seq_seg, h1, h2, bind, Except.bind, pure, Except.pure, to_residx,
    arrow_diff, residx_mod] at h3 ⊢
  congr 1
  omega

/-! ## Lemmas: monadic traversals of an index range -/

theorem mapM_range_ok {ε β : Type} (l : List β) (f : Nat → Except ε β)
    (h : ∀ i x, l[i]? = some x → f i = .ok x) :
    (List.range l.length).mapM f = .ok l := by
  induction l using List.reverseRecOn with
  | nil => rfl
  | append_singleton l a ih =>
    have h1 : (List.range l.length).mapM f = .ok l := by
      apply ih
      intro i x hx
      apply h
      have hi : i < l.length := by
        by_contra hc
        rw [List.getElem?_eq_none (by omega)] at hx
        cases hx
      rw [List.getElem?_append_left hi]
      exact hx
    have h2 : f l.length = .ok a := by
      apply h
      simp
    simp only [List.length_append, List.length_singleton, List.range_succ, List.mapM_append, h1,
      List.mapM_cons, List.mapM_nil, h2]
    rfl

theorem foldlM_range_ok {ε β σ : Type} (l : List β) (step : σ → Nat → Except ε σ) (g : σ → β → σ)
    (h : ∀ i x, l[i]? = some x → ∀ acc, step acc i = .ok (g acc x)) (a : σ) :
    (List.range l.length).foldlM step a = .ok (l.foldl g a) := by
  induction l using List.reverseRecOn with
  | nil => rfl
  | append_singleton l b ih =>
    have h1 : (List.range l.length).foldlM step a = .ok (l.foldl g a) := by
      apply ih
      intro i x hx
      apply h
      have hi : i < l.length := by
        by_contra hc
        rw [List.getElem?_eq_none (by omega)] at hx
        cases hx
      rw [List.getElem?_append_left hi]
      exact hx
    have h2 : ∀ acc, step acc l.length = .ok (g acc b) := by
      apply h
      simp
    simp only [List.length_append, List.length_singleton, List.range_succ, List.foldlM_append, h1,
      List.foldlM_cons, List.foldlM_nil, List.foldl_append, List.foldl_cons, List.foldl_nil]
    simp [bind, Except.bind, h2, pure, Except.pure]

theorem get_seq_segs_of_chain {r : seq_seg_run}
    (h : chain_ok r.start_arrow r.fragments r.stop_arrow) : get_seq_segs r = .ok r.segs := by
  have hl : r.get_num_segments = r.segs.length := by
    simp [get_num_segments, seq_seg_run.segs, segs_from_length]
  rw [get_seq_segs, hl]
  exact mapM_range_ok r.segs _ (fun i x hx => get_seq_seg_of_seg_idx_of_chain h i x hx)

theorem get_seq_segs_eq {r : seq_seg_run} (h : r.valid) : get_seq_segs r = .ok r.segs :=
  get_seq_segs_of_chain (valid_chain_ok h)

theorem foldl_add_mod (l : List Nat) (a m : Nat) :
    l.foldl (fun acc x => (acc + x) % m) (a % m) = (a + l.sum) % m := by
  induction l generalizing a with
  | nil => simp
  | cons x xs ih =>
    simp only [List.foldl_cons, List.sum_cons]
    rw [Nat.mod_add_mod, ih, Nat.add_assoc]

/-! ## Lemmas: intersecting pairs of two sorted segment lists -/

theorem intersecting_pairs_nil_right (xs : List seq_seg) : intersecting_pairs xs [] = [] := by
  induction xs with
  | nil => rfl
  | cons x xs ih => simp [intersecting_pairs, ih]

theorem intersecting_pairs_append_left (xs xs2 ys : List seq_seg) :
    intersecting_pairs (xs ++ xs2) ys = intersecting_pairs xs ys ++ intersecting_pairs xs2 ys := by
  induction xs with
  | nil => rfl
  | cons x xs ih => simp [intersecting_pairs, ih]

theorem intersecting_pairs_eq_nil (xs ys : List seq_seg)
    (h : ∀ x ∈ xs, ∀ y ∈ ys, x.are_overlapping y = false) : intersecting_pairs xs ys = [] := by
  induction xs with
  | nil => rfl
  | cons x xs ih =>
    simp only [intersecting_pairs, List.append_eq_nil, List.map_eq_nil_iff, List.filter_eq_nil_iff]
    refine ⟨fun y hy => ?_, ih (fun x2 hx2 => h x2 (List.mem_cons_of_mem _ hx2))⟩
    simp [h x (List.mem_cons_self _ _) y hy]

theorem intersecting_pairs_skip_right (xs ys2 ys : List seq_seg)
    (h : ∀ x ∈ xs, ∀ y ∈ ys2, x.are_overlapping y = false) :
    intersecting_pairs xs (ys2 ++ ys) = intersecting_pairs xs ys := by
  induction xs with
  | nil => rfl
  | cons x xs ih =>
    have h1 : ys2.filter (fun y => x.are_overlapping y) = [] := by
      rw [List.filter_eq_nil_iff]
      intro y hy
      simp [h x (List.mem_cons_self _ _) y hy]
    simp only [intersecting_pairs, List.filter_append, h1, List.nil_append]
    rw [ih (fun x2 hx2 => h x2 (List.mem_cons_of_mem _ hx2))]

theorem not_overlapping_of_le {x y : seq_seg} (h : x.stop_arrow ≤ y.start_arrow) :
    x.are_overlapping y = false ∧ y.are_overlapping x = false := by
  simp only [seq_seg.are_overlapping, Bool.and_eq_false_imp, decide_eq_true_eq, decide_eq_false_iff_not]
  omega

theorem intersecting_pairs_cons_cons (x y : seq_seg) (xs ys : List seq_seg) :
    intersecting_pairs (x :: xs) (y :: ys) =
      (if x.are_overlapping y then [(x, y)] else []) ++ intersecting_pairs [x] ys ++
        intersecting_pairs xs (y :: ys) := by
  simp only [intersecting_pairs, List.filter_cons, List.append_nil]
  split <;> simp

theorem intersecting_pairs_step_left {x y : seq_seg} {xs ys : List seq_seg}
    (hy : seg_sorted (y :: ys)) (h : x.stop_arrow ≤ y.stop_arrow) :
    intersecting_pairs (x :: xs) (y :: ys) =
      (if x.are_overlapping y then [(x, y)] else []) ++ intersecting_pairs xs (y :: ys) := by
  rw [intersecting_pairs_cons_cons, intersecting_pairs_eq_nil [x] ys, List.append_nil]
  intro x2 hx2 y2 hy2
  simp only [List.mem_singleton] at hx2
  subst hx2
  have := (List.pairwise_cons.1 hy.2).1 y2 hy2
  exact (not_overlapping_of_le (by omega)).1

theorem intersecting_pairs_step_right {x y : seq_seg} {xs ys : List seq_seg}
    (hx : seg_sorted (x :: xs)) (h : y.stop_arrow ≤ x.stop_arrow) :
    intersecting_pairs (x :: xs) (y :: ys) =
      (if x.are_overlapping y then [(x, y)] else []) ++ intersecting_pairs (x :: xs) ys := by
  have h1 : intersecting_pairs xs (y :: ys) = intersecting_pairs xs ys := by
    apply intersecting_pairs_skip_right xs [y] ys
    intro x2 hx2 y2 hy2
    simp only [List.mem_singleton] at hy2
    subst hy2
    have := (List.pairwise_cons.1 hx.2).1 x2 hx2
    exact (not_overlapping_of_le (by omega)).2
  rw [intersecting_pairs_cons_cons, h1, List.append_assoc]
  congr 1
  exact (intersecting_pairs_append_left [x] xs ys).symm

theorem intersecting_pairs_step_both {x y : seq_seg} {xs ys : List seq_seg}
    (hx : seg_sorted (x :: xs)) (hy : seg_sorted (y :: ys)) (h : x.stop_arrow = y.stop_arrow) :
    intersecting_pairs (x :: xs) (y :: ys) =
      (if x.are_overlapping y then [(x, y)] else []) ++ intersecting_pairs xs ys := by
  rw [intersecting_pairs_step_left hy (by omega)]
  congr 1
  apply intersecting_pairs_skip_right xs [y] ys
  intro x2 hx2 y2 hy2
  simp only [List.mem_singleton] at hy2
  subst hy2
  have := (List.pairwise_cons.1 hx.2).1 x2 hx2
  exact (not_overlapping_of_le (by omega)).2

theorem seg_sorted_drop {l : List seq_seg} (h : seg_sorted l) (i : Nat) : seg_sorted (l.drop i) :=
  ⟨fun x hx => h.1 x (List.mem_of_mem_drop hx), h.2.sublist (List.drop_sublist i l)⟩

theorem foldl_hit {σ : Type} (fn : σ → seq_seg → seq_seg → σ) (x y : seq_seg)
    (rest : List (seq_seg × seq_seg)) (s : σ) :
    ((if x.are_overlapping y then [(x, y)] else []) ++ rest).foldl (fun s p => fn s p.1 p.2) s =
      rest.foldl (fun s p => fn s p.1 p.2) (if x.are_overlapping y then fn s x y else s) := by
  split <;> simp

/-! ## Lemmas: the loop of `apply_to_overlaps_in_seq_seg_runs` -/

theorem get_num_segments_eq (r : seq_seg_run) : r.get_num_segments = r.segs.length := by
  simp [get_num_segments, seq_seg_run.segs, segs_from_length]

theorem valid_segs_sorted {r : seq_seg_run} (h : r.valid) : seg_sorted r.segs :=
  segs_from_sorted (valid_chain_ok h)

theorem apply_loop_eq {σ : Type} {a b : seq_seg_run} (ha : a.valid) (hb : b.valid)
    (fn : σ → seq_seg → seq_seg → σ) :
    ∀ (fuel i j : Nat) (s : σ), i ≤ a.segs.length → j ≤ b.segs.length →
      (a.segs.length - i) + (b.segs.length - j) < fuel →
      detail.apply_loop a b fn fuel i j s =
        .ok ((intersecting_pairs (a.segs.drop i) (b.segs.drop j)).foldl (fun s p => fn s p.1 p.2) s) := by
  intro fuel
  induction fuel with
  | zero => intro i j s _ _ h; omega
  | succ fuel ih =>
    intro i j s hi hj hf
    unfold detail.apply_loop
    rw [get_num_segments_eq, get_num_segments_eq]
    by_cases hc : i ≠ a.segs.length ∧ j ≠ b.segs.length
    · have hi2 : i < a.segs.length := by omega
      have hj2 : j < b.segs.length := by omega
      have hda := List.drop_eq_getElem_cons hi2
      have hdb := List.drop_eq_getElem_cons hj2
      have hsa := seg_sorted_drop (valid_segs_sorted ha) i
      have hsb := seg_sorted_drop (valid_segs_sorted hb) j
      rw [hda] at hsa
      rw [hdb] at hsb
      have hga := get_seq_seg_of_seg_idx_eq ha i a.segs[i] (List.getElem?_eq_getElem hi2)
      have hgb := get_seq_seg_of_seg_idx_eq hb j b.segs[j] (List.getElem?_eq_getElem hj2)
      rw [if_pos hc]
      simp only [hga, hgb, bind, Except.bind]
      rw [hda, hdb]
      rcases Nat.lt_trichotomy a.segs[i].stop_arrow b.segs[j].stop_arrow with h | h | h
      · have h1 : a.segs[i].stop_arrow ≤ b.segs[j].stop_arrow := by omega
        have h2 : ¬ b.segs[j].stop_arrow ≤ a.segs[i].stop_arrow := by omega
        simp only [h1, h2, ↓reduceIte]
        rw [ih (i + 1) j _ (by omega) hj (by omega), intersecting_pairs_step_left hsb h1,
          foldl_hit, hdb]
      · have h1 : a.segs[i].stop_arrow ≤ b.segs[j].stop_arrow := by omega
        have h2 : b.segs[j].stop_arrow ≤ a.segs[i].stop_arrow := by omega
        simp only [h1, h2, ↓reduceIte]
        rw [ih (i + 1) (j + 1) _ (by omega) (by omega) (by omega),
          intersecting_pairs_step_both hsa hsb h, foldl_hit]
      · have h1 : ¬ a.segs[i].stop_arrow ≤ b.segs[j].stop_arrow := by omega
        have h2 : b.segs[j].stop_arrow ≤ a.segs[i].stop_arrow := by omega
        simp only [h1, h2, ↓reduceIte]
        rw [ih i (j + 1) _ hi (by omega) (by omega), intersecting_pairs_step_right hsa h2,
          foldl_hit, hda]
    · rw [if_neg hc]
      have : a.segs.drop i = [] ∨ b.segs.drop j = [] := by
        by_cases h : i = a.segs.length
        · left; simp [h]
        · right
          have : j = b.segs.length := by
            by_contra h2
            exact hc ⟨h, h2⟩
          simp [this]
      rcases this with h | h
      · rw [h]; rfl
      · rw [h, intersecting_pairs_nil_right]; rfl

/-! ## Lemmas: `lower_bound` and the initial skip -/

theorem lower_bound_loop_spec (comp : Nat → Bool)
    (hanti : ∀ i j, i ≤ j → comp j = true → comp i = true) :
    ∀ fuel first count, count ≤ fuel → (∀ i, i < first → comp i = true) →
      first ≤ lower_bound_loop comp fuel first count ∧
        lower_bound_loop comp fuel first count ≤ first + count ∧
        (∀ i, i < lower_bound_loop comp fuel first count → comp i = true) ∧
        (lower_bound_loop comp fuel first count < first + count →
          comp (lower_bound_loop comp fuel first count) = false) := by
  intro fuel
  induction fuel with
  | zero =>
    intro first count hc hlt
    simp only [lower_bound_loop]
    exact ⟨le_refl _, by omega, hlt, fun h => by omega⟩
  | succ fuel ih =>
    intro first count hc hlt
    unfold lower_bound_loop
    by_cases h0 : count = 0
    · rw [if_pos h0]
      exact ⟨le_refl _, by omega, hlt, fun h => by omega⟩
    · rw [if_neg h0]
      simp only
      cases hcomp : comp (first + count / 2)
      · simp only [Bool.false_eq_true, ↓reduceIte]
        obtain ⟨h1, h2, h3, h4⟩ := ih first (count / 2) (by omega) hlt
        refine ⟨h1, by omega, h3, fun _ => ?_⟩
        by_cases h5 : lower_bound_loop comp fuel first (count / 2) < first + count / 2
        · exact h4 h5
        · have : lower_bound_loop comp fuel first (count / 2) = first + count / 2 := by omega
          rw [this]; exact hcomp
      · simp only [↓reduceIte]
        obtain ⟨h1, h2, h3, h4⟩ := ih (first + count / 2 + 1) (count - (count / 2 + 1)) (by omega)
          (fun i hi => hanti i (first + count / 2) (by omega) hcomp)
        refine ⟨by omega, by omega, h3, fun h => h4 (by omega)⟩

theorem get_stop_arrow_of_segment_eq (r : seq_seg_run) (i : Nat) (hi : i < r.segs.length) :
    r.get_stop_arrow_of_segment i = (r.segs.get ⟨i, hi⟩).stop_arrow :=
  (segs_from_getElem? r.start_arrow r.stop_arrow r.fragments i _ (List.getElem?_eq_getElem hi)).2

theorem get_stop_arrow_of_segment_ge (r : seq_seg_run) (i : Nat) (hi : r.segs.length ≤ i) :
    r.get_stop_arrow_of_segment i = r.stop_arrow := by
  have hl : r.segs.length = r.fragments.length + 1 := segs_from_length _ _ _
  unfold get_stop_arrow_of_segment
  rw [dif_neg (by omega)]

theorem get_stop_arrow_of_segment_le {r : seq_seg_run} (h : r.valid) (i : Nat) :
    r.get_stop_arrow_of_segment i ≤ r.stop_arrow := by
  by_cases hi : i < r.segs.length
  · rw [get_stop_arrow_of_segment_eq r i hi]
    exact (segs_from_bounds (valid_chain_ok h) _ (List.get_mem _ _ _)).2.2
  · rw [get_stop_arrow_of_segment_ge r i (by omega)]

theorem get_stop_arrow_of_segment_mono {r : seq_seg_run} (h : r.valid) (i j : Nat) (hij : i ≤ j) :
    r.get_stop_arrow_of_segment i ≤ r.get_stop_arrow_of_segment j := by
  by_cases hj : j < r.segs.length
  · rcases Nat.eq_or_lt_of_le hij with heq | hlt
    · subst heq; exact le_refl _
    · have hi : i < r.segs.length := by omega
      rw [get_stop_arrow_of_segment_eq r i hi, get_stop_arrow_of_segment_eq r j hj]
      have hs := valid_segs_sorted h
      have h1 := List.pairwise_iff_getElem.1 hs.2 i j hi hj hlt
      have h2 := hs.1 (r.segs.get ⟨j, hj⟩) (List.get_mem _ _ _)
      simp only [List.get_eq_getElem] at h2 ⊢
      omega
  · rw [get_stop_arrow_of_segment_ge r j (by omega)]
    exact get_stop_arrow_of_segment_le h i

theorem index_of_first_seg_spec {r : seq_seg_run} (h : r.valid) (arrow : Nat) :
    detail.index_of_first_seg_not_earlier_than_arrow r arrow ≤ r.segs.length ∧
      (∀ x ∈ r.segs.take (detail.index_of_first_seg_not_earlier_than_arrow r arrow),
        x.stop_arrow ≤ arrow) ∧
      (∀ x ∈ r.segs.drop (detail.index_of_first_seg_not_earlier_than_arrow r arrow),
        arrow < x.stop_arrow) := by
  have hspec := lower_bound_loop_spec
    (fun seg_index => decide (r.get_stop_arrow_of_segment seg_index ≤ arrow))
    (fun i j hij hj => by
      have := get_stop_arrow_of_segment_mono h i j hij
      simp only [decide_eq_true_eq] at hj ⊢
      omega)
    r.get_num_segments 0 r.get_num_segments (le_refl _) (fun i hi => by omega)
  have hk : detail.index_of_first_seg_not_earlier_than_arrow r arrow =
      lower_bound_loop (fun seg_index => decide (r.get_stop_arrow_of_segment seg_index ≤ arrow))
        r.get_num_segments 0 r.get_num_segments := rfl
  rw [← hk, get_num_segments_eq] at hspec
  obtain ⟨-, h2, h3, h4⟩ := hspec
  beta_reduce at h3 h4
  refine ⟨by omega, fun x hx => ?_, fun x hx => ?_⟩
  · obtain ⟨i, hi, rfl⟩ := List.mem_take_iff_getElem.1 hx
    have hi2 : i < r.segs.length := by omega
    have := h3 i (by omega)
    rw [get_stop_arrow_of_segment_eq r i hi2] at this
    simpa using this
  · obtain ⟨i, hi⟩ := List.mem_iff_getElem?.1 hx
    rw [List.getElem?_drop] at hi
    have hlt : detail.index_of_first_seg_not_earlier_than_arrow r arrow + i < r.segs.length := by
      by_contra hc
      rw [List.getElem?_eq_none (by omega)] at hi
      cases hi
    have h5 := h4 (by omega)
    rw [get_stop_arrow_of_segment_eq r _ (by omega)] at h5
    have h6 := get_stop_arrow_of_segment_mono h
      (detail.index_of_first_seg_not_earlier_than_arrow r arrow)
      (detail.index_of_first_seg_not_earlier_than_arrow r arrow + i) (by omega)
    rw [get_stop_arrow_of_segment_eq r _ (by omega), get_stop_arrow_of_segment_eq r _ hlt] at h6
    rw [List.getElem?_eq_getElem hlt] at hi
    simp only [Option.some.injEq] at hi
    simp only [decide_eq_false_iff_not, List.get_eq_getElem] at h5 h6
    rw [← hi]
    omega

theorem apply_to_overlaps_eq {σ : Type} {a b : seq_seg_run} (ha : a.valid) (hb : b.valid)
    (fn : σ → seq_seg → seq_seg → σ) (s : σ) :
    detail.apply_to_overlaps_in_seq_seg_runs a b fn s =
      .ok ((intersecting_pairs a.segs b.segs).foldl (fun s p => fn s p.1 p.2) s) := by
  obtain ⟨ha1, ha2, -⟩ := index_of_first_seg_spec ha b.get_start_arrow
  obtain ⟨hb1, hb2, -⟩ := index_of_first_seg_spec hb a.get_start_arrow
  unfold detail.apply_to_overlaps_in_seq_seg_runs
  simp only
  rw [apply_loop_eq ha hb fn _ _ _ s ha1 hb1
    (by rw [get_num_segments_eq, get_num_segments_eq]; omega)]
  have hba := segs_from_bounds (valid_chain_ok ha)
  have hbb := segs_from_bounds (valid_chain_ok hb)
  have e1 : intersecting_pairs
      (a.segs.drop (detail.index_of_first_seg_not_earlier_than_arrow a b.get_start_arrow))
      (b.segs.drop (detail.index_of_first_seg_not_earlier_than_arrow b a.get_start_arrow)) =
      intersecting_pairs
        (a.segs.drop (detail.index_of_first_seg_not_earlier_than_arrow a b.get_start_arrow))
        b.segs := by
    conv_rhs => rw [← List.take_append_drop
      (detail.index_of_first_seg_not_earlier_than_arrow b a.get_start_arrow) b.segs]
    symm
    apply intersecting_pairs_skip_right
    intro x hx y hy
    have := hb2 y hy
    have := hba x (List.mem_of_mem_drop hx)
    simp only [get_start_arrow] at *
    exact (not_overlapping_of_le (by omega)).2
  have e2 : intersecting_pairs
      (a.segs.drop (detail.index_of_first_seg_not_earlier_than_arrow a b.get_start_arrow))
      b.segs = intersecting_pairs a.segs b.segs := by
    conv_rhs => rw [← List.take_append_drop
      (detail.index_of_first_seg_not_earlier_than_arrow a b.get_start_arrow) a.segs]
    have hnil : intersecting_pairs
        (a.segs.take (detail.index_of_first_seg_not_earlier_than_arrow a b.get_start_arrow))
        b.segs = [] := by
      apply intersecting_pairs_eq_nil
      intro x hx y hy
      have := ha2 x hx
      have := hbb y hy
      simp only [get_start_arrow] at *
      exact (not_overlapping_of_le (by omega)).1
    rw [intersecting_pairs_append_left, hnil, List.nil_append]
  rw [e1, e2]

/-! ## Lemmas: sums of lengths and of intersection lengths -/

theorem seg_length_sum_segs_from {s e : Nat} {fs : List seq_seg} (h : chain_ok s fs e) :
    seg_length_sum (segs_from s fs e) + seg_length_sum fs = e - s := by
  induction fs generalizing s with
  | nil => simp [segs_from, seg_length_sum]
  | cons f fs ih =>
    obtain ⟨h1, h2, h3⟩ := h
    have := ih h3
    have := chain_ok_lt h3
    simp only [segs_from, seg_length_sum, List.map_cons, List.sum_cons] at *
    omega

theorem get_total_length_eq {r : seq_seg_run} (h : r.valid) :
    get_total_length r = .ok (seg_length_sum r.segs) := by
  have hsum := seg_length_sum_segs_from (valid_chain_ok h)
  have hM := h.2.2
  unfold get_total_length
  rw [get_num_segments_eq,
    foldlM_range_ok r.segs _ (fun acc x => (acc + (x.stop_arrow - x.start_arrow)) % residx_mod)
      (fun i x hx acc => by
        simp only [get_length_of_seq_seg_eq h i x hx, bind, Except.bind, pure, Except.pure])]
  have h0 : (0 : Nat) = 0 % residx_mod := by simp
  have hfold : r.segs.foldl (fun acc x => (acc + (x.stop_arrow - x.start_arrow)) % residx_mod) 0 =
      (r.segs.map (fun x => x.stop_arrow - x.start_arrow)).foldl
        (fun acc x => (acc + x) % residx_mod) 0 := by
    rw [List.foldl_map]
  rw [hfold]
  conv_lhs => rw [h0, foldl_add_mod]
  congr 1
  simp only [seg_length_sum, seq_seg_run.segs] at *
  rw [Nat.zero_add, Nat.mod_eq_of_lt]
  omega

theorem intersection_length_eq (x y : seq_seg) :
    intersection_length x y = if x.are_overlapping y then x.overlap_by y else 0 := by
  simp only [intersection_length, seq_seg.are_overlapping, seq_seg.overlap_by, Bool.and_eq_true,
    decide_eq_true_eq]

theorem intersection_length_comm (x y : seq_seg) :
    intersection_length x y = intersection_length y x := by
  simp only [intersection_length]
  split <;> split <;> omega

theorem sum_overlap_filter (x : seq_seg) (ys : List seq_seg) :
    (((ys.filter (fun y => x.are_overlapping y)).map (fun y => (x, y))).map
      (fun p => p.1.overlap_by p.2)).sum = (ys.map (fun y => intersection_length x y)).sum := by
  induction ys with
  | nil => rfl
  | cons y ys ih =>
    simp only [List.filter_cons, List.map_cons, List.sum_cons, intersection_length_eq x y]
    split
    · simp only [List.map_cons, List.sum_cons, ih]
    · simp only [ih, Nat.zero_add]

theorem sum_overlap_intersecting_pairs (xs ys : List seq_seg) :
    ((intersecting_pairs xs ys).map (fun p => p.1.overlap_by p.2)).sum =
      pairwise_intersection_sum xs ys := by
  induction xs with
  | nil => rfl
  | cons x xs ih =>
    simp only [intersecting_pairs, List.map_append, List.sum_append, sum_overlap_filter, ih,
      pairwise_intersection_sum, List.map_cons, List.sum_cons]

theorem intersection_sum_le (x : seq_seg) {ys : List seq_seg} (hs : seg_sorted ys) :
    ∀ lo, (∀ y ∈ ys, lo ≤ y.start_arrow) →
      (ys.map (fun y => intersection_length x y)).sum ≤ x.stop_arrow - max x.start_arrow lo := by
  induction ys with
  | nil => intro lo _; simp
  | cons y ys ih =>
    intro lo hlo
    have hy := hs.1 y (List.mem_cons_self _ _)
    have hlo1 := hlo y (List.mem_cons_self _ _)
    have hp := List.pairwise_cons.1 hs.2
    have := ih ⟨fun z hz => hs.1 z (List.mem_cons_of_mem _ hz), hp.2⟩ y.stop_arrow hp.1
    have hxy : intersection_length x y =
        if x.start_arrow < y.stop_arrow ∧ y.start_arrow < x.stop_arrow then
          min x.stop_arrow y.stop_arrow - max x.start_arrow y.start_arrow
        else 0 := rfl
    rw [List.map_cons, List.sum_cons, hxy]
    split <;> omega

theorem pairwise_intersection_sum_le (xs : List seq_seg) {ys : List seq_seg} (hs : seg_sorted ys) :
    pairwise_intersection_sum xs ys ≤ seg_length_sum xs := by
  induction xs with
  | nil => simp [pairwise_intersection_sum, seg_length_sum]
  | cons x xs ih =>
    have := intersection_sum_le x hs 0 (fun _ _ => Nat.zero_le _)
    simp only [pairwise_intersection_sum, seg_length_sum, List.map_cons, List.sum_cons] at *
    omega

theorem pairwise_intersection_sum_eq_zero (xs ys : List seq_seg)
    (h : ∀ x ∈ xs, ∀ y ∈ ys, x.are_overlapping y = false) : pairwise_intersection_sum xs ys = 0 := by
  have hrow : ∀ x ∈ xs, (ys.map (fun y => intersection_length x y)).sum = 0 := by
    intro x hx
    rw [List.sum_eq_zero_iff]
    intro n hn
    obtain ⟨y, hy, rfl⟩ := List.mem_map.1 hn
    rw [intersection_length_eq, h x hx y hy]
    rfl
  unfold pairwise_intersection_sum
  rw [List.sum_eq_zero_iff]
  intro n hn
  obtain ⟨x, hx, rfl⟩ := List.mem_map.1 hn
  exact hrow x hx

theorem overlap_by_eq {a b : seq_seg_run} (ha : a.valid) (hb : b.valid) :
    overlap_by a b = .ok (pairwise_intersection_sum a.segs b.segs) := by
  unfold overlap_by
  cases hi : any_interaction a b
  · simp only [Bool.not_false, ↓reduceIte]
    rw [pairwise_intersection_sum_eq_zero]
    intro x hx y hy
    have hx2 := segs_from_bounds (valid_chain_ok ha) x hx
    have hy2 := segs_from_bounds (valid_chain_ok hb) y hy
    simp only [any_interaction, get_start_arrow, get_stop_arrow, Bool.and_eq_false_imp,
      decide_eq_true_eq, decide_eq_false_iff_not] at hi
    simp only [seq_seg.are_overlapping, Bool.and_eq_false_imp, decide_eq_true_eq,
      decide_eq_false_iff_not]
    omega
  · simp only [Bool.not_true, Bool.false_eq_true, ↓reduceIte]
    rw [apply_to_overlaps_eq ha hb]
    have h0 : (0 : Nat) = 0 % residx_mod := by simp
    have hfold : (intersecting_pairs a.segs b.segs).foldl
        (fun s p => (s + p.1.overlap_by p.2) % residx_mod) 0 =
        ((intersecting_pairs a.segs b.segs).map (fun p => p.1.overlap_by p.2)).foldl
          (fun acc x => (acc + x) % residx_mod) 0 := by
      rw [List.foldl_map]
    rw [hfold]
    conv_lhs => rw [h0, foldl_add_mod, sum_overlap_intersecting_pairs]
    congr 1
    have h1 := pairwise_intersection_sum_le a.segs (valid_segs_sorted hb)
    have h2 := seg_length_sum_segs_from (valid_chain_ok ha)
    have h3 := ha.2.2
    rw [Nat.zero_add, Nat.mod_eq_of_lt]
    simp only [seq_seg_run.segs] at *
    omega

/-! ## Lemmas: further facts used by the main theorems -/

theorem pairwise_intersection_sum_cons_right (xs : List seq_seg) (y : seq_seg) (ys : List seq_seg) :
    pairwise_intersection_sum xs (y :: ys) =
      (xs.map (fun x => intersection_length x y)).sum + pairwise_intersection_sum xs ys := by
  induction xs with
  | nil => rfl
  | cons x xs ih =>
    simp only [pairwise_intersection_sum, List.map_cons, List.sum_cons] at ih ⊢
    omega

theorem pairwise_intersection_sum_comm (xs ys : List seq_seg) :
    pairwise_intersection_sum xs ys = pairwise_intersection_sum ys xs := by
  induction xs with
  | nil =>
    induction ys with
    | nil => rfl
    | cons y ys ih =>
      simp only [pairwise_intersection_sum, List.map_cons, List.map_nil, List.sum_nil,
        List.sum_cons] at ih ⊢
      omega
  | cons x xs ih =>
    rw [pairwise_intersection_sum_cons_right, ← ih]
    simp only [pairwise_intersection_sum, List.map_cons, List.sum_cons, Nat.add_right_cancel_iff]
    congr 1
    apply List.map_congr_left
    intro y _
    exact intersection_length_comm x y

theorem pairwise_intersection_sum_self {l : List seq_seg} (h : seg_sorted l) :
    pairwise_intersection_sum l l = seg_length_sum l := by
  induction l with
  | nil => rfl
  | cons x xs ih =>
    have hp := List.pairwise_cons.1 h.2
    have hx := h.1 x (List.mem_cons_self _ _)
    have ih2 := ih ⟨fun z hz => h.1 z (List.mem_cons_of_mem _ hz), hp.2⟩
    have h1 : (xs.map (fun y => intersection_length x y)).sum = 0 := by
      rw [List.sum_eq_zero_iff]
      intro n hn
      obtain ⟨y, hy, rfl⟩ := List.mem_map.1 hn
      rw [intersection_length_eq, (not_overlapping_of_le (hp.1 y hy)).1]
      rfl
    have h2 : (xs.map (fun y => intersection_length y x)).sum = 0 := by
      rw [List.sum_eq_zero_iff]
      intro n hn
      obtain ⟨y, hy, rfl⟩ := List.mem_map.1 hn
      rw [intersection_length_eq, (not_overlapping_of_le (hp.1 y hy)).2]
      rfl
    have h3 : intersection_length x x = x.stop_arrow - x.start_arrow := by
      simp only [intersection_length]
      split <;> omega
    have h4 := pairwise_intersection_sum_cons_right xs x xs
    rw [h2, ih2] at h4
    have h5 : pairwise_intersection_sum (x :: xs) (x :: xs) =
        (intersection_length x x + (xs.map (fun y => intersection_length x y)).sum) +
          pairwise_intersection_sum xs (x :: xs) := by
      simp only [pairwise_intersection_sum, List.map_cons, List.sum_cons]
    rw [h5, h1, h3, h4]
    simp only [seg_length_sum, List.map_cons, List.sum_cons]
    omega

theorem mem_intersecting_pairs (xs ys : List seq_seg) (p : seq_seg × seq_seg) :
    p ∈ intersecting_pairs xs ys ↔ p.1 ∈ xs ∧ p.2 ∈ ys ∧ p.1.are_overlapping p.2 = true := by
  induction xs with
  | nil => simp [intersecting_pairs]
  | cons x xs ih =>
    simp only [intersecting_pairs, List.mem_append, List.mem_map, List.mem_filter, ih,
      List.mem_cons]
    constructor
    · rintro (⟨y, ⟨hy, ho⟩, rfl⟩ | ⟨h1, h2, h3⟩)
      · exact ⟨Or.inl rfl, hy, ho⟩
      · exact ⟨Or.inr h1, h2, h3⟩
    · rintro ⟨h1 | h1, h2, h3⟩
      · left
        refine ⟨p.2, ⟨h2, ?_⟩, ?_⟩
        · rw [← h1]; exact h3
        · rw [← h1]
      · exact Or.inr ⟨h1, h2, h3⟩

theorem foldl_found (l : List (seq_seg × seq_seg)) (s : Bool) :
    l.foldl (fun _ _ => true) s = (s || !l.isEmpty) := by
  induction l generalizing s with
  | nil => simp
  | cons p l ih => simp [ih]

theorem foldl_record (l acc : List (seq_seg × seq_seg)) :
    l.foldl (fun visited p => visited ++ [(p.1, p.2)]) acc = acc ++ l := by
  induction l generalizing acc with
  | nil => simp
  | cons p l ih => simp [ih]

theorem are_overlapping_eq {a b : seq_seg_run} (ha : a.valid) (hb : b.valid) :
    are_overlapping a b = .ok (!(intersecting_pairs a.segs b.segs).isEmpty) := by
  unfold are_overlapping
  rw [apply_to_overlaps_eq ha hb, foldl_found]
  rfl

theorem chain_ok_fragment_bounds {s e : Nat} {fs : List seq_seg} (h : chain_ok s fs e) :
    ∀ f ∈ fs, s < f.start_arrow ∧ f.start_arrow < f.stop_arrow ∧ f.stop_arrow < e := by
  induction fs generalizing s with
  | nil => intro f hf; cases hf
  | cons g fs ih =>
    obtain ⟨h1, h2, h3⟩ := h
    intro f hf
    rcases List.mem_cons.1 hf with rfl | hf
    · exact ⟨h1, h2, chain_ok_lt h3⟩
    · have := ih h3 f hf
      omega

theorem chain_ok_fragments_pairwise {s e : Nat} {fs : List seq_seg} (h : chain_ok s fs e) :
    fs.Pairwise (fun f g => f.stop_arrow < g.start_arrow) := by
  induction fs generalizing s with
  | nil => exact List.Pairwise.nil
  | cons g fs ih =>
    obtain ⟨h1, h2, h3⟩ := h
    exact List.pairwise_cons.2 ⟨fun f hf => (chain_ok_fragment_bounds h3 f hf).1, ih h3⟩

theorem segs_from_avoid_fragment {s e : Nat} {fs : List seq_seg} (h : chain_ok s fs e) :
    ∀ f ∈ fs, ∀ x ∈ segs_from s fs e,
      x.stop_arrow ≤ f.start_arrow ∨ f.stop_arrow ≤ x.start_arrow := by
  induction fs generalizing s with
  | nil => intro f hf; cases hf
  | cons g fs ih =>
    obtain ⟨h1, h2, h3⟩ := h
    intro f hf x hx
    simp only [segs_from, List.mem_cons] at hx
    rcases List.mem_cons.1 hf with rfl | hf
    · rcases hx with rfl | hx
      · left; exact le_refl _
      · right; exact (segs_from_bounds h3 x hx).1
    · rcases hx with rfl | hx
      · left
        have := (chain_ok_fragment_bounds h3 f hf).1
        simp only
        omega
      · exact ih h3 f hf x hx

/-! ## Overlap of two segment runs -/

/-- C1: for valid runs `a` and `b`, `overlap_by a b` returns the sum, over every pair of a
segment of `a` and a segment of `b` (as returned by `get_seq_segs`), of the length of the
intersection of the two segments; and the pairs on which
`apply_to_overlaps_in_seq_seg_runs` calls its function are exactly the intersecting pairs,
each once, in index order. -/
theorem overlap_by_eq_sum_over_segment_pairs (a b : seq_seg_run) (ha : a.valid) (hb : b.valid) :
    ∃ sa sb, get_seq_segs a = .ok sa ∧ get_seq_segs b = .ok sb ∧
      overlap_by a b = .ok (pairwise_intersection_sum sa sb) ∧
      detail.apply_to_overlaps_in_seq_seg_runs a b (fun visited x y => visited ++ [(x, y)]) [] =
        .ok (intersecting_pairs sa sb) := by
  refine ⟨a.segs, b.segs, get_seq_segs_eq ha, get_seq_segs_eq hb, overlap_by_eq ha hb, ?_⟩
  rw [apply_to_overlaps_eq ha hb, foldl_record, List.nil_append]

/-- C1 at the runs `[0,5),[8,12)` and `[3,4),[6,10),[11,20)`. -/
theorem overlap_by_eq_sum_over_segment_pairs_witness :
    (⟨0, 12, [⟨5, 8⟩]⟩ : seq_seg_run).valid ∧ (⟨3, 20, [⟨4, 6⟩, ⟨10, 11⟩]⟩ : seq_seg_run).valid ∧
    ∃ sa sb, get_seq_segs ⟨0, 12, [⟨5, 8⟩]⟩ = .ok sa ∧
      get_seq_segs ⟨3, 20, [⟨4, 6⟩, ⟨10, 11⟩]⟩ = .ok sb ∧
      overlap_by ⟨0, 12, [⟨5, 8⟩]⟩ ⟨3, 20, [⟨4, 6⟩, ⟨10, 11⟩]⟩ =
        .ok (pairwise_intersection_sum sa sb) ∧
      detail.apply_to_overlaps_in_seq_seg_runs ⟨0, 12, [⟨5, 8⟩]⟩ ⟨3, 20, [⟨4, 6⟩, ⟨10, 11⟩]⟩
        (fun visited x y => visited ++ [(x, y)]) [] = .ok (intersecting_pairs sa sb) :=
  ⟨by decide, by decide,
    overlap_by_eq_sum_over_segment_pairs ⟨0, 12, [⟨5, 8⟩]⟩ ⟨3, 20, [⟨4, 6⟩, ⟨10, 11⟩]⟩
      (by decide) (by decide)⟩

/-- C2: for valid runs `a` and `b`, `overlap_by a b` and `overlap_by b a` return the same
number. -/
theorem overlap_by_comm (a b : seq_seg_run) (ha : a.valid) (hb : b.valid) :
    ∃ n, overlap_by a b = .ok n ∧ overlap_by b a = .ok n :=
  ⟨pairwise_intersection_sum a.segs b.segs, overlap_by_eq ha hb, by
    rw [overlap_by_eq hb ha, pairwise_intersection_sum_comm]⟩

/-- C2 at the runs `[0,5),[8,12)` and `[3,4),[6,10),[11,20)`. -/
theorem overlap_by_comm_witness :
    (⟨0, 12, [⟨5, 8⟩]⟩ : seq_seg_run).valid ∧ (⟨3, 20, [⟨4, 6⟩, ⟨10, 11⟩]⟩ : seq_seg_run).valid ∧
    ∃ n, overlap_by ⟨0, 12, [⟨5, 8⟩]⟩ ⟨3, 20, [⟨4, 6⟩, ⟨10, 11⟩]⟩ = .ok n ∧
      overlap_by ⟨3, 20, [⟨4, 6⟩, ⟨10, 11⟩]⟩ ⟨0, 12, [⟨5, 8⟩]⟩ = .ok n :=
  ⟨by decide, by decide,
    overlap_by_comm ⟨0, 12, [⟨5, 8⟩]⟩ ⟨3, 20, [⟨4, 6⟩, ⟨10, 11⟩]⟩ (by decide) (by decide)⟩

/-- C3: for a valid run `a`, contiguous or not, `overlap_by a a` and `get_total_length a`
return the same number. -/
theorem overlap_by_self (a : seq_seg_run) (ha : a.valid) :
    ∃ n, overlap_by a a = .ok n ∧ get_total_length a = .ok n :=
  ⟨seg_length_sum a.segs, by
    rw [overlap_by_eq ha ha, pairwise_intersection_sum_self (valid_segs_sorted ha)],
    get_total_length_eq ha⟩

/-- C3 at the discontiguous run `[3,4),[6,10),[11,20)`. -/
theorem overlap_by_self_witness :
    (⟨3, 20, [⟨4, 6⟩, ⟨10, 11⟩]⟩ : seq_seg_run).valid ∧
    ∃ n, overlap_by ⟨3, 20, [⟨4, 6⟩, ⟨10, 11⟩]⟩ ⟨3, 20, [⟨4, 6⟩, ⟨10, 11⟩]⟩ = .ok n ∧
      get_total_length ⟨3, 20, [⟨4, 6⟩, ⟨10, 11⟩]⟩ = .ok n :=
  ⟨by decide, overlap_by_self ⟨3, 20, [⟨4, 6⟩, ⟨10, 11⟩]⟩ (by decide)⟩

/-- C4: if `any_interaction a b` is false, which is when `a` starts at or after the stop of `b`
or `b` starts at or after the stop of `a`, then `overlap_by a b` returns 0. -/
theorem overlap_by_zero_of_no_interaction (a b : seq_seg_run)
    (h : any_interaction a b = false) :
    (a.get_start_arrow ≥ b.get_stop_arrow ∨ b.get_start_arrow ≥ a.get_stop_arrow) ∧
      overlap_by a b = .ok 0 := by
  refine ⟨?_, ?_⟩
  · simp only [any_interaction, Bool.and_eq_false_imp, decide_eq_true_eq,
      decide_eq_false_iff_not] at h
    omega
  · simp [overlap_by, h]

/-- C4 at the runs `[0,5),[8,12)` and `[12,15)`. -/
theorem overlap_by_zero_of_no_interaction_witness :
    any_interaction ⟨0, 12, [⟨5, 8⟩]⟩ ⟨12, 15, []⟩ = false ∧
    ((⟨0, 12, [⟨5, 8⟩]⟩ : seq_seg_run).get_start_arrow ≥ (⟨12, 15, []⟩ : seq_seg_run).get_stop_arrow ∨
      (⟨12, 15, []⟩ : seq_seg_run).get_start_arrow ≥ (⟨0, 12, [⟨5, 8⟩]⟩ : seq_seg_run).get_stop_arrow) ∧
    overlap_by ⟨0, 12, [⟨5, 8⟩]⟩ ⟨12, 15, []⟩ = .ok 0 :=
  ⟨by decide, overlap_by_zero_of_no_interaction ⟨0, 12, [⟨5, 8⟩]⟩ ⟨12, 15, []⟩ (by decide)⟩

/-- C5: for valid runs `a` and `b`, `are_overlapping a b` returns true if and only if some
segment of `a` and some segment of `b` share a position (`x.start < y.stop` and
`y.start < x.stop`); otherwise, also when the runs interleave or straddle, it returns false. -/
theorem are_overlapping_iff_segments_intersect (a b : seq_seg_run) (ha : a.valid)
    (hb : b.valid) :
    ∃ sa sb res, get_seq_segs a = .ok sa ∧ get_seq_segs b = .ok sb ∧
      are_overlapping a b = .ok res ∧
      (res = true ↔ ∃ x ∈ sa, ∃ y ∈ sb,
        x.start_arrow < y.stop_arrow ∧ y.start_arrow < x.stop_arrow) := by
  refine ⟨a.segs, b.segs, _, get_seq_segs_eq ha, get_seq_segs_eq hb, are_overlapping_eq ha hb, ?_⟩
  rw [Bool.not_eq_true', List.isEmpty_eq_false_iff_exists_mem]
  constructor
  · rintro ⟨p, hp⟩
    obtain ⟨h1, h2, h3⟩ := (mem_intersecting_pairs _ _ p).1 hp
    simp only [seq_seg.are_overlapping, Bool.and_eq_true, decide_eq_true_eq] at h3
    exact ⟨p.1, h1, p.2, h2, h3⟩
  · rintro ⟨x, hx, y, hy, h⟩
    refine ⟨(x, y), (mem_intersecting_pairs _ _ (x, y)).2 ⟨hx, hy, ?_⟩⟩
    simp only [seq_seg.are_overlapping, Bool.and_eq_true, decide_eq_true_eq]
    exact h

/-- C5 at the interleaving runs `[0,5),[8,12)` and `[5,8),[12,15)`. -/
theorem are_overlapping_iff_segments_intersect_witness :
    (⟨0, 12, [⟨5, 8⟩]⟩ : seq_seg_run).valid ∧ (⟨5, 15, [⟨8, 12⟩]⟩ : seq_seg_run).valid ∧
    ∃ sa sb res, get_seq_segs ⟨0, 12, [⟨5, 8⟩]⟩ = .ok sa ∧
      get_seq_segs ⟨5, 15, [⟨8, 12⟩]⟩ = .ok sb ∧
      are_overlapping ⟨0, 12, [⟨5, 8⟩]⟩ ⟨5, 15, [⟨8, 12⟩]⟩ = .ok res ∧
      (res = true ↔ ∃ x ∈ sa, ∃ y ∈ sb,
        x.start_arrow < y.stop_arrow ∧ y.start_arrow < x.stop_arrow) :=
  ⟨by decide, by decide,
    are_overlapping_iff_segments_intersect ⟨0, 12, [⟨5, 8⟩]⟩ ⟨5, 15, [⟨8, 12⟩]⟩
      (by decide) (by decide)⟩

/-- C6: if a valid run `b` lies inside a gap (fragment) `f` of a valid run `a`, then
`any_interaction a b` is true, `are_overlapping a b` returns false and `overlap_by a b`
returns 0. -/
theorem run_inside_gap (a b : seq_seg_run) (f : seq_seg) (ha : a.valid) (hb : b.valid)
    (hf : f ∈ a.fragments) (h1 : f.start_arrow ≤ b.get_start_arrow)
    (h2 : b.get_stop_arrow ≤ f.stop_arrow) :
    any_interaction a b = true ∧ are_overlapping a b = .ok false ∧ overlap_by a b = .ok 0 := by
  have hca := valid_chain_ok ha
  have hcb := valid_chain_ok hb
  have hfb := chain_ok_fragment_bounds hca f hf
  have hlt := chain_ok_lt hcb
  simp only [get_start_arrow, get_stop_arrow] at h1 h2
  have hno : ∀ x ∈ a.segs, ∀ y ∈ b.segs, x.are_overlapping y = false := by
    intro x hx y hy
    have hy2 := segs_from_bounds hcb y hy
    rcases segs_from_avoid_fragment hca f hf x hx with h | h
    · exact (not_overlapping_of_le (by omega)).1
    · exact (not_overlapping_of_le (by omega)).2
  refine ⟨?_, ?_, ?_⟩
  · simp only [any_interaction, get_start_arrow, get_stop_arrow, Bool.and_eq_true,
      decide_eq_true_eq]
    omega
  · rw [are_overlapping_eq ha hb, intersecting_pairs_eq_nil _ _ hno]
    rfl
  · rw [overlap_by_eq ha hb, pairwise_intersection_sum_eq_zero _ _ hno]

/-- C6 at the run built from the segments `[0,5),[8,12)` and the probe `[6,7)`. -/
theorem run_inside_gap_witness :
    ctor_segments [⟨0, 5⟩, ⟨8, 12⟩] = .ok ⟨0, 12, [⟨5, 8⟩]⟩ ∧
    ctor_contig 6 7 = .ok ⟨6, 7, []⟩ ∧
    (⟨0, 12, [⟨5, 8⟩]⟩ : seq_seg_run).valid ∧ (⟨6, 7, []⟩ : seq_seg_run).valid ∧
    (⟨5, 8⟩ : seq_seg) ∈ (⟨0, 12, [⟨5, 8⟩]⟩ : seq_seg_run).fragments ∧
    (⟨5, 8⟩ : seq_seg).start_arrow ≤ (⟨6, 7, []⟩ : seq_seg_run).get_start_arrow ∧
    (⟨6, 7, []⟩ : seq_seg_run).get_stop_arrow ≤ (⟨5, 8⟩ : seq_seg).stop_arrow ∧
    any_interaction ⟨0, 12, [⟨5, 8⟩]⟩ ⟨6, 7, []⟩ = true ∧
    are_overlapping ⟨0, 12, [⟨5, 8⟩]⟩ ⟨6, 7, []⟩ = .ok false ∧
    overlap_by ⟨0, 12, [⟨5, 8⟩]⟩ ⟨6, 7, []⟩ = .ok 0 :=
  ⟨by decide, by decide, by decide, by decide, by decide, by decide, by decide,
    run_inside_gap ⟨0, 12, [⟨5, 8⟩]⟩ ⟨6, 7, []⟩ ⟨5, 8⟩ (by decide) (by decide) (by decide)
      (by decide) (by decide)⟩

/-! ## Construction of a segment run -/

theorem ctor_fragments_ok_iff (s e : Nat) (fs : List seq_seg) (r : seq_seg_run) :
    ctor_fragments s e fs = .ok r ↔ r = ⟨s, e, fs⟩ ∧ r.sanity_check = .ok () := by
  unfold ctor_fragments
  cases h : (seq_seg_run.mk s e fs).sanity_check with
  | error err =>
    simp only [bind, Except.bind, h]
    constructor
    · intro h2; cases h2
    · rintro ⟨rfl, h2⟩; rw [h] at h2; cases h2
  | ok u =>
    simp only [bind, Except.bind, h, pure, Except.pure, Except.ok.injEq]
    constructor
    · rintro rfl; exact ⟨rfl, h⟩
    · rintro ⟨rfl, _⟩; rfl

theorem ctor_contig_eq (s e : Nat) : ctor_contig s e = ctor_fragments s e [] := rfl

theorem sanity_check_error_raises (r : seq_seg_run) (err : cath_error)
    (h : r.sanity_check = .error err) : ∃ msg, err = .invalid_argument_exception msg := by
  unfold seq_seg_run.sanity_check at h
  split at h
  · exact ⟨_, (Except.error.inj h).symm⟩
  · split at h
    · split at h
      · exact ⟨_, (Except.error.inj h).symm⟩
      · split at h
        · exact ⟨_, (Except.error.inj h).symm⟩
        · split at h
          · exact ⟨_, (Except.error.inj h).symm⟩
          · cases h
    · cases h

theorem ctor_fragments_raises_or_ok (s e : Nat) (fs : List seq_seg) :
    (raises_invalid_argument (ctor_fragments s e fs) = true ∧
        (seq_seg_run.mk s e fs).sanity_check ≠ .ok ()) ∨
      (ctor_fragments s e fs = .ok ⟨s, e, fs⟩ ∧ (seq_seg_run.mk s e fs).sanity_check = .ok ()) := by
  cases h : (seq_seg_run.mk s e fs).sanity_check with
  | error err =>
    left
    obtain ⟨msg, rfl⟩ := sanity_check_error_raises _ _ h
    refine ⟨?_, by simp⟩
    simp only [ctor_fragments, bind, Except.bind, h, raises_invalid_argument]
  | ok u =>
    right
    exact ⟨(ctor_fragments_ok_iff s e fs _).2 ⟨rfl, h⟩, rfl⟩

theorem contains_adjacent_match_iff {α : Type} (p : α → α → Bool) (l : List α) :
    contains_adjacent_match p l = true ↔
      ∃ i x y, l[i]? = some x ∧ l[i + 1]? = some y ∧ p x y = true := by
  induction l with
  | nil => simp [contains_adjacent_match]
  | cons a l ih =>
    cases l with
    | nil => simp [contains_adjacent_match]
    | cons b rest =>
      simp only [contains_adjacent_match, Bool.or_eq_true, ih]
      constructor
      · rintro (h | ⟨i, x, y, h1, h2, h3⟩)
        · exact ⟨0, a, b, by simp, by simp, h⟩
        · exact ⟨i + 1, x, y, by simpa using h1, by simpa using h2, h3⟩
      · rintro ⟨i, x, y, h1, h2, h3⟩
        cases i with
        | zero =>
          simp only [List.getElem?_cons_zero, Option.some.injEq, zero_add,
            List.getElem?_cons_succ] at h1 h2
          subst h1 h2
          exact Or.inl h3
        | succ i => exact Or.inr ⟨i, x, y, by simpa using h1, by simpa using h2, h3⟩

theorem make_fragments_of_segments_valid (segs fs : List seq_seg)
    (h : make_fragments_of_segments segs = .ok fs) : ∀ f ∈ fs, f.valid := by
  induction segs generalizing fs with
  | nil =>
    simp only [make_fragments_of_segments, pure, Except.pure, Except.ok.injEq] at h
    subst h; intro f hf; cases hf
  | cons x rest ih =>
    cases rest with
    | nil =>
      simp only [make_fragments_of_segments, pure, Except.pure, Except.ok.injEq] at h
      subst h; intro f hf; cases hf
    | cons y rest =>
      simp only [make_fragments_of_segments, seq_seg.make, bind, Except.bind] at h
      split at h
      · cases h
      · rename_i g hg
        split at hg
        · cases hg
        · cases hmk : make_fragments_of_segments (y :: rest) with
          | error err => rw [hmk] at h; cases h
          | ok fs2 =>
            rw [hmk] at h
            simp only [pure, Except.pure, Except.ok.injEq] at h hg
            subst h hg
            intro f hf
            rcases List.mem_cons.1 hf with rfl | hf
            · simp only [seq_seg.valid]; omega
            · exact ih fs2 hmk f hf

theorem ctor_segments_ok (segs : List seq_seg) (r : seq_seg_run)
    (h : ctor_segments segs = .ok r) :
    r.sanity_check = .ok () ∧ ∀ f ∈ r.fragments, f.valid := by
  unfold ctor_segments at h
  split at h
  · rename_i hne
    cases hmk : make_fragments_of_segments segs with
    | error err => simp only [hmk, bind, Except.bind] at h; cases h
    | ok fs =>
      simp only [hmk, bind, Except.bind] at h
      split at h
      · cases h
      · rename_i u hu
        simp only [pure, Except.pure, Except.ok.injEq] at h
        subst h
        exact ⟨hu, make_fragments_of_segments_valid segs fs hmk⟩
  · cases h

theorem raises_iff_not_sane (s e : Nat) (fs : List seq_seg) :
    raises_invalid_argument (ctor_fragments s e fs) = true ↔
      (seq_seg_run.mk s e fs).sanity_check ≠ .ok () := by
  rcases ctor_fragments_raises_or_ok s e fs with ⟨h1, h2⟩ | ⟨h1, h2⟩
  · exact ⟨fun _ => h2, fun _ => h1⟩
  · rw [h1]
    simp [raises_invalid_argument, h2]

theorem not_sane_iff (s e : Nat) (fs : List seq_seg) :
    (seq_seg_run.mk s e fs).sanity_check ≠ .ok () ↔
      (e ≤ s ∨ (fs ≠ [] ∧
        ((∃ f, fs.head? = some f ∧ f.start_arrow ≤ s) ∨
         (∃ f, fs.getLast? = some f ∧ f.stop_arrow ≥ e) ∨
         (∃ i x y, fs[i]? = some x ∧ fs[i + 1]? = some y ∧ x.stop_arrow ≥ y.start_arrow)))) := by
  have hcam := contains_adjacent_match_iff
    (fun (x y : seq_seg) => decide (x.stop_arrow ≥ y.start_arrow)) fs
  simp only [decide_eq_true_eq] at hcam
  rw [Ne, sanity_check_ok_iff]
  by_cases hne : fs = []
  · subst hne
    simp [contains_adjacent_match]
  · have hh : fs.head? = some (fs.head hne) := List.head?_eq_head hne
    have hl : fs.getLast? = some (fs.getLast hne) := List.getLast?_eq_getLast fs hne
    rw [hh, hl, ← hcam]
    simp only [Option.some.injEq, exists_eq_left', ne_eq, hne, not_false_eq_true, true_and,
      forall_true_left]
    cases contains_adjacent_match (fun x y => decide (x.stop_arrow ≥ y.start_arrow)) fs
    · simp only [and_true, Bool.false_eq_true, or_false]
      constructor
      · intro h
        by_contra hc
        exact h ⟨by omega, by omega, by omega⟩
      · rintro h ⟨h1, h2, h3⟩
        omega
    · simp

/-- The chain of boundaries when the fragments handed to the fragment constructor each have
`start < stop`: a run returned by any of the three constructors then satisfies
`start < f₀.start < f₀.stop < f₁.start < ... < stop`. -/
theorem ctor_chain_of_valid_fragments (r : seq_seg_run) (s e : Nat) (fs segs : List seq_seg)
    (hfs : ∀ f ∈ fs, f.valid)
    (h : ctor_contig s e = .ok r ∨ ctor_segments segs = .ok r ∨ ctor_fragments s e fs = .ok r) :
    chain_ok r.start_arrow r.fragments r.stop_arrow ∧
      r.start_arrow < r.stop_arrow ∧
      (∀ f ∈ r.fragments,
        r.start_arrow < f.start_arrow ∧ f.start_arrow < f.stop_arrow ∧
          f.stop_arrow < r.stop_arrow) ∧
      r.fragments.Pairwise (fun f g => f.stop_arrow < g.start_arrow) := by
  have hc : chain_ok r.start_arrow r.fragments r.stop_arrow := by
    apply (valid_iff_chain_ok r.start_arrow r.stop_arrow r.fragments).1
    rcases h with h | h | h
    · rw [ctor_contig_eq] at h
      obtain ⟨rfl, h2⟩ := (ctor_fragments_ok_iff s e [] r).1 h
      exact ⟨h2, fun f hf => by cases hf⟩
    · exact ctor_segments_ok segs r h
    · obtain ⟨rfl, h2⟩ := (ctor_fragments_ok_iff s e fs r).1 h
      exact ⟨h2, hfs⟩
  exact ⟨hc, chain_ok_lt hc, chain_ok_fragment_bounds hc, chain_ok_fragments_pairwise hc⟩

/-- C8: the constructor from `(start, stop, fragments)` throws `invalid_argument_exception`
exactly when `stop ≤ start`, or `fragments` is non-empty and the first fragment's start is
`≤ start`, or the last fragment's stop is `≥ stop`, or some fragment's stop is `≥` the next
fragment's start; when it does not throw it returns the run holding `start`, `stop` and
`fragments` unchanged. The contiguous constructor returns the run `(start, stop)` iff
`start < stop`, and throws otherwise. -/
theorem ctor_fragments_raises_iff (s e : Nat) (fs : List seq_seg) :
    (raises_invalid_argument (ctor_fragments s e fs) = true ↔
      (e ≤ s ∨ (fs ≠ [] ∧
        ((∃ f, fs.head? = some f ∧ f.start_arrow ≤ s) ∨
         (∃ f, fs.getLast? = some f ∧ f.stop_arrow ≥ e) ∨
         (∃ i x y, fs[i]? = some x ∧ fs[i + 1]? = some y ∧ x.stop_arrow ≥ y.start_arrow))))) ∧
    (raises_invalid_argument (ctor_fragments s e fs) = true ∨
      ctor_fragments s e fs = .ok ⟨s, e, fs⟩) ∧
    (ctor_contig s e = .ok ⟨s, e, []⟩ ↔ s < e) ∧
    (raises_invalid_argument (ctor_contig s e) = true ↔ ¬ s < e) := by
  refine ⟨?_, ?_, ?_, ?_⟩
  · rw [raises_iff_not_sane, not_sane_iff]
  · rcases ctor_fragments_raises_or_ok s e fs with ⟨h1, _⟩ | ⟨h1, _⟩
    · exact Or.inl h1
    · exact Or.inr h1
  · rw [ctor_contig_eq, ctor_fragments_ok_iff, sanity_check_ok_iff]
    simp [contains_adjacent_match]
  · rw [ctor_contig_eq, raises_iff_not_sane, not_sane_iff]
    simp

theorem make_fragments_of_segments_chain (x : seq_seg) (rest : List seq_seg)
    (hv : ∀ z ∈ x :: rest, z.start_arrow < z.stop_arrow)
    (hs : List.Chain' (fun (a b : seq_seg) => a.stop_arrow < b.start_arrow) (x :: rest)) :
    ∃ fs, make_fragments_of_segments (x :: rest) = .ok fs ∧ fs.length = rest.length ∧
      chain_ok x.start_arrow fs ((x :: rest).getLast (List.cons_ne_nil x rest)).stop_arrow ∧
      segs_from x.start_arrow fs ((x :: rest).getLast (List.cons_ne_nil x rest)).stop_arrow =
        x :: rest := by
  induction rest generalizing x with
  | nil =>
    refine ⟨[], rfl, rfl, ?_, rfl⟩
    exact hv x (List.mem_cons_self _ _)
  | cons y rest ih =>
    obtain ⟨h1, h2⟩ := List.chain'_cons.1 hs
    obtain ⟨fs, hmk, hlen, hchain, hsegs⟩ :=
      ih y (fun z hz => hv z (List.mem_cons_of_mem _ hz)) h2
    have hx := hv x (List.mem_cons_self _ _)
    have hnot : ¬ y.start_arrow ≤ x.stop_arrow := by omega
    refine ⟨⟨x.stop_arrow, y.start_arrow⟩ :: fs, ?_, ?_, ?_, ?_⟩
    · simp only [make_fragments_of_segments, seq_seg.make, hnot, ↓reduceIte, bind, Except.bind,
        hmk, pure, Except.pure]
    · simp [hlen]
    · rw [List.getLast_cons (List.cons_ne_nil y rest)]
      exact ⟨hx, h1, hchain⟩
    · rw [List.getLast_cons (List.cons_ne_nil y rest)]
      simp only [segs_from, hsegs]

/-- C9: for a non-empty list of segments, each with `start < stop` and each stopping strictly
before the next one starts, the constructor from segments succeeds,
`get_num_segments` of the run is the length of the list, which is the number of fragments
plus one, and `get_seq_segs` of the run returns the list. -/
theorem ctor_segments_round_trip (segs : List seq_seg) (hne : segs ≠ [])
    (hv : ∀ x ∈ segs, x.start_arrow < x.stop_arrow)
    (hs : List.Chain' (fun (a b : seq_seg) => a.stop_arrow < b.start_arrow) segs) :
    ∃ r, ctor_segments segs = .ok r ∧ r.get_num_segments = segs.length ∧
      r.get_num_segments = r.fragments.length + 1 ∧ get_seq_segs r = .ok segs := by
  cases segs with
  | nil => exact absurd rfl hne
  | cons x rest =>
    obtain ⟨fs, hmk, hlen, hchain, hsegs⟩ := make_fragments_of_segments_chain x rest hv hs
    have hsane := ((valid_iff_chain_ok _ _ _).2 hchain).1
    refine ⟨⟨x.start_arrow, ((x :: rest).getLast (List.cons_ne_nil x rest)).stop_arrow, fs⟩,
      ?_, ?_, rfl, ?_⟩
    · simp only [ctor_segments, ne_eq, reduceCtorEq, not_false_eq_true, ↓reduceDIte, hmk, bind,
        Except.bind, List.head_cons, hsane, pure, Except.pure]
    · simp [get_num_segments, hlen]
    · have := @get_seq_segs_of_chain
        ⟨x.start_arrow, ((x :: rest).getLast (List.cons_ne_nil x rest)).stop_arrow, fs⟩ hchain
      rw [this]
      simp only [seq_seg_run.segs, hsegs]

/-- C9 at the segments `[3,4),[6,10),[11,20)`. -/
theorem ctor_segments_round_trip_witness :
    [(⟨3, 4⟩ : seq_seg), ⟨6, 10⟩, ⟨11, 20⟩] ≠ [] ∧
    (∀ x ∈ [(⟨3, 4⟩ : seq_seg), ⟨6, 10⟩, ⟨11, 20⟩], x.start_arrow < x.stop_arrow) ∧
    List.Chain' (fun (a b : seq_seg) => a.stop_arrow < b.start_arrow)
      [(⟨3, 4⟩ : seq_seg), ⟨6, 10⟩, ⟨11, 20⟩] ∧
    ∃ r, ctor_segments [⟨3, 4⟩, ⟨6, 10⟩, ⟨11, 20⟩] = .ok r ∧
      r.get_num_segments = [(⟨3, 4⟩ : seq_seg), ⟨6, 10⟩, ⟨11, 20⟩].length ∧
      r.get_num_segments = r.fragments.length + 1 ∧
      get_seq_segs r = .ok [⟨3, 4⟩, ⟨6, 10⟩, ⟨11, 20⟩] :=
  ⟨by decide, by decide, by simp,
    ctor_segments_round_trip [⟨3, 4⟩, ⟨6, 10⟩, ⟨11, 20⟩] (by decide) (by decide) (by simp)⟩

/-- C10: for a valid run `r`, `get_total_length r` returns the sum of `stop - start` over the
`get_num_segments` segments that `get_seq_segs` returns, and that sum is `r.stop - r.start`
minus the sum of the lengths of the fragments of `r`; for the run built from the segments
`[0,5),[8,12)` it returns 9. -/
theorem get_total_length_eq_sum (r : seq_seg_run) (h : r.valid) :
    (∃ sl, get_seq_segs r = .ok sl ∧ sl.length = r.get_num_segments ∧
      get_total_length r = .ok (seg_length_sum sl) ∧
      seg_length_sum sl = (r.stop_arrow - r.start_arrow) - seg_length_sum r.fragments) ∧
    (ctor_segments [⟨0, 5⟩, ⟨8, 12⟩] >>= get_total_length) = .ok 9 := by
  refine ⟨⟨r.segs, get_seq_segs_eq h, (get_num_segments_eq r).symm, get_total_length_eq h, ?_⟩, ?_⟩
  · have := seg_length_sum_segs_from (valid_chain_ok h)
    simp only [seq_seg_run.segs]
    omega
  · decide

/-- C10 at the run `[0,5),[8,12)`. -/
theorem get_total_length_eq_sum_witness :
    (⟨0, 12, [⟨5, 8⟩]⟩ : seq_seg_run).valid ∧
    ((∃ sl, get_seq_segs ⟨0, 12, [⟨5, 8⟩]⟩ = .ok sl ∧
      sl.length = (⟨0, 12, [⟨5, 8⟩]⟩ : seq_seg_run).get_num_segments ∧
      get_total_length ⟨0, 12, [⟨5, 8⟩]⟩ = .ok (seg_length_sum sl) ∧
      seg_length_sum sl = (12 - 0) - seg_length_sum [⟨5, 8⟩]) ∧
    (ctor_segments [⟨0, 5⟩, ⟨8, 12⟩] >>= get_total_length) = .ok 9) :=
  ⟨by decide, get_total_length_eq_sum ⟨0, 12, [⟨5, 8⟩]⟩ (by decide)⟩

end seq

namespace seq

open seq_seg_run

/-! ## Residue indices -/

/-- C12: for residue indices `s ≤ e` with `e` below the largest `unsigned int`,
`make_seq_seg_run_from_res_indices s e` returns a contiguous run whose start residue index is
`s`, whose stop residue index is `e` and whose total length is `e - s + 1`; for `s > e` it
throws `invalid_argument_exception`. -/
theorem make_seq_seg_run_from_res_indices_spec (s e : Nat) (hs : s < residx_mod)
    (he : e < residx_mod) :
    (s ≤ e → e + 1 < residx_mod →
      ∃ r, make_seq_seg_run_from_res_indices s e = .ok r ∧ r.is_discontig = false ∧
        get_start_res_index r = s ∧ get_stop_res_index r = e ∧
        get_total_length r = .ok (e - s + 1)) ∧
    (s > e → raises_invalid_argument (make_seq_seg_run_from_res_indices s e) = true) := by
  unfold residx_mod at hs he
  constructor
  · intro hse he1
    unfold residx_mod at he1
    have hmod : (e + 1) % 4294967296 = e + 1 := Nat.mod_eq_of_lt he1
    have hlt : s < e + 1 := by omega
    have hok : make_seq_seg_run_from_res_indices s e = .ok ⟨s, e + 1, []⟩ := by
      simp only [make_seq_seg_run_from_res_indices, arrow_before_res, arrow_after_res, residx_mod,
        hmod]
      exact (ctor_fragments_ok_iff s (e + 1) [] _).2
        ⟨rfl, (sanity_check_ok_iff s (e + 1) []).2 ⟨hlt, by simp, rfl⟩⟩
    have hvalid : (⟨s, e + 1, []⟩ : seq_seg_run).valid :=
      ⟨(sanity_check_ok_iff s (e + 1) []).2 ⟨hlt, by simp, rfl⟩, by simp, by
        simp only [residx_mod]; omega⟩
    refine ⟨⟨s, e + 1, []⟩, hok, rfl, rfl, ?_, ?_⟩
    · simp only [get_stop_res_index, res_before, get_stop_arrow, residx_mod]
      omega
    · rw [get_total_length_eq hvalid]
      simp only [seq_seg_run.segs, segs_from, seg_length_sum, List.map_cons, List.map_nil,
        List.sum_cons, List.sum_nil]
      congr 1
      omega
  · intro hse
    have hmod : (e + 1) % 4294967296 = e + 1 := Nat.mod_eq_of_lt (by omega)
    simp only [make_seq_seg_run_from_res_indices, arrow_before_res, arrow_after_res, residx_mod,
      hmod]
    rw [ctor_contig_eq, raises_iff_not_sane, not_sane_iff]
    left
    omega

/-- C12 at the residue indices 3 and 7, and at 7 and 3. -/
theorem make_seq_seg_run_from_res_indices_spec_witness :
    3 < residx_mod ∧ 7 < residx_mod ∧
    ((3 ≤ 7 → 7 + 1 < residx_mod →
      ∃ r, make_seq_seg_run_from_res_indices 3 7 = .ok r ∧ r.is_discontig = false ∧
        get_start_res_index r = 3 ∧ get_stop_res_index r = 7 ∧
        get_total_length r = .ok (7 - 3 + 1)) ∧
    (3 > 7 → raises_invalid_argument (make_seq_seg_run_from_res_indices 3 7) = true)) ∧
    raises_invalid_argument (make_seq_seg_run_from_res_indices 7 3) = true :=
  ⟨by decide, by decide, make_seq_seg_run_from_res_indices_spec 3 7 (by decide) (by decide),
    by decide⟩

/-- C13: `get_stop_of_first_segment` and `get_start_of_last_segment` each throw
`invalid_argument_exception` if and only if the run has no fragments; for a run with
fragments they return the first fragment's start and the last fragment's stop. -/
theorem first_last_segment_accessors (r : seq_seg_run) :
    (raises_invalid_argument (get_stop_of_first_segment r) = true ↔ r.fragments = []) ∧
    (raises_invalid_argument (get_start_of_last_segment r) = true ↔ r.fragments = []) ∧
    (r.is_discontig = false ↔ r.fragments = []) ∧
    (∀ f, r.fragments.head? = some f → get_stop_of_first_segment r = .ok f.start_arrow) ∧
    (∀ f, r.fragments.getLast? = some f → get_start_of_last_segment r = .ok f.stop_arrow) := by
  obtain ⟨s, e, fs⟩ := r
  cases fs with
  | nil =>
    simp [get_stop_of_first_segment, get_start_of_last_segment, is_discontig,
      raises_invalid_argument]
  | cons g rest =>
    have hidx : (g :: rest)[rest.length]? = (g :: rest).getLast? := by
      rw [List.getLast?_eq_getElem?]; simp
    have hlast : get_start_of_last_segment ⟨s, e, g :: rest⟩ =
        .ok ((g :: rest).getLast (List.cons_ne_nil g rest)).stop_arrow := by
      simp only [get_start_of_last_segment, is_discontig, List.isEmpty_cons, Bool.not_false,
        Bool.not_true, Bool.false_eq_true, ↓reduceIte, get_num_segments, List.length_cons,
        Nat.add_sub_cancel, get_start_arrow_of_segment, Nat.zero_lt_succ, gt_iff_lt, hidx,
        List.getLast?_eq_getLast _ (List.cons_ne_nil g rest)]
    refine ⟨?_, ?_, ?_, ?_, ?_⟩
    · simp [get_stop_of_first_segment, is_discontig, raises_invalid_argument]
    · rw [hlast]
      simp [raises_invalid_argument]
    · simp [is_discontig]
    · intro f hf
      simp only [List.head?_cons, Option.some.injEq] at hf
      subst hf
      simp [get_stop_of_first_segment, is_discontig, get_stop_arrow_of_segment]
    · intro f hf
      rw [List.getLast?_eq_getLast _ (List.cons_ne_nil g rest), Option.some.injEq] at hf
      subst hf
      exact hlast

end seq

namespace rslv

open seq seq.seq_seg_run

/-! ## Boundaries of `res_arrow` -/

/-- C11: for a residue index `n` (an `unsigned int`): if `n > 0` then `arrow_before_res n` and
`arrow_after_res (n - 1)` are the same boundary and `res_before (arrow_before_res n) = n - 1`;
`res_after (arrow_before_res n) = n`; `res_before (arrow_after_res n) = n`;
`res_after (arrow_after_res n)` is `n + 1` computed in `unsigned int`, which is `n + 1` below
the largest value; and `res_after start_arrow = 0`. The `static_assert`s of `res_arrow.cpp`
hold. -/
theorem res_arrow_numbering (n : Nat) (hn : n < residx_mod) :
    (0 < n → arrow_before_res n = arrow_after_res (n - 1)) ∧
    res_after (arrow_before_res n) = n ∧
    res_before (arrow_after_res n) = n ∧
    res_after (arrow_after_res n) = (n + 1) % residx_mod ∧
    (n + 1 < residx_mod → res_after (arrow_after_res n) = n + 1) ∧
    (0 < n → res_before (arrow_before_res n) = n - 1) ∧
    res_after start_arrow = 0 ∧
    (res_before (arrow_before_res 5) = 4 ∧ res_after (arrow_before_res 5) = 5 ∧
      res_before (arrow_after_res 5) = 5 ∧ res_after (arrow_after_res 5) = 6 ∧
      res_after (arrow_before_res 0) = 0 ∧ res_before (arrow_after_res 0) = 0 ∧
      res_after (arrow_after_res 0) = 1) := by
  simp only [arrow_before_res, arrow_after_res, res_after, res_before, start_arrow,
    residx_mod] at *
  refine ⟨fun h => ?_, trivial, ?_, trivial, fun h => ?_, fun h => ?_, trivial, ?_⟩
  · omega
  · omega
  · omega
  · omega
  · decide

/-- C11 at the residue index 5. -/
theorem res_arrow_numbering_witness :
    5 < residx_mod ∧
    ((0 < 5 → arrow_before_res 5 = arrow_after_res (5 - 1)) ∧
    res_after (arrow_before_res 5) = 5 ∧
    res_before (arrow_after_res 5) = 5 ∧
    res_after (arrow_after_res 5) = (5 + 1) % residx_mod ∧
    (5 + 1 < residx_mod → res_after (arrow_after_res 5) = 5 + 1) ∧
    (0 < 5 → res_before (arrow_before_res 5) = 5 - 1) ∧
    res_after start_arrow = 0 ∧
    (res_before (arrow_before_res 5) = 4 ∧ res_after (arrow_before_res 5) = 5 ∧
      res_before (arrow_after_res 5) = 5 ∧ res_after (arrow_after_res 5) = 6 ∧
      res_after (arrow_before_res 0) = 0 ∧ res_before (arrow_after_res 0) = 0 ∧
      res_after (arrow_after_res 0) = 1)) :=
  ⟨by decide, res_arrow_numbering 5 (by decide)⟩


/-! ## Lemmas: sorting and the adjacent-pair check -/

theorem hit_start_le_iff (x y : calc_hit) : hit_start_le x y ↔ start_le x y := by
  simp only [hit_start_le, get_hit_start_less, start_le, decide_eq_false_iff_not, not_lt]

theorem hit_start_le_total (x y : calc_hit) : hit_start_le x y ∨ hit_start_le y x := by
  simp only [hit_start_le_iff, start_le]
  omega

theorem hit_start_le_trans (x y z : calc_hit) (h1 : hit_start_le x y) (h2 : hit_start_le y z) :
    hit_start_le x z := by
  simp only [hit_start_le_iff, start_le] at *
  omega

theorem sort_hit_vec_perm (v : List calc_hit) : (hit_arch.sort_hit_vec v).Perm v :=
  List.perm_insertionSort _ v

theorem sort_hit_vec_sorted (v : List calc_hit) : (hit_arch.sort_hit_vec v).Sorted start_le := by
  have hs : (hit_arch.sort_hit_vec v).Sorted hit_start_le := by
    haveI : IsTotal calc_hit hit_start_le := ⟨hit_start_le_total⟩
    haveI : IsTrans calc_hit hit_start_le := ⟨hit_start_le_trans⟩
    exact List.sorted_insertionSort hit_start_le v
  exact List.Pairwise.imp (fun h => (hit_start_le_iff _ _).1 h) hs

theorem hits_overlap_eq {a b : calc_hit} (ha : a.segments.valid) (hb : b.segments.valid) :
    hits_overlap a b = .ok (hits_share_position a b) :=
  are_overlapping_eq ha hb

theorem adjacent_find_overlap_eq (l : List calc_hit) (hv : ∀ h ∈ l, h.segments.valid) :
    hit_arch.adjacent_find_overlap l = .ok (contains_adjacent_match hits_share_position l) := by
  induction l with
  | nil => rfl
  | cons x l ih =>
    cases l with
    | nil => rfl
    | cons y rest =>
      have hx := hv x (List.mem_cons_self _ _)
      have hy := hv y (List.mem_cons_of_mem _ (List.mem_cons_self _ _))
      have ih2 := ih (fun h hh => hv h (List.mem_cons_of_mem _ hh))
      simp only [hit_arch.adjacent_find_overlap, hits_overlap_eq hx hy, bind, Except.bind,
        contains_adjacent_match]
      cases hits_share_position x y
      · simp only [Bool.false_eq_true, ↓reduceIte, Bool.false_or]
        exact ih2
      · simp only [↓reduceIte, Bool.true_or]
        rfl

theorem sanity_check_eq (l : List calc_hit) (hv : ∀ h ∈ l, h.segments.valid) :
    (hit_arch.mk l).sanity_check =
      if contains_adjacent_match hits_share_position l then
        .error (.invalid_argument_exception "Cannot create hit_arch with overlapping domains")
      else .ok () := by
  simp only [hit_arch.sanity_check, adjacent_find_overlap_eq l hv, bind, Except.bind]

theorem sanity_check_ok_iff_no_adjacent (l : List calc_hit) (hv : ∀ h ∈ l, h.segments.valid) :
    (hit_arch.mk l).sanity_check = .ok () ↔
      contains_adjacent_match hits_share_position l = false := by
  rw [sanity_check_eq l hv]
  cases contains_adjacent_match hits_share_position l <;> simp

theorem sanity_check_raises_iff_adjacent (l : List calc_hit)
    (hv : ∀ h ∈ l, h.segments.valid) :
    raises_invalid_argument (hit_arch.mk l).sanity_check = true ↔
      contains_adjacent_match hits_share_position l = true := by
  rw [sanity_check_eq l hv]
  cases contains_adjacent_match hits_share_position l <;> simp [raises_invalid_argument]

theorem adjacent_overlap_iff (l : List calc_hit) (hv : ∀ h ∈ l, h.segments.valid) :
    contains_adjacent_match hits_share_position l = true ↔
      ∃ i x y, l[i]? = some x ∧ l[i + 1]? = some y ∧ hits_overlap x y = .ok true := by
  rw [contains_adjacent_match_iff]
  constructor
  · rintro ⟨i, x, y, h1, h2, h3⟩
    refine ⟨i, x, y, h1, h2, ?_⟩
    rw [hits_overlap_eq (hv x (List.getElem?_mem h1)) (hv y (List.getElem?_mem h2)), h3]
  · rintro ⟨i, x, y, h1, h2, h3⟩
    refine ⟨i, x, y, h1, h2, ?_⟩
    rw [hits_overlap_eq (hv x (List.getElem?_mem h1)) (hv y (List.getElem?_mem h2))] at h3
    exact Except.ok.inj h3

theorem ctor_eq (hits : List calc_hit) :
    hit_arch.ctor hits =
      match (hit_arch.mk (hit_arch.sort_hit_vec hits)).sanity_check with
      | .ok _ => .ok ⟨hit_arch.sort_hit_vec hits⟩
      | .error e => .error e := by
  simp only [hit_arch.ctor, bind, Except.bind, pure, Except.pure]
  cases (hit_arch.mk (hit_arch.sort_hit_vec hits)).sanity_check <;> rfl

theorem sort_hit_vec_valid {hits : List calc_hit} (hv : ∀ h ∈ hits, h.segments.valid) :
    ∀ h ∈ hit_arch.sort_hit_vec hits, h.segments.valid :=
  fun h hh => hv h ((sort_hit_vec_perm hits).mem_iff.1 hh)


/-! ## Construction of an architecture -/

/-- C14 (the code falls short of it): the constructor accepts the three hits
`[0,2),[5,7)`, `[3,5)` and `[5,7)`, given in any order, without throwing, and so does
`+=` of the third hit to the architecture of the first two, although the first and the
third hit overlap: `sanity_check` compares neighbours in start order only. -/
theorem hit_arch_accepts_overlapping_non_neighbours :
    hit_arch.ctor [⟨⟨5, 7, []⟩, 1, 2⟩, ⟨⟨0, 7, [⟨2, 5⟩]⟩, 1, 0⟩, ⟨⟨3, 5, []⟩, 1, 1⟩] =
      .ok ⟨[⟨⟨0, 7, [⟨2, 5⟩]⟩, 1, 0⟩, ⟨⟨3, 5, []⟩, 1, 1⟩, ⟨⟨5, 7, []⟩, 1, 2⟩]⟩ ∧
    hit_arch.op_plus_eq_hit ⟨[⟨⟨0, 7, [⟨2, 5⟩]⟩, 1, 0⟩, ⟨⟨3, 5, []⟩, 1, 1⟩]⟩ ⟨⟨5, 7, []⟩, 1, 2⟩ =
      (⟨[⟨⟨0, 7, [⟨2, 5⟩]⟩, 1, 0⟩, ⟨⟨3, 5, []⟩, 1, 1⟩, ⟨⟨5, 7, []⟩, 1, 2⟩]⟩, .ok ()) ∧
    hits_overlap ⟨⟨0, 7, [⟨2, 5⟩]⟩, 1, 0⟩ ⟨⟨5, 7, []⟩, 1, 2⟩ = .ok true ∧
    (⟨0, 7, [⟨2, 5⟩]⟩ : seq_seg_run).valid ∧ (⟨3, 5, []⟩ : seq_seg_run).valid ∧
    (⟨5, 7, []⟩ : seq_seg_run).valid := by
  decide

/-- C15: for hits with valid segment runs, the constructor throws
`invalid_argument_exception` if and only if two neighbours of the start-sorted hits overlap;
otherwise it returns the architecture of the sorted hits, which are a permutation of the
input in ascending order of start; the empty vector gives the empty architecture. -/
theorem hit_arch_ctor_spec (hits : List calc_hit) (hv : ∀ h ∈ hits, h.segments.valid) :
    (raises_invalid_argument (hit_arch.ctor hits) = true ↔
      ∃ i x y, (hit_arch.sort_hit_vec hits)[i]? = some x ∧
        (hit_arch.sort_hit_vec hits)[i + 1]? = some y ∧ hits_overlap x y = .ok true) ∧
    (raises_invalid_argument (hit_arch.ctor hits) = true ∨
      ∃ a, hit_arch.ctor hits = .ok a ∧ a.the_hits = hit_arch.sort_hit_vec hits ∧
        a.the_hits.Perm hits ∧ a.the_hits.Sorted start_le) ∧
    hit_arch.ctor [] = .ok ⟨[]⟩ := by
  have hsv := sort_hit_vec_valid hv
  have hsc := sanity_check_eq _ hsv
  refine ⟨?_, ?_, rfl⟩
  · rw [← adjacent_overlap_iff _ hsv, ctor_eq, hsc]
    cases contains_adjacent_match hits_share_position (hit_arch.sort_hit_vec hits) <;>
      simp [raises_invalid_argument]
  · rw [ctor_eq, hsc]
    cases contains_adjacent_match hits_share_position (hit_arch.sort_hit_vec hits)
    · right
      exact ⟨⟨hit_arch.sort_hit_vec hits⟩, rfl, rfl, sort_hit_vec_perm hits,
        sort_hit_vec_sorted hits⟩
    · left
      rfl

/-- C15 at the unsorted hits `[10,20)`, `[0,10)`. -/
theorem hit_arch_ctor_spec_witness :
    (∀ h ∈ [(⟨⟨10, 20, []⟩, 6, 1⟩ : calc_hit), ⟨⟨0, 10, []⟩, 5, 0⟩], h.segments.valid) ∧
    hit_arch.ctor [⟨⟨10, 20, []⟩, 6, 1⟩, ⟨⟨0, 10, []⟩, 5, 0⟩] =
      .ok ⟨[⟨⟨0, 10, []⟩, 5, 0⟩, ⟨⟨10, 20, []⟩, 6, 1⟩]⟩ ∧
    ((raises_invalid_argument
        (hit_arch.ctor [⟨⟨10, 20, []⟩, 6, 1⟩, ⟨⟨0, 10, []⟩, 5, 0⟩]) = true ↔
      ∃ i x y,
        (hit_arch.sort_hit_vec [⟨⟨10, 20, []⟩, 6, 1⟩, ⟨⟨0, 10, []⟩, 5, 0⟩])[i]? = some x ∧
        (hit_arch.sort_hit_vec [⟨⟨10, 20, []⟩, 6, 1⟩, ⟨⟨0, 10, []⟩, 5, 0⟩])[i + 1]? = some y ∧
        hits_overlap x y = .ok true) ∧
    (raises_invalid_argument
        (hit_arch.ctor [⟨⟨10, 20, []⟩, 6, 1⟩, ⟨⟨0, 10, []⟩, 5, 0⟩]) = true ∨
      ∃ a, hit_arch.ctor [⟨⟨10, 20, []⟩, 6, 1⟩, ⟨⟨0, 10, []⟩, 5, 0⟩] = .ok a ∧
        a.the_hits = hit_arch.sort_hit_vec [⟨⟨10, 20, []⟩, 6, 1⟩, ⟨⟨0, 10, []⟩, 5, 0⟩] ∧
        a.the_hits.Perm [⟨⟨10, 20, []⟩, 6, 1⟩, ⟨⟨0, 10, []⟩, 5, 0⟩] ∧
        a.the_hits.Sorted start_le) ∧
    hit_arch.ctor [] = .ok ⟨[]⟩) :=
  ⟨by decide, by decide,
    hit_arch_ctor_spec [⟨⟨10, 20, []⟩, 6, 1⟩, ⟨⟨0, 10, []⟩, 5, 0⟩] (by decide)⟩

/-! ## Sortedness -/

theorem remove_eq (a : hit_arch) (h : calc_hit) :
    (h ∈ a.the_hits ∧ (a.remove h).2 = true ∧
      ∃ l1 l2, a.the_hits = l1 ++ h :: l2 ∧ h ∉ l1 ∧ (a.remove h).1.the_hits = l1 ++ l2) ∨
    (h ∉ a.the_hits ∧ a.remove h = (a, false)) := by
  obtain ⟨l⟩ := a
  simp only [hit_arch.remove]
  induction l with
  | nil => right; simp
  | cons x l ih =>
    by_cases hx : x = h
    · subst hx
      left
      refine ⟨List.mem_cons_self _ _, ?_, [], l, rfl, by simp, ?_⟩ <;>
        simp [List.indexOf?_cons]
    · have hbeq : (x == h) = false := by simpa using hx
      simp only [List.indexOf?_cons, hbeq, cond_false]
      rcases ih with ⟨h1, h2, l1, l2, h3, h4, h5⟩ | ⟨h1, h2⟩
      · left
        cases hi : l.indexOf? h with
        | none => simp [hi] at h2
        | some i =>
          simp only [hi, Option.map_some'] at h5 ⊢
          refine ⟨List.mem_cons_of_mem _ h1, rfl, x :: l1, l2, by simp [h3], ?_, ?_⟩
          · simp only [List.mem_cons, not_or]
            exact ⟨fun hc => hx hc.symm, h4⟩
          · simpa using h5
      · right
        cases hi : l.indexOf? h with
        | none =>
          simp only [Option.map_none', List.mem_cons, not_or]
          exact ⟨⟨fun hc => hx hc.symm, h1⟩, rfl⟩
        | some i => simp [hi] at h2

theorem remove_sublist (a : hit_arch) (h : calc_hit) :
    (a.remove h).1.the_hits.Sublist a.the_hits := by
  rcases remove_eq a h with ⟨-, -, l1, l2, h3, -, h5⟩ | ⟨-, h2⟩
  · rw [h3, h5]
    exact List.Sublist.append_left (List.sublist_cons_self h l2) l1
  · rw [h2]

theorem op_plus_eq_hits_sorted (a : hit_arch) (hs : a.the_hits.Sorted start_le)
    (l : List calc_hit) : (a.op_plus_eq_hits l).1.the_hits.Sorted start_le := by
  induction l generalizing a with
  | nil => exact hs
  | cons h rest ih =>
    simp only [hit_arch.op_plus_eq_hits, hit_arch.op_plus_eq_hit]
    cases (hit_arch.mk (hit_arch.sort_hit_vec (a.the_hits ++ [h]))).sanity_check with
    | ok u => exact ih _ (sort_hit_vec_sorted _)
    | error e => exact sort_hit_vec_sorted _

/-- C16: every architecture reached from a default-constructed or vector-constructed one by
any sequence of `+=` of a hit, `+=` of an architecture and `remove` calls (also the calls of
`+=` that throw) holds its hits in ascending order of start boundary. -/
theorem hit_arch_sorted_invariant (a : hit_arch) (h : hit_arch.reachable a) :
    a.the_hits.Sorted start_le := by
  induction h with
  | default => exact List.sorted_nil
  | ctor v a hc =>
    rw [ctor_eq] at hc
    cases hsc : (hit_arch.mk (hit_arch.sort_hit_vec v)).sanity_check with
    | ok u =>
      rw [hsc] at hc
      cases hc
      exact sort_hit_vec_sorted v
    | error e =>
      rw [hsc] at hc
      cases hc
  | plus_eq_hit a h _ _ => exact sort_hit_vec_sorted _
  | plus_eq_arch a b _ ih => exact op_plus_eq_hits_sorted a ih b.the_hits
  | remove a h _ ih => exact List.Pairwise.sublist (remove_sublist a h) ih

/-- C16 at the architecture left by a throwing `+=` of `[5,15)` to the architecture of
`[10,20)` and `[0,10)`, followed by `remove` of `[10,20)`. -/
theorem hit_arch_sorted_invariant_witness :
    hit_arch.reachable ⟨[⟨⟨0, 10, []⟩, 5, 0⟩, ⟨⟨5, 15, []⟩, 8, 2⟩]⟩ ∧
    (hit_arch.mk [⟨⟨0, 10, []⟩, 5, 0⟩, ⟨⟨5, 15, []⟩, 8, 2⟩]).the_hits.Sorted start_le :=
  have hr : hit_arch.reachable ⟨[⟨⟨0, 10, []⟩, 5, 0⟩, ⟨⟨5, 15, []⟩, 8, 2⟩]⟩ :=
    hit_arch.reachable.remove _ ⟨⟨10, 20, []⟩, 6, 1⟩
      (hit_arch.reachable.plus_eq_hit _ ⟨⟨5, 15, []⟩, 8, 2⟩
        (hit_arch.reachable.ctor [⟨⟨10, 20, []⟩, 6, 1⟩, ⟨⟨0, 10, []⟩, 5, 0⟩]
          ⟨[⟨⟨0, 10, []⟩, 5, 0⟩, ⟨⟨10, 20, []⟩, 6, 1⟩]⟩ (by decide)))
  ⟨hr, hit_arch_sorted_invariant _ hr⟩


/-! ## Removal and insertion -/

theorem no_adjacent_of_pairwise (l : List calc_hit)
    (hp : l.Pairwise (fun x y => hits_share_position x y = false)) :
    contains_adjacent_match hits_share_position l = false := by
  induction l with
  | nil => rfl
  | cons x l ih =>
    cases l with
    | nil => rfl
    | cons y rest =>
      obtain ⟨h1, h2⟩ := List.pairwise_cons.1 hp
      simp only [contains_adjacent_match, h1 y (List.mem_cons_self _ _), ih h2, Bool.or_self]

theorem pairwise_share_iff (l : List calc_hit) (hv : ∀ h ∈ l, h.segments.valid) :
    l.Pairwise (fun x y => hits_overlap x y = .ok false) ↔
      l.Pairwise (fun x y => hits_share_position x y = false) := by
  induction l with
  | nil => simp
  | cons x l ih =>
    have hx := hv x (List.mem_cons_self _ _)
    have hl := fun h hh => hv h (List.mem_cons_of_mem x hh)
    rw [List.pairwise_cons, List.pairwise_cons, ih hl]
    constructor
    · rintro ⟨h1, h2⟩
      refine ⟨fun y hy => ?_, h2⟩
      have := h1 y hy
      rw [hits_overlap_eq hx (hl y hy)] at this
      exact Except.ok.inj this
    · rintro ⟨h1, h2⟩
      refine ⟨fun y hy => ?_, h2⟩
      rw [hits_overlap_eq hx (hl y hy), h1 y hy]

/-- C17, refuted as stated: the architecture of `[0,2),[5,7)`, `[3,5)` and `[5,7)` (which the
constructor returns) passes `sanity_check`, and after `remove` of `[3,5)` the two hits left
do not pass it. -/
theorem remove_breaks_adjacent_validation :
    hit_arch.ctor [⟨⟨0, 7, [⟨2, 5⟩]⟩, 1, 0⟩, ⟨⟨3, 5, []⟩, 1, 1⟩, ⟨⟨5, 7, []⟩, 1, 2⟩] =
      .ok ⟨[⟨⟨0, 7, [⟨2, 5⟩]⟩, 1, 0⟩, ⟨⟨3, 5, []⟩, 1, 1⟩, ⟨⟨5, 7, []⟩, 1, 2⟩]⟩ ∧
    (hit_arch.mk [⟨⟨0, 7, [⟨2, 5⟩]⟩, 1, 0⟩, ⟨⟨3, 5, []⟩, 1, 1⟩,
      ⟨⟨5, 7, []⟩, 1, 2⟩]).sanity_check = .ok () ∧
    (hit_arch.mk [⟨⟨0, 7, [⟨2, 5⟩]⟩, 1, 0⟩, ⟨⟨3, 5, []⟩, 1, 1⟩,
      ⟨⟨5, 7, []⟩, 1, 2⟩]).remove ⟨⟨3, 5, []⟩, 1, 1⟩ =
      (⟨[⟨⟨0, 7, [⟨2, 5⟩]⟩, 1, 0⟩, ⟨⟨5, 7, []⟩, 1, 2⟩]⟩, true) ∧
    ¬ ((hit_arch.mk [⟨⟨0, 7, [⟨2, 5⟩]⟩, 1, 0⟩, ⟨⟨3, 5, []⟩, 1, 1⟩,
      ⟨⟨5, 7, []⟩, 1, 2⟩]).remove ⟨⟨3, 5, []⟩, 1, 1⟩).1.sanity_check = .ok () := by
  decide

/-- C17, amended: if no two hits of an architecture overlap (every pair, not only neighbours
in start order), then after `remove` of any hit no two of the remaining hits overlap, and the
remaining hits pass `sanity_check`. -/
theorem remove_keeps_pairwise_non_overlap (a : hit_arch) (h : calc_hit)
    (hv : ∀ x ∈ a.the_hits, x.segments.valid)
    (hp : a.the_hits.Pairwise (fun x y => hits_overlap x y = .ok false)) :
    (a.remove h).1.the_hits.Pairwise (fun x y => hits_overlap x y = .ok false) ∧
      (a.remove h).1.sanity_check = .ok () := by
  have hsub := remove_sublist a h
  have hv2 : ∀ x ∈ (a.remove h).1.the_hits, x.segments.valid := fun x hx => hv x (hsub.subset hx)
  have hp2 := List.Pairwise.sublist hsub hp
  refine ⟨hp2, ?_⟩
  exact (sanity_check_ok_iff_no_adjacent _ hv2).2
    (no_adjacent_of_pairwise _ ((pairwise_share_iff _ hv2).1 hp2))

/-- C17 (amended) at the architecture of `[0,10)`, `[10,20)`, `[20,30)` and the hit
`[10,20)`. -/
theorem remove_keeps_pairwise_non_overlap_witness :
    (∀ x ∈ (hit_arch.mk [⟨⟨0, 10, []⟩, 5, 0⟩, ⟨⟨10, 20, []⟩, 6, 1⟩,
      ⟨⟨20, 30, []⟩, 7, 2⟩]).the_hits, x.segments.valid) ∧
    (hit_arch.mk [⟨⟨0, 10, []⟩, 5, 0⟩, ⟨⟨10, 20, []⟩, 6, 1⟩,
      ⟨⟨20, 30, []⟩, 7, 2⟩]).the_hits.Pairwise (fun x y => hits_overlap x y = .ok false) ∧
    ((hit_arch.mk [⟨⟨0, 10, []⟩, 5, 0⟩, ⟨⟨10, 20, []⟩, 6, 1⟩,
      ⟨⟨20, 30, []⟩, 7, 2⟩]).remove ⟨⟨10, 20, []⟩, 6, 1⟩).1.the_hits.Pairwise
        (fun x y => hits_overlap x y = .ok false) ∧
    ((hit_arch.mk [⟨⟨0, 10, []⟩, 5, 0⟩, ⟨⟨10, 20, []⟩, 6, 1⟩,
      ⟨⟨20, 30, []⟩, 7, 2⟩]).remove ⟨⟨10, 20, []⟩, 6, 1⟩).1.sanity_check = .ok () :=
  ⟨by decide, by decide,
    remove_keeps_pairwise_non_overlap
      ⟨[⟨⟨0, 10, []⟩, 5, 0⟩, ⟨⟨10, 20, []⟩, 6, 1⟩, ⟨⟨20, 30, []⟩, 7, 2⟩]⟩ ⟨⟨10, 20, []⟩, 6, 1⟩
      (by decide) (by decide)⟩

/-- C18, refuted as stated: `+=` of the hit `[5,15)` to the architecture of `[0,10)` throws,
and the architecture then holds both hits, which are neighbours and overlap. -/
theorem plus_eq_leaves_rejected_hit :
    hit_arch.ctor [⟨⟨0, 10, []⟩, 5, 0⟩] = .ok ⟨[⟨⟨0, 10, []⟩, 5, 0⟩]⟩ ∧
    raises_invalid_argument
      ((hit_arch.mk [⟨⟨0, 10, []⟩, 5, 0⟩]).op_plus_eq_hit ⟨⟨5, 15, []⟩, 8, 1⟩).2 = true ∧
    ((hit_arch.mk [⟨⟨0, 10, []⟩, 5, 0⟩]).op_plus_eq_hit ⟨⟨5, 15, []⟩, 8, 1⟩).1.the_hits =
      [⟨⟨0, 10, []⟩, 5, 0⟩, ⟨⟨5, 15, []⟩, 8, 1⟩] ∧
    hits_overlap ⟨⟨0, 10, []⟩, 5, 0⟩ ⟨⟨5, 15, []⟩, 8, 1⟩ = .ok true ∧
    raises_invalid_argument
      ((hit_arch.mk [⟨⟨0, 10, []⟩, 5, 0⟩]).op_plus_eq_arch ⟨[⟨⟨5, 15, []⟩, 8, 1⟩]⟩).2 = true ∧
    ((hit_arch.mk [⟨⟨0, 10, []⟩, 5, 0⟩]).op_plus_eq_arch ⟨[⟨⟨5, 15, []⟩, 8, 1⟩]⟩).1.the_hits =
      [⟨⟨0, 10, []⟩, 5, 0⟩, ⟨⟨5, 15, []⟩, 8, 1⟩] := by
  decide

theorem op_plus_eq_hit_outcome (a : hit_arch) (h : calc_hit)
    (hv : ∀ x ∈ a.the_hits, x.segments.valid) (hh : h.segments.valid) :
    (∀ x ∈ (a.op_plus_eq_hit h).1.the_hits, x.segments.valid) ∧
    (((a.op_plus_eq_hit h).2 = .ok () ∧
        contains_adjacent_match hits_share_position (a.op_plus_eq_hit h).1.the_hits = false) ∨
      (raises_invalid_argument (a.op_plus_eq_hit h).2 = true ∧
        contains_adjacent_match hits_share_position (a.op_plus_eq_hit h).1.the_hits = true)) := by
  have hv1 : ∀ x ∈ a.the_hits ++ [h], x.segments.valid := by
    intro x hx
    rcases List.mem_append.1 hx with hx | hx
    · exact hv x hx
    · rw [List.mem_singleton.1 hx]; exact hh
  have hv2 := sort_hit_vec_valid hv1
  refine ⟨hv2, ?_⟩
  simp only [hit_arch.op_plus_eq_hit, sanity_check_eq _ hv2]
  cases contains_adjacent_match hits_share_position (hit_arch.sort_hit_vec (a.the_hits ++ [h]))
  · left; exact ⟨rfl, rfl⟩
  · right; exact ⟨rfl, rfl⟩

theorem op_plus_eq_hits_outcome (a : hit_arch) (l : List calc_hit)
    (hv : ∀ x ∈ a.the_hits, x.segments.valid) (hl : ∀ x ∈ l, x.segments.valid)
    (hok : contains_adjacent_match hits_share_position a.the_hits = false) :
    ((a.op_plus_eq_hits l).2 = .ok () ∧
        contains_adjacent_match hits_share_position (a.op_plus_eq_hits l).1.the_hits = false ∧
        (a.op_plus_eq_hits l).1.the_hits.Perm (a.the_hits ++ l)) ∨
      (raises_invalid_argument (a.op_plus_eq_hits l).2 = true ∧
        contains_adjacent_match hits_share_position (a.op_plus_eq_hits l).1.the_hits = true ∧
        ∃ done h rest, l = done ++ h :: rest ∧
          (a.op_plus_eq_hits l).1.the_hits.Perm (a.the_hits ++ done ++ [h])) := by
  induction l generalizing a with
  | nil => left; exact ⟨rfl, hok, by simp [hit_arch.op_plus_eq_hits]⟩
  | cons h rest ih =>
    have hh := hl h (List.mem_cons_self _ _)
    have hrest := fun x hx => hl x (List.mem_cons_of_mem h hx)
    obtain ⟨hv2, hcase⟩ := op_plus_eq_hit_outcome a h hv hh
    have hperm : (a.op_plus_eq_hit h).1.the_hits.Perm (a.the_hits ++ [h]) :=
      sort_hit_vec_perm _
    rcases hcase with ⟨h1, h2⟩ | ⟨h1, h2⟩
    · have hstep : a.op_plus_eq_hits (h :: rest) = (a.op_plus_eq_hit h).1.op_plus_eq_hits rest := by
        simp only [hit_arch.op_plus_eq_hits]
        split
        · rename_i a1 u heq
          rw [heq]
        · rename_i a1 e heq
          rw [heq] at h1
          cases h1
      rw [hstep]
      rcases ih (a.op_plus_eq_hit h).1 hv2 hrest h2 with ⟨h3, h4, h5⟩ | ⟨h3, h4, done, g, tl, h5, h6⟩
      · left
        refine ⟨h3, h4, h5.trans ?_⟩
        simpa using List.Perm.append_right rest hperm
      · right
        refine ⟨h3, h4, h :: done, g, tl, by simp [h5], h6.trans ?_⟩
        simpa using List.Perm.append_right (done ++ [g]) hperm
    · have hstep : a.op_plus_eq_hits (h :: rest) =
          ((a.op_plus_eq_hit h).1, (a.op_plus_eq_hit h).2) := by
        simp only [hit_arch.op_plus_eq_hits]
        split
        · rename_i a1 u heq
          rw [heq] at h1
          cases h1
        · rename_i a1 e heq
          rw [heq]
      rw [hstep]
      right
      exact ⟨h1, h2, [], h, rest, rfl, by simpa using hperm⟩

/-- C18, amended: for hits with valid segment runs, when `+=` (of a hit, or of an
architecture to one that passes `sanity_check`) returns, the stored hits are the old ones and
the new ones, sorted by start, and no two neighbours overlap; when it throws, the stored hits
are sorted by start and hold the old hits, the hits inserted so far and the rejected hit, and
two neighbours overlap: nothing is undone. -/
theorem plus_eq_outcome (a b : hit_arch) (h : calc_hit)
    (hv : ∀ x ∈ a.the_hits, x.segments.valid) (hb : ∀ x ∈ b.the_hits, x.segments.valid)
    (hh : h.segments.valid) (hs : a.the_hits.Sorted start_le) (hok : a.sanity_check = .ok ()) :
    (a.op_plus_eq_hit h).1.the_hits.Sorted start_le ∧
    (a.op_plus_eq_hit h).1.the_hits.Perm (a.the_hits ++ [h]) ∧
    (((a.op_plus_eq_hit h).2 = .ok () ∧ (a.op_plus_eq_hit h).1.sanity_check = .ok ()) ∨
      (raises_invalid_argument (a.op_plus_eq_hit h).2 = true ∧
        ∃ i x y, (a.op_plus_eq_hit h).1.the_hits[i]? = some x ∧
          (a.op_plus_eq_hit h).1.the_hits[i + 1]? = some y ∧ hits_overlap x y = .ok true)) ∧
    (a.op_plus_eq_arch b).1.the_hits.Sorted start_le ∧
    (((a.op_plus_eq_arch b).2 = .ok () ∧ (a.op_plus_eq_arch b).1.sanity_check = .ok () ∧
        (a.op_plus_eq_arch b).1.the_hits.Perm (a.the_hits ++ b.the_hits)) ∨
      (raises_invalid_argument (a.op_plus_eq_arch b).2 = true ∧
        (∃ done g rest, b.the_hits = done ++ g :: rest ∧
          (a.op_plus_eq_arch b).1.the_hits.Perm (a.the_hits ++ done ++ [g])) ∧
        ∃ i x y, (a.op_plus_eq_arch b).1.the_hits[i]? = some x ∧
          (a.op_plus_eq_arch b).1.the_hits[i + 1]? = some y ∧ hits_overlap x y = .ok true)) := by
  obtain ⟨hv2, hcase⟩ := op_plus_eq_hit_outcome a h hv hh
  have hok2 := (sanity_check_ok_iff_no_adjacent a.the_hits hv).1 hok
  refine ⟨sort_hit_vec_sorted _, sort_hit_vec_perm _, ?_, ?_, ?_⟩
  · rcases hcase with ⟨h1, h2⟩ | ⟨h1, h2⟩
    · left
      exact ⟨h1, (sanity_check_ok_iff_no_adjacent _ hv2).2 h2⟩
    · right
      exact ⟨h1, (adjacent_overlap_iff _ hv2).1 h2⟩
  · exact op_plus_eq_hits_sorted a hs b.the_hits
  · have hmem : ∀ (l1 l2 : List calc_hit), l1.Perm (a.the_hits ++ l2) →
        (∀ x ∈ l2, x.segments.valid) → ∀ x ∈ l1, x.segments.valid := by
      intro l1 l2 hperm hl2 x hx
      rcases List.mem_append.1 (hperm.mem_iff.1 hx) with hx | hx
      · exact hv x hx
      · exact hl2 x hx
    rcases op_plus_eq_hits_outcome a b.the_hits hv hb hok2 with
      ⟨h1, h2, h3⟩ | ⟨h1, h2, done, g, rest, h3, h4⟩
    · left
      exact ⟨h1, (sanity_check_ok_iff_no_adjacent _ (hmem _ _ h3 hb)).2 h2, h3⟩
    · right
      refine ⟨h1, ⟨done, g, rest, h3, h4⟩, ?_⟩
      have hv3 : ∀ x ∈ (a.op_plus_eq_arch b).1.the_hits, x.segments.valid := by
        apply hmem _ (done ++ [g]) (by simpa [List.append_assoc] using h4)
        intro x hx
        apply hb
        rw [h3]
        rcases List.mem_append.1 hx with hx | hx
        · exact List.mem_append_left _ hx
        · rw [List.mem_singleton.1 hx]
          exact List.mem_append_right _ (List.mem_cons_self _ _)
      exact (adjacent_overlap_iff _ hv3).1 h2

/-- C18 (amended) at the architecture of `[0,10)`, the architecture of `[20,30)` and the hit
`[10,20)`. -/
theorem plus_eq_outcome_witness :
    (∀ x ∈ (hit_arch.mk [⟨⟨0, 10, []⟩, 5, 0⟩]).the_hits, x.segments.valid) ∧
    (∀ x ∈ (hit_arch.mk [⟨⟨20, 30, []⟩, 7, 2⟩]).the_hits, x.segments.valid) ∧
    (⟨⟨10, 20, []⟩, 6, 1⟩ : calc_hit).segments.valid ∧
    (hit_arch.mk [⟨⟨0, 10, []⟩, 5, 0⟩]).the_hits.Sorted start_le ∧
    (hit_arch.mk [⟨⟨0, 10, []⟩, 5, 0⟩]).sanity_check = .ok () ∧
    ((hit_arch.mk [⟨⟨0, 10, []⟩, 5, 0⟩]).op_plus_eq_hit ⟨⟨10, 20, []⟩, 6, 1⟩).2 = .ok () ∧
    ((hit_arch.mk [⟨⟨0, 10, []⟩, 5, 0⟩]).op_plus_eq_hit
      ⟨⟨10, 20, []⟩, 6, 1⟩).1.the_hits.Sorted start_le ∧
    ((hit_arch.mk [⟨⟨0, 10, []⟩, 5, 0⟩]).op_plus_eq_arch
      ⟨[⟨⟨20, 30, []⟩, 7, 2⟩]⟩).1.the_hits.Sorted start_le :=
  have hthm := plus_eq_outcome ⟨[⟨⟨0, 10, []⟩, 5, 0⟩]⟩ ⟨[⟨⟨20, 30, []⟩, 7, 2⟩]⟩
    ⟨⟨10, 20, []⟩, 6, 1⟩ (by decide) (by decide) (by decide) (by simp) (by decide)
  ⟨by decide, by decide, by decide, by simp, by decide, by decide, hthm.1, hthm.2.2.2.1⟩

/-- C19: `remove h` returns true if and only if some stored hit equals `h`; when it returns
true the first stored hit equal to `h` is deleted, the others keep their order and the size
drops by one; when it returns false the architecture is unchanged. -/
theorem remove_spec (a : hit_arch) (h : calc_hit) :
    ((a.remove h).2 = true ↔ h ∈ a.the_hits) ∧
    ((a.remove h).2 = true →
      ∃ l1 l2, a.the_hits = l1 ++ h :: l2 ∧ h ∉ l1 ∧ (a.remove h).1.the_hits = l1 ++ l2 ∧
        (a.remove h).1.size + 1 = a.size) ∧
    ((a.remove h).2 = false → (a.remove h).1 = a) := by
  rcases remove_eq a h with ⟨h1, h2, l1, l2, h3, h4, h5⟩ | ⟨h1, h2⟩
  · refine ⟨⟨fun _ => h1, fun _ => h2⟩, fun _ => ⟨l1, l2, h3, h4, h5, ?_⟩, fun hc => ?_⟩
    · simp only [hit_arch.size, h5, h3, List.length_append, List.length_cons]
      omega
    · rw [h2] at hc
      cases hc
  · rw [h2]
    refine ⟨⟨fun hc => (by cases hc), fun hc => absurd hc h1⟩, fun hc => (by cases hc),
      fun _ => rfl⟩


/-! ## Lemmas: the resolver's table -/

theorem valid_start_lt_stop {x : calc_hit} (h : x.segments.valid) : x.start < x.stop :=
  chain_ok_lt (valid_chain_ok h)

theorem no_interaction_symm {x y : calc_hit} (h : no_interaction x y) : no_interaction y x := by
  simp only [no_interaction, any_interaction] at *
  rw [Bool.and_comm]
  exact h

theorem no_interaction_of_le {x y : calc_hit} (h : x.stop ≤ y.start) : no_interaction x y := by
  simp only [no_interaction, any_interaction, calc_hit.stop, calc_hit.start,
    Bool.and_eq_false_imp, decide_eq_true_eq, decide_eq_false_iff_not] at *
  omega

theorem no_share_of_no_interaction {x y : calc_hit} (hx : x.segments.valid)
    (hy : y.segments.valid) (h : no_interaction x y) : hits_share_position x y = false := by
  have hnil : intersecting_pairs x.segments.segs y.segments.segs = [] := by
    apply intersecting_pairs_eq_nil
    intro a ha b hb
    have ha2 := segs_from_bounds (valid_chain_ok hx) a ha
    have hb2 := segs_from_bounds (valid_chain_ok hy) b hb
    simp only [no_interaction, any_interaction, get_start_arrow, get_stop_arrow,
      Bool.and_eq_false_imp, decide_eq_true_eq, decide_eq_false_iff_not] at h
    simp only [seq_seg.are_overlapping, Bool.and_eq_false_imp, decide_eq_true_eq,
      decide_eq_false_iff_not]
    omega
  simp [hits_share_position, hnil]

theorem no_interaction_of_contiguous {x y : calc_hit} (hx : x.segments.is_discontig = false)
    (hy : y.segments.is_discontig = false) (h : hits_share_position x y = false) :
    no_interaction x y := by
  obtain ⟨⟨s1, e1, f1⟩, _, _⟩ := x
  obtain ⟨⟨s2, e2, f2⟩, _, _⟩ := y
  simp only [is_discontig, Bool.not_eq_false', List.isEmpty_iff] at hx hy
  subst hx hy
  simp only [hits_share_position, seq_seg_run.segs, segs_from, intersecting_pairs,
    List.filter_cons, List.filter_nil, seq_seg.are_overlapping] at h
  simp only [no_interaction, any_interaction, get_start_arrow, get_stop_arrow]
  by_cases hc : (decide (s1 < e2) && decide (s2 < e1)) = true
  · simp [hc] at h
  · simpa using hc

end rslv

namespace seq

open seq_seg_run

/-! ## Overlap, interaction and lengths -/

theorem intersection_length_pos {x y : seq_seg} (hx : x.start_arrow < x.stop_arrow)
    (hy : y.start_arrow < y.stop_arrow) (h : x.are_overlapping y = true) :
    0 < intersection_length x y := by
  simp only [seq_seg.are_overlapping, Bool.and_eq_true, decide_eq_true_eq] at h
  simp only [intersection_length, h, and_self, ↓reduceIte]
  omega

theorem pairwise_intersection_sum_pos_iff {xs ys : List seq_seg}
    (hx : ∀ x ∈ xs, x.start_arrow < x.stop_arrow) (hy : ∀ y ∈ ys, y.start_arrow < y.stop_arrow) :
    0 < pairwise_intersection_sum xs ys ↔ (intersecting_pairs xs ys).isEmpty = false := by
  constructor
  · intro hpos
    by_contra hc
    have hnil : intersecting_pairs xs ys = [] := by
      cases hl : intersecting_pairs xs ys with
      | nil => rfl
      | cons p l => simp [hl] at hc
    have hzero : pairwise_intersection_sum xs ys = 0 := by
      apply pairwise_intersection_sum_eq_zero
      intro x hxm y hym
      by_contra hov
      have hmem := (mem_intersecting_pairs xs ys (x, y)).2 ⟨hxm, hym, by simpa using hov⟩
      rw [hnil] at hmem
      cases hmem
    omega
  · intro hne
    obtain ⟨p, hp⟩ := List.isEmpty_eq_false_iff_exists_mem.1 hne
    obtain ⟨h1, h2, h3⟩ := (mem_intersecting_pairs xs ys p).1 hp
    have hpos := intersection_length_pos (hx _ h1) (hy _ h2) h3
    have hrow : intersection_length p.1 p.2 ≤ (ys.map (fun y => intersection_length p.1 y)).sum :=
      List.single_le_sum (fun _ _ => Nat.zero_le _) _ (List.mem_map_of_mem _ h2)
    have hall : (ys.map (fun y => intersection_length p.1 y)).sum ≤
        pairwise_intersection_sum xs ys :=
      List.single_le_sum (fun _ _ => Nat.zero_le _) _
        (List.mem_map_of_mem (fun x => (ys.map (fun y => intersection_length x y)).sum) h1)
    omega

/-- C28: for valid runs `a` and `b`, `are_overlapping a b` returns true if and only if
`overlap_by a b` returns a positive number, and then `any_interaction a b` is true. -/
theorem are_overlapping_iff_overlap_by_pos (a b : seq_seg_run) (ha : a.valid) (hb : b.valid) :
    ∃ res n, are_overlapping a b = .ok res ∧ overlap_by a b = .ok n ∧
      (res = true ↔ 0 < n) ∧ (res = true → any_interaction a b = true) := by
  have hsa := valid_segs_sorted ha
  have hsb := valid_segs_sorted hb
  refine ⟨_, _, are_overlapping_eq ha hb, overlap_by_eq ha hb, ?_, ?_⟩
  · rw [pairwise_intersection_sum_pos_iff hsa.1 hsb.1]
    simp
  · intro hres
    by_contra hni
    have hni2 : any_interaction a b = false := by simpa using hni
    have h0 : overlap_by a b = .ok 0 := by simp [overlap_by, hni2]
    rw [overlap_by_eq ha hb] at h0
    have hz : pairwise_intersection_sum a.segs b.segs = 0 := Except.ok.inj h0
    have hpos := (pairwise_intersection_sum_pos_iff hsa.1 hsb.1).2 (by simpa using hres)
    omega

/-- C28 at the runs `[0,5),[8,12)` and `[3,4),[6,10),[11,20)`. -/
theorem are_overlapping_iff_overlap_by_pos_witness :
    (⟨0, 12, [⟨5, 8⟩]⟩ : seq_seg_run).valid ∧ (⟨3, 20, [⟨4, 6⟩, ⟨10, 11⟩]⟩ : seq_seg_run).valid ∧
    ∃ res n, are_overlapping ⟨0, 12, [⟨5, 8⟩]⟩ ⟨3, 20, [⟨4, 6⟩, ⟨10, 11⟩]⟩ = .ok res ∧
      overlap_by ⟨0, 12, [⟨5, 8⟩]⟩ ⟨3, 20, [⟨4, 6⟩, ⟨10, 11⟩]⟩ = .ok n ∧
      (res = true ↔ 0 < n) ∧
      (res = true → any_interaction ⟨0, 12, [⟨5, 8⟩]⟩ ⟨3, 20, [⟨4, 6⟩, ⟨10, 11⟩]⟩ = true) :=
  ⟨by decide, by decide,
    are_overlapping_iff_overlap_by_pos ⟨0, 12, [⟨5, 8⟩]⟩ ⟨3, 20, [⟨4, 6⟩, ⟨10, 11⟩]⟩
      (by decide) (by decide)⟩

theorem seg_length_sum_pos {r : seq_seg_run} (h : r.valid) : 0 < seg_length_sum r.segs := by
  have hb := segs_from_bounds (valid_chain_ok h)
  cases hs : r.segs with
  | nil =>
    have := segs_from_length r.start_arrow r.stop_arrow r.fragments
    simp only [seq_seg_run.segs] at hs
    rw [hs] at this
    simp at this
  | cons x rest =>
    have hx := hb x (by
      simp only [seq_seg_run.segs] at hs
      rw [hs]; exact List.mem_cons_self _ _)
    simp only [seg_length_sum, List.map_cons, List.sum_cons]
    omega

/-- C29: for valid runs `a` and `b`, `overlap_by a b ≤ shorter_length a b ≤ longer_length a b`,
the shorter and the longer length are the minimum and the maximum of the two total lengths,
and both are positive; so in `fraction_overlap_over_shorter` and
`fraction_overlap_over_longer` the numerator is at most the denominator, which is not zero. -/
theorem overlap_by_le_shorter_le_longer (a b : seq_seg_run) (ha : a.valid) (hb : b.valid) :
    ∃ n la lb, overlap_by a b = .ok n ∧ get_total_length a = .ok la ∧
      get_total_length b = .ok lb ∧
      shorter_length a b = .ok (min la lb) ∧ longer_length a b = .ok (max la lb) ∧
      n ≤ min la lb ∧ min la lb ≤ max la lb ∧ 0 < min la lb ∧ 0 < max la lb ∧
      fraction_overlap_over_shorter_operands a b = .ok (n, min la lb) ∧
      fraction_overlap_over_longer_operands a b = .ok (n, max la lb) := by
  have hla := get_total_length_eq ha
  have hlb := get_total_length_eq hb
  have hov := overlap_by_eq ha hb
  have h1 := pairwise_intersection_sum_le a.segs (valid_segs_sorted hb)
  have h2 := pairwise_intersection_sum_le b.segs (valid_segs_sorted ha)
  rw [pairwise_intersection_sum_comm] at h2
  have h3 := seg_length_sum_pos ha
  have h4 := seg_length_sum_pos hb
  have hsh : shorter_length a b = .ok (min (seg_length_sum a.segs) (seg_length_sum b.segs)) := by
    simp only [shorter_length, hla, hlb, bind, Except.bind, pure, Except.pure]
  have hlo : longer_length a b = .ok (max (seg_length_sum a.segs) (seg_length_sum b.segs)) := by
    simp only [longer_length, hla, hlb, bind, Except.bind, pure, Except.pure]
  refine ⟨_, _, _, hov, hla, hlb, hsh, hlo, ?_, ?_, ?_, ?_, ?_, ?_⟩
  · omega
  · omega
  · omega
  · omega
  · simp only [fraction_overlap_over_shorter_operands, hov, hsh, bind, Except.bind, pure,
      Except.pure]
  · simp only [fraction_overlap_over_longer_operands, hov, hlo, bind, Except.bind, pure,
      Except.pure]

/-- C29 at the runs `[0,5),[8,12)` and `[3,4),[6,10),[11,20)`. -/
theorem overlap_by_le_shorter_le_longer_witness :
    (⟨0, 12, [⟨5, 8⟩]⟩ : seq_seg_run).valid ∧ (⟨3, 20, [⟨4, 6⟩, ⟨10, 11⟩]⟩ : seq_seg_run).valid ∧
    fraction_overlap_over_shorter_operands ⟨0, 12, [⟨5, 8⟩]⟩ ⟨3, 20, [⟨4, 6⟩, ⟨10, 11⟩]⟩ =
      .ok (4, 9) ∧
    fraction_overlap_over_longer_operands ⟨0, 12, [⟨5, 8⟩]⟩ ⟨3, 20, [⟨4, 6⟩, ⟨10, 11⟩]⟩ =
      .ok (4, 14) ∧
    ∃ n la lb, overlap_by ⟨0, 12, [⟨5, 8⟩]⟩ ⟨3, 20, [⟨4, 6⟩, ⟨10, 11⟩]⟩ = .ok n ∧
      get_total_length ⟨0, 12, [⟨5, 8⟩]⟩ = .ok la ∧
      get_total_length ⟨3, 20, [⟨4, 6⟩, ⟨10, 11⟩]⟩ = .ok lb ∧
      shorter_length ⟨0, 12, [⟨5, 8⟩]⟩ ⟨3, 20, [⟨4, 6⟩, ⟨10, 11⟩]⟩ = .ok (min la lb) ∧
      longer_length ⟨0, 12, [⟨5, 8⟩]⟩ ⟨3, 20, [⟨4, 6⟩, ⟨10, 11⟩]⟩ = .ok (max la lb) ∧
      n ≤ min la lb ∧ min la lb ≤ max la lb ∧ 0 < min la lb ∧ 0 < max la lb ∧
      fraction_overlap_over_shorter_operands ⟨0, 12, [⟨5, 8⟩]⟩ ⟨3, 20, [⟨4, 6⟩, ⟨10, 11⟩]⟩ =
        .ok (n, min la lb) ∧
      fraction_overlap_over_longer_operands ⟨0, 12, [⟨5, 8⟩]⟩ ⟨3, 20, [⟨4, 6⟩, ⟨10, 11⟩]⟩ =
        .ok (n, max la lb) :=
  ⟨by decide, by decide, by decide, by decide,
    overlap_by_le_shorter_le_longer ⟨0, 12, [⟨5, 8⟩]⟩ ⟨3, 20, [⟨4, 6⟩, ⟨10, 11⟩]⟩
      (by decide) (by decide)⟩

/-! ## Termination of the loop of `apply_to_overlaps_in_seq_seg_runs` -/

theorem get_start_arrow_of_segment_ok (r : seq_seg_run) (i : Nat) (hi : i < r.get_num_segments) :
    ∃ v, r.get_start_arrow_of_segment i = .ok v := by
  rw [get_num_segments_eq] at hi
  exact ⟨_, (segs_from_getElem? r.start_arrow r.stop_arrow r.fragments i _
    (List.getElem?_eq_getElem hi)).1⟩

theorem apply_loop_exit {σ : Type} (a b : seq_seg_run) (fn : σ → seq_seg → seq_seg → σ)
    (fuel ctr_a ctr_b : Nat) (t : σ)
    (h : ctr_a = a.get_num_segments ∨ ctr_b = b.get_num_segments) :
    detail.apply_loop a b fn (fuel + 1) ctr_a ctr_b t = .ok t := by
  unfold detail.apply_loop
  rw [if_neg]
  rintro ⟨h1, h2⟩
  rcases h with h | h
  · exact h1 h
  · exact h2 h

theorem apply_loop_iteration {σ : Type} {a b : seq_seg_run} (ha : a.valid) (hb : b.valid)
    (fn : σ → seq_seg → seq_seg → σ) (fuel ctr_a ctr_b : Nat) (t : σ)
    (hca : ctr_a < a.get_num_segments) (hcb : ctr_b < b.get_num_segments) :
    ∃ seg_a seg_b ctr_a1 ctr_b1,
      get_seq_seg_of_seg_idx a ctr_a = .ok seg_a ∧ get_seq_seg_of_seg_idx b ctr_b = .ok seg_b ∧
      detail.apply_loop a b fn (fuel + 1) ctr_a ctr_b t =
        detail.apply_loop a b fn fuel ctr_a1 ctr_b1
          (if seg_a.are_overlapping seg_b then fn t seg_a seg_b else t) ∧
      (ctr_a1 = ctr_a + 1 ∨ ctr_a1 = ctr_a) ∧ (ctr_b1 = ctr_b + 1 ∨ ctr_b1 = ctr_b) ∧
      (ctr_a1 = ctr_a + 1 ∨ ctr_b1 = ctr_b + 1) ∧
      (seg_a.stop_arrow = seg_b.stop_arrow → ctr_a1 = ctr_a + 1 ∧ ctr_b1 = ctr_b + 1) ∧
      ctr_a1 ≤ a.get_num_segments ∧ ctr_b1 ≤ b.get_num_segments := by
  have hia : ctr_a < a.segs.length := by rwa [get_num_segments_eq] at hca
  have hib : ctr_b < b.segs.length := by rwa [get_num_segments_eq] at hcb
  have hga := get_seq_seg_of_seg_idx_eq ha ctr_a a.segs[ctr_a] (List.getElem?_eq_getElem hia)
  have hgb := get_seq_seg_of_seg_idx_eq hb ctr_b b.segs[ctr_b] (List.getElem?_eq_getElem hib)
  refine ⟨a.segs[ctr_a], b.segs[ctr_b],
    if a.segs[ctr_a].stop_arrow ≤ b.segs[ctr_b].stop_arrow then ctr_a + 1 else ctr_a,
    if b.segs[ctr_b].stop_arrow ≤ a.segs[ctr_a].stop_arrow then ctr_b + 1 else ctr_b,
    hga, hgb, ?_, ?_, ?_, ?_, ?_, ?_, ?_⟩
  · conv_lhs => unfold detail.apply_loop
    rw [if_pos ⟨by omega, by omega⟩]
    simp only [hga, hgb, bind, Except.bind]
  · split <;> simp
  · split <;> simp
  · by_cases h : a.segs[ctr_a].stop_arrow ≤ b.segs[ctr_b].stop_arrow
    · left; rw [if_pos h]
    · right; rw [if_pos (by omega)]
  · intro h
    rw [if_pos (by omega), if_pos (by omega)]
    exact ⟨rfl, rfl⟩
  · split <;> omega
  · split <;> omega

/-- C30: for valid runs `a` and `b` the loop of `apply_to_overlaps_in_seq_seg_runs` ends: the
two counters start at most at the segment counts; while both are below them, the two segments
are read without leaving `fragments`, and the iteration increments `ctr_a` or `ctr_b` by one
(both when the two segments stop at the same boundary) and leaves both at most at the segment
counts; when a counter reaches its count the loop returns; so the function returns a result
within `get_num_segments a + get_num_segments b + 1` tests of the loop condition, and with
any larger bound. -/
theorem apply_to_overlaps_terminates {σ : Type} (a b : seq_seg_run) (ha : a.valid)
    (hb : b.valid) (fn : σ → seq_seg → seq_seg → σ) (s : σ) :
    detail.index_of_first_seg_not_earlier_than_arrow a b.get_start_arrow ≤ a.get_num_segments ∧
    detail.index_of_first_seg_not_earlier_than_arrow b a.get_start_arrow ≤ b.get_num_segments ∧
    (∀ (fuel ctr_a ctr_b : Nat) (t : σ),
      ctr_a < a.get_num_segments → ctr_b < b.get_num_segments →
      ∃ seg_a seg_b ctr_a1 ctr_b1,
        get_seq_seg_of_seg_idx a ctr_a = .ok seg_a ∧ get_seq_seg_of_seg_idx b ctr_b = .ok seg_b ∧
        detail.apply_loop a b fn (fuel + 1) ctr_a ctr_b t =
          detail.apply_loop a b fn fuel ctr_a1 ctr_b1
            (if seg_a.are_overlapping seg_b then fn t seg_a seg_b else t) ∧
        (ctr_a1 = ctr_a + 1 ∨ ctr_a1 = ctr_a) ∧ (ctr_b1 = ctr_b + 1 ∨ ctr_b1 = ctr_b) ∧
        (ctr_a1 = ctr_a + 1 ∨ ctr_b1 = ctr_b + 1) ∧
        (seg_a.stop_arrow = seg_b.stop_arrow → ctr_a1 = ctr_a + 1 ∧ ctr_b1 = ctr_b + 1) ∧
        ctr_a1 ≤ a.get_num_segments ∧ ctr_b1 ≤ b.get_num_segments) ∧
    (∀ (fuel ctr_a ctr_b : Nat) (t : σ),
      ctr_a = a.get_num_segments ∨ ctr_b = b.get_num_segments →
      detail.apply_loop a b fn (fuel + 1) ctr_a ctr_b t = .ok t) ∧
    (∀ i, i < a.get_num_segments → ∃ v, a.get_start_arrow_of_segment i = .ok v) ∧
    (∀ i, i < b.get_num_segments → ∃ v, b.get_start_arrow_of_segment i = .ok v) ∧
    ∃ res, detail.apply_to_overlaps_in_seq_seg_runs a b fn s = .ok res ∧
      ∀ fuel, a.get_num_segments + b.get_num_segments + 1 ≤ fuel →
        detail.apply_loop a b fn fuel
          (detail.index_of_first_seg_not_earlier_than_arrow a b.get_start_arrow)
          (detail.index_of_first_seg_not_earlier_than_arrow b a.get_start_arrow) s = .ok res := by
  obtain ⟨ha1, -, -⟩ := index_of_first_seg_spec ha b.get_start_arrow
  obtain ⟨hb1, -, -⟩ := index_of_first_seg_spec hb a.get_start_arrow
  refine ⟨by rwa [get_num_segments_eq], by rwa [get_num_segments_eq],
    fun fuel ctr_a ctr_b t hca hcb => apply_loop_iteration ha hb fn fuel ctr_a ctr_b t hca hcb,
    fun fuel ctr_a ctr_b t h => apply_loop_exit a b fn fuel ctr_a ctr_b t h,
    fun i hi => get_start_arrow_of_segment_ok a i hi,
    fun i hi => get_start_arrow_of_segment_ok b i hi, ?_⟩
  refine ⟨(intersecting_pairs
      (a.segs.drop (detail.index_of_first_seg_not_earlier_than_arrow a b.get_start_arrow))
      (b.segs.drop (detail.index_of_first_seg_not_earlier_than_arrow b a.get_start_arrow))).foldl
      (fun s p => fn s p.1 p.2) s, ?_, fun fuel hf => ?_⟩
  · show detail.apply_loop a b fn _ _ _ s = _
    exact apply_loop_eq ha hb fn _ _ _ s ha1 hb1
      (by rw [get_num_segments_eq, get_num_segments_eq]; omega)
  · exact apply_loop_eq ha hb fn _ _ _ s ha1 hb1
      (by rw [get_num_segments_eq, get_num_segments_eq] at hf; omega)

/-- C30 at the runs `[0,5),[8,12)` and `[3,4),[6,10),[11,20)`, with the function that counts
the calls. -/
theorem apply_to_overlaps_terminates_witness :
    (⟨0, 12, [⟨5, 8⟩]⟩ : seq_seg_run).valid ∧ (⟨3, 20, [⟨4, 6⟩, ⟨10, 11⟩]⟩ : seq_seg_run).valid ∧
    detail.apply_to_overlaps_in_seq_seg_runs ⟨0, 12, [⟨5, 8⟩]⟩ ⟨3, 20, [⟨4, 6⟩, ⟨10, 11⟩]⟩
      (fun (calls : Nat) _ _ => calls + 1) 0 = .ok 3 ∧
    ∃ res, detail.apply_to_overlaps_in_seq_seg_runs ⟨0, 12, [⟨5, 8⟩]⟩
        ⟨3, 20, [⟨4, 6⟩, ⟨10, 11⟩]⟩ (fun (calls : Nat) _ _ => calls + 1) 0 = .ok res ∧
      ∀ fuel, (⟨0, 12, [⟨5, 8⟩]⟩ : seq_seg_run).get_num_segments +
          (⟨3, 20, [⟨4, 6⟩, ⟨10, 11⟩]⟩ : seq_seg_run).get_num_segments + 1 ≤ fuel →
        detail.apply_loop ⟨0, 12, [⟨5, 8⟩]⟩ ⟨3, 20, [⟨4, 6⟩, ⟨10, 11⟩]⟩
          (fun (calls : Nat) _ _ => calls + 1) fuel
          (detail.index_of_first_seg_not_earlier_than_arrow ⟨0, 12, [⟨5, 8⟩]⟩
            (⟨3, 20, [⟨4, 6⟩, ⟨10, 11⟩]⟩ : seq_seg_run).get_start_arrow)
          (detail.index_of_first_seg_not_earlier_than_arrow ⟨3, 20, [⟨4, 6⟩, ⟨10, 11⟩]⟩
            (⟨0, 12, [⟨5, 8⟩]⟩ : seq_seg_run).get_start_arrow) 0 = .ok res :=
  ⟨by decide, by decide, by decide,
    (apply_to_overlaps_terminates ⟨0, 12, [⟨5, 8⟩]⟩ ⟨3, 20, [⟨4, 6⟩, ⟨10, 11⟩]⟩
      (by decide) (by decide) (fun (calls : Nat) _ _ => calls + 1) 0).2.2.2.2.2.2⟩

end seq

namespace rslv

open seq seq.seq_seg_run

/-! ## The adjacent-pair check on contiguous hits -/

theorem chain_of_sorted_no_adjacent (l : List calc_hit) (hv : ∀ h ∈ l, h.segments.valid)
    (hc : ∀ h ∈ l, h.segments.is_discontig = false) (hs : l.Sorted start_le)
    (hna : contains_adjacent_match hits_share_position l = false) :
    l.Pairwise (fun x y => x.stop ≤ y.start) := by
  induction l with
  | nil => exact List.Pairwise.nil
  | cons x l ih =>
    cases l with
    | nil => exact List.pairwise_singleton _ _
    | cons y rest =>
      obtain ⟨hs1, hs2⟩ := List.pairwise_cons.1 hs
      simp only [contains_adjacent_match, Bool.or_eq_false_iff] at hna
      have ih2 := ih (fun h hh => hv h (List.mem_cons_of_mem _ hh))
        (fun h hh => hc h (List.mem_cons_of_mem _ hh)) hs2 hna.2
      have hx := List.mem_cons_self x (y :: rest)
      have hy : y ∈ x :: y :: rest := List.mem_cons_of_mem _ (List.mem_cons_self _ _)
      have hni := no_interaction_of_contiguous (hc x hx) (hc y hy) hna.1
      have hyv := valid_start_lt_stop (hv y hy)
      have hxy : x.stop ≤ y.start := by
        have h1 := hs1 y (List.mem_cons_self _ _)
        simp only [no_interaction, any_interaction, Bool.and_eq_false_imp, decide_eq_true_eq,
          decide_eq_false_iff_not] at hni
        simp only [start_le, calc_hit.start, calc_hit.stop] at *
        omega
      refine List.pairwise_cons.2 ⟨fun z hz => ?_, ih2⟩
      rcases List.mem_cons.1 hz with rfl | hz
      · exact hxy
      · have := (List.pairwise_cons.1 ih2).1 z hz
        omega

theorem pairwise_overlap_iff_no_interaction (l : List calc_hit)
    (hv : ∀ h ∈ l, h.segments.valid) (hc : ∀ h ∈ l, h.segments.is_discontig = false) :
    l.Pairwise (fun x y => hits_overlap x y = .ok false) ↔ l.Pairwise no_interaction := by
  constructor
  · intro h
    refine List.Pairwise.imp_of_mem (fun {x y} hx hy hxy => ?_) h
    rw [hits_overlap_eq (hv x hx) (hv y hy)] at hxy
    exact no_interaction_of_contiguous (hc x hx) (hc y hy) (Except.ok.inj hxy)
  · intro h
    refine List.Pairwise.imp_of_mem (fun {x y} hx hy hxy => ?_) h
    rw [hits_overlap_eq (hv x hx) (hv y hy),
      no_share_of_no_interaction (hv x hx) (hv y hy) hxy]

theorem sanity_check_iff_pairwise_of_sorted (l : List calc_hit)
    (hv : ∀ h ∈ l, h.segments.valid) (hc : ∀ h ∈ l, h.segments.is_discontig = false)
    (hs : l.Sorted start_le) :
    (hit_arch.mk l).sanity_check = .ok () ↔ l.Pairwise no_interaction := by
  rw [sanity_check_ok_iff_no_adjacent l hv]
  constructor
  · intro hna
    exact List.Pairwise.imp (fun h => no_interaction_of_le h)
      (chain_of_sorted_no_adjacent l hv hc hs hna)
  · intro hp
    apply no_adjacent_of_pairwise
    exact List.Pairwise.imp_of_mem
      (fun {x y} hx hy hxy => no_share_of_no_interaction (hv x hx) (hv y hy) hxy) hp

theorem ctor_ok_iff_sane (hits : List calc_hit) :
    (∃ a, hit_arch.ctor hits = .ok a) ↔
      (hit_arch.mk (hit_arch.sort_hit_vec hits)).sanity_check = .ok () := by
  rw [ctor_eq]
  cases (hit_arch.mk (hit_arch.sort_hit_vec hits)).sanity_check with
  | ok u => simp
  | error e => simp

/-- C26: for contiguous hits (with valid segment runs) the constructor succeeds if and only if
no two hits at distinct positions of the vector overlap; and on such hits in ascending order
of start `sanity_check`, which compares neighbours only, passes if and only if no two hits
overlap. -/
theorem hit_arch_ctor_contiguous_iff_pairwise (hits : List calc_hit)
    (hv : ∀ h ∈ hits, h.segments.valid) (hc : ∀ h ∈ hits, h.segments.is_discontig = false) :
    ((∃ a, hit_arch.ctor hits = .ok a) ↔
      hits.Pairwise (fun x y => hits_overlap x y = .ok false)) ∧
    (hits.Sorted start_le →
      ((hit_arch.mk hits).sanity_check = .ok () ↔
        hits.Pairwise (fun x y => hits_overlap x y = .ok false))) := by
  have hperm := sort_hit_vec_perm hits
  have hv2 := sort_hit_vec_valid hv
  have hc2 : ∀ h ∈ hit_arch.sort_hit_vec hits, h.segments.is_discontig = false :=
    fun h hh => hc h (hperm.mem_iff.1 hh)
  refine ⟨?_, fun hs => ?_⟩
  · rw [ctor_ok_iff_sane, sanity_check_iff_pairwise_of_sorted _ hv2 hc2 (sort_hit_vec_sorted hits),
      pairwise_overlap_iff_no_interaction hits hv hc]
    exact List.Perm.pairwise_iff (fun h => no_interaction_symm h) hperm
  · rw [sanity_check_iff_pairwise_of_sorted hits hv hc hs,
      pairwise_overlap_iff_no_interaction hits hv hc]

/-- C26 at the contiguous hits `[10,20)`, `[0,10)`, `[20,30)`. -/
theorem hit_arch_ctor_contiguous_iff_pairwise_witness :
    (∀ h ∈ [(⟨⟨10, 20, []⟩, 6, 1⟩ : calc_hit), ⟨⟨0, 10, []⟩, 5, 0⟩, ⟨⟨20, 30, []⟩, 7, 2⟩],
      h.segments.valid) ∧
    (∀ h ∈ [(⟨⟨10, 20, []⟩, 6, 1⟩ : calc_hit), ⟨⟨0, 10, []⟩, 5, 0⟩, ⟨⟨20, 30, []⟩, 7, 2⟩],
      h.segments.is_discontig = false) ∧
    hit_arch.ctor [⟨⟨10, 20, []⟩, 6, 1⟩, ⟨⟨0, 10, []⟩, 5, 0⟩, ⟨⟨20, 30, []⟩, 7, 2⟩] =
      .ok ⟨[⟨⟨0, 10, []⟩, 5, 0⟩, ⟨⟨10, 20, []⟩, 6, 1⟩, ⟨⟨20, 30, []⟩, 7, 2⟩]⟩ ∧
    ((∃ a, hit_arch.ctor
        [⟨⟨10, 20, []⟩, 6, 1⟩, ⟨⟨0, 10, []⟩, 5, 0⟩, ⟨⟨20, 30, []⟩, 7, 2⟩] = .ok a) ↔
      [(⟨⟨10, 20, []⟩, 6, 1⟩ : calc_hit), ⟨⟨0, 10, []⟩, 5, 0⟩, ⟨⟨20, 30, []⟩, 7, 2⟩].Pairwise
        (fun x y => hits_overlap x y = .ok false)) :=
  ⟨by decide, by decide, by decide,
    (hit_arch_ctor_contiguous_iff_pairwise
      [⟨⟨10, 20, []⟩, 6, 1⟩, ⟨⟨0, 10, []⟩, 5, 0⟩, ⟨⟨20, 30, []⟩, 7, 2⟩]
      (by decide) (by decide)).1⟩

/-! ## `+` and `+=` against the constructor -/

theorem segs_from_head {s e : Nat} {fs : List seq_seg} (h : chain_ok s fs e) :
    ∃ e1 tl, segs_from s fs e = ⟨s, e1⟩ :: tl ∧ s < e1 := by
  cases fs with
  | nil => exact ⟨e, [], rfl, h⟩
  | cons f fs => exact ⟨f.start_arrow, _, rfl, h.1⟩

theorem share_of_same_start {x y : calc_hit} (hx : x.segments.valid) (hy : y.segments.valid)
    (h : x.segments.get_start_arrow = y.segments.get_start_arrow) :
    hits_share_position x y = true := by
  obtain ⟨e1, t1, h1, h2⟩ := segs_from_head (valid_chain_ok hx)
  obtain ⟨e2, t2, h3, h4⟩ := segs_from_head (valid_chain_ok hy)
  have hmem : ((⟨x.segments.start_arrow, e1⟩ : seq_seg), (⟨y.segments.start_arrow, e2⟩ : seq_seg)) ∈
      intersecting_pairs x.segments.segs y.segments.segs := by
    rw [mem_intersecting_pairs]
    refine ⟨?_, ?_, ?_⟩
    · simp only [seq_seg_run.segs]; rw [h1]; exact List.mem_cons_self _ _
    · simp only [seq_seg_run.segs]; rw [h3]; exact List.mem_cons_self _ _
    · simp only [get_start_arrow] at h
      simp only [seq_seg.are_overlapping, Bool.and_eq_true, decide_eq_true_eq]
      omega
  simp only [hits_share_position, Bool.not_eq_true', List.isEmpty_eq_false]
  exact List.ne_nil_of_mem hmem

theorem strict_of_sorted_no_adjacent (l : List calc_hit) (hv : ∀ h ∈ l, h.segments.valid)
    (hs : l.Sorted start_le)
    (hna : contains_adjacent_match hits_share_position l = false) :
    l.Pairwise (fun x y => x.start < y.start) := by
  induction l with
  | nil => exact List.Pairwise.nil
  | cons x l ih =>
    cases l with
    | nil => exact List.pairwise_singleton _ _
    | cons y rest =>
      obtain ⟨hs1, hs2⟩ := List.pairwise_cons.1 hs
      simp only [contains_adjacent_match, Bool.or_eq_false_iff] at hna
      have ih2 := ih (fun h hh => hv h (List.mem_cons_of_mem _ hh)) hs2 hna.2
      have hx := List.mem_cons_self x (y :: rest)
      have hy : y ∈ x :: y :: rest := List.mem_cons_of_mem _ (List.mem_cons_self _ _)
      have hxy : x.start < y.start := by
        have h1 : start_le x y := hs1 y (List.mem_cons_self _ _)
        have h2 : x.segments.get_start_arrow ≠ y.segments.get_start_arrow := by
          intro he
          have := share_of_same_start (hv x hx) (hv y hy) he
          rw [hna.1] at this
          cases this
        simp only [start_le] at h1
        simp only [calc_hit.start]
        omega
      refine List.pairwise_cons.2 ⟨fun z hz => ?_, ih2⟩
      rcases List.mem_cons.1 hz with rfl | hz
      · exact hxy
      · have := (List.pairwise_cons.1 ih2).1 z hz
        omega

theorem eq_of_perm_of_strict {l1 l2 : List calc_hit} (hp : l1.Perm l2)
    (h1 : l1.Sorted start_le) (h2 : l2.Pairwise (fun x y => x.start < y.start)) : l1 = l2 := by
  have hne2 : l2.Pairwise (fun x y => x.start ≠ y.start) :=
    List.Pairwise.imp (fun h => Nat.ne_of_lt h) h2
  have hne1 : l1.Pairwise (fun x y => x.start ≠ y.start) :=
    (List.Perm.pairwise_iff (fun h => Ne.symm h) hp).2 hne2
  have h3 : l1.Pairwise (fun x y => x.start < y.start) := by
    have := List.Pairwise.and h1 hne1
    refine List.Pairwise.imp (fun {x y} h => ?_) this
    have ha : x.segments.get_start_arrow ≤ y.segments.get_start_arrow := h.1
    have hb : x.start ≠ y.start := h.2
    simp only [calc_hit.start] at hb ⊢
    omega
  haveI : IsAntisymm calc_hit (fun x y => x.start < y.start) :=
    ⟨fun a b hab hba => absurd hab (Nat.lt_asymm hba)⟩
  exact List.eq_of_perm_of_sorted hp h3 h2

theorem op_plus_eq_hits_ok_spec (a : hit_arch) (l : List calc_hit)
    (hva : ∀ x ∈ a.the_hits, x.segments.valid) (hvl : ∀ x ∈ l, x.segments.valid)
    (hok : (a.op_plus_eq_hits l).2 = .ok ())
    (h : l ≠ [] ∨ (a.the_hits.Sorted start_le ∧ a.sanity_check = .ok ())) :
    (a.op_plus_eq_hits l).1.the_hits.Perm (a.the_hits ++ l) ∧
      (∀ x ∈ (a.op_plus_eq_hits l).1.the_hits, x.segments.valid) ∧
      (a.op_plus_eq_hits l).1.the_hits.Sorted start_le ∧
      (a.op_plus_eq_hits l).1.sanity_check = .ok () := by
  induction l generalizing a with
  | nil =>
    rcases h with h | h
    · exact absurd rfl h
    · simpa [hit_arch.op_plus_eq_hits] using ⟨hva, h⟩
  | cons x rest ih =>
    have hv1 : ∀ y ∈ a.the_hits ++ [x], y.segments.valid := by
      intro y hy
      rcases List.mem_append.1 hy with hy | hy
      · exact hva y hy
      · rw [List.mem_singleton.1 hy]; exact hvl x (List.mem_cons_self _ _)
    have hv2 := sort_hit_vec_valid hv1
    simp only [hit_arch.op_plus_eq_hits, hit_arch.op_plus_eq_hit] at hok ⊢
    cases hsc : (hit_arch.mk (hit_arch.sort_hit_vec (a.the_hits ++ [x]))).sanity_check with
    | error e => rw [hsc] at hok; cases hok
    | ok u =>
      rw [hsc] at hok
      simp only
      obtain ⟨i1, i2, i3, i4⟩ := ih ⟨hit_arch.sort_hit_vec (a.the_hits ++ [x])⟩ hv2
        (fun y hy => hvl y (List.mem_cons_of_mem _ hy)) hok
        (Or.inr ⟨sort_hit_vec_sorted _, hsc⟩)
      refine ⟨?_, i2, i3, i4⟩
      refine i1.trans ?_
      have := (sort_hit_vec_perm (a.the_hits ++ [x])).append_right rest
      simpa using this

theorem ctor_of_plus_eq_hits (a : hit_arch) (l : List calc_hit)
    (hva : ∀ x ∈ a.the_hits, x.segments.valid) (hvl : ∀ x ∈ l, x.segments.valid)
    (hok : (a.op_plus_eq_hits l).2 = .ok ())
    (h : l ≠ [] ∨ (a.the_hits.Sorted start_le ∧ a.sanity_check = .ok ())) :
    hit_arch.ctor (a.the_hits ++ l) = .ok (a.op_plus_eq_hits l).1 := by
  obtain ⟨h1, h2, h3, h4⟩ := op_plus_eq_hits_ok_spec a l hva hvl hok h
  have hstrict := strict_of_sorted_no_adjacent _ h2 h3
    ((sanity_check_ok_iff_no_adjacent _ h2).1 h4)
  have heq : hit_arch.sort_hit_vec (a.the_hits ++ l) = (a.op_plus_eq_hits l).1.the_hits :=
    eq_of_perm_of_strict ((sort_hit_vec_perm _).trans h1.symm) (sort_hit_vec_sorted _) hstrict
  rw [ctor_eq, heq]
  have : (hit_arch.mk (a.op_plus_eq_hits l).1.the_hits) = (a.op_plus_eq_hits l).1 := rfl
  rw [this, h4]

/-- C27, refuted as stated: the architecture of `[0,2),[5,7)`, `[3,5)` and `[5,7)` is
constructed without a throw, `remove` of `[3,5)` leaves the hits `[0,2),[5,7)` and `[5,7)`,
and `+` of that architecture and an empty one returns it unchanged, while the constructor
throws on the concatenation of the two hit lists. -/
theorem plus_of_empty_arch_accepts_what_ctor_rejects :
    hit_arch.ctor [⟨⟨0, 7, [⟨2, 5⟩]⟩, 1, 0⟩, ⟨⟨3, 5, []⟩, 1, 1⟩, ⟨⟨5, 7, []⟩, 1, 2⟩] =
      .ok ⟨[⟨⟨0, 7, [⟨2, 5⟩]⟩, 1, 0⟩, ⟨⟨3, 5, []⟩, 1, 1⟩, ⟨⟨5, 7, []⟩, 1, 2⟩]⟩ ∧
    (hit_arch.mk [⟨⟨0, 7, [⟨2, 5⟩]⟩, 1, 0⟩, ⟨⟨3, 5, []⟩, 1, 1⟩,
      ⟨⟨5, 7, []⟩, 1, 2⟩]).remove ⟨⟨3, 5, []⟩, 1, 1⟩ =
      (⟨[⟨⟨0, 7, [⟨2, 5⟩]⟩, 1, 0⟩, ⟨⟨5, 7, []⟩, 1, 2⟩]⟩, true) ∧
    op_plus_arch ⟨[⟨⟨0, 7, [⟨2, 5⟩]⟩, 1, 0⟩, ⟨⟨5, 7, []⟩, 1, 2⟩]⟩ ⟨[]⟩ =
      .ok ⟨[⟨⟨0, 7, [⟨2, 5⟩]⟩, 1, 0⟩, ⟨⟨5, 7, []⟩, 1, 2⟩]⟩ ∧
    hit_arch.ctor ((hit_arch.mk [⟨⟨0, 7, [⟨2, 5⟩]⟩, 1, 0⟩, ⟨⟨5, 7, []⟩, 1, 2⟩]).the_hits ++
        (hit_arch.mk []).the_hits) =
      .error (.invalid_argument_exception "Cannot create hit_arch with overlapping domains") := by
  decide

/-- C27, amended: for hits with valid segment runs, if `+=` of each hit of a list in turn into
an empty architecture returns every time, the constructor on the whole list returns an
architecture holding the same sequence of hits; and if `a + b` (or `a + h` for a hit `h`)
returns an architecture, the constructor on the hits of `a` followed by those of `b` returns
that same architecture, provided `b` holds at least one hit or the hits of `a` are in ascending
order of start and pass `sanity_check`. -/
theorem plus_agrees_with_ctor (hits : List calc_hit) (a b c : hit_arch) (h : calc_hit)
    (hv : ∀ x ∈ hits, x.segments.valid) (hva : ∀ x ∈ a.the_hits, x.segments.valid)
    (hvb : ∀ x ∈ b.the_hits, x.segments.valid) :
    (((hit_arch.mk []).op_plus_eq_hits hits).2 = .ok () →
      hit_arch.ctor hits = .ok ((hit_arch.mk []).op_plus_eq_hits hits).1) ∧
    ((b.the_hits ≠ [] ∨ (a.the_hits.Sorted start_le ∧ a.sanity_check = .ok ())) →
      op_plus_arch a b = .ok c → hit_arch.ctor (a.the_hits ++ b.the_hits) = .ok c) ∧
    (op_plus_hit a h = .ok c → hit_arch.ctor (a.the_hits ++ [h]) = .ok c) := by
  refine ⟨fun hok => ?_, fun hcond hplus => ?_, fun hplus => ?_⟩
  · have := ctor_of_plus_eq_hits ⟨[]⟩ hits (by simp) hv hok
      (Or.inr ⟨List.sorted_nil, by decide⟩)
    simpa using this
  · simp only [op_plus_arch, hit_arch.op_plus_eq_arch] at hplus
    have hres := ctor_of_plus_eq_hits a b.the_hits hva hvb
    revert hplus hres
    cases hr : a.op_plus_eq_hits b.the_hits with
    | mk a1 r =>
      cases r with
      | error e => intro hplus; cases hplus
      | ok u =>
        intro hplus hres
        simp only at hplus hres
        rw [← Except.ok.inj hplus]
        exact hres trivial hcond
  · simp only [op_plus_hit, hit_arch.op_plus_eq_hit] at hplus
    rw [ctor_eq]
    revert hplus
    cases (hit_arch.mk (hit_arch.sort_hit_vec (a.the_hits ++ [h]))).sanity_check with
    | error e => intro hplus; cases hplus
    | ok u => intro hplus; simp only at hplus; rw [← Except.ok.inj hplus]

/-- C27 at the hits `[10,20)` and `[0,10)`, added to an empty architecture and as the union
of two one-hit architectures. -/
theorem plus_agrees_with_ctor_witness :
    ((hit_arch.mk []).op_plus_eq_hits [⟨⟨10, 20, []⟩, 6, 1⟩, ⟨⟨0, 10, []⟩, 5, 0⟩]).2 = .ok () ∧
    hit_arch.ctor [⟨⟨10, 20, []⟩, 6, 1⟩, ⟨⟨0, 10, []⟩, 5, 0⟩] =
      .ok ((hit_arch.mk []).op_plus_eq_hits [⟨⟨10, 20, []⟩, 6, 1⟩, ⟨⟨0, 10, []⟩, 5, 0⟩]).1 ∧
    op_plus_arch ⟨[⟨⟨10, 20, []⟩, 6, 1⟩]⟩ ⟨[⟨⟨0, 10, []⟩, 5, 0⟩]⟩ =
      .ok ⟨[⟨⟨0, 10, []⟩, 5, 0⟩, ⟨⟨10, 20, []⟩, 6, 1⟩]⟩ ∧
    hit_arch.ctor ((hit_arch.mk [⟨⟨10, 20, []⟩, 6, 1⟩]).the_hits ++
        (hit_arch.mk [⟨⟨0, 10, []⟩, 5, 0⟩]).the_hits) =
      .ok ⟨[⟨⟨0, 10, []⟩, 5, 0⟩, ⟨⟨10, 20, []⟩, 6, 1⟩]⟩ :=
  have h := plus_agrees_with_ctor [⟨⟨10, 20, []⟩, 6, 1⟩, ⟨⟨0, 10, []⟩, 5, 0⟩]
    ⟨[⟨⟨10, 20, []⟩, 6, 1⟩]⟩ ⟨[⟨⟨0, 10, []⟩, 5, 0⟩]⟩
    ⟨[⟨⟨0, 10, []⟩, 5, 0⟩, ⟨⟨10, 20, []⟩, 6, 1⟩]⟩ ⟨⟨20, 30, []⟩, 7, 2⟩
    (by decide) (by decide) (by decide)
  ⟨by decide, h.1 (by decide), by decide, h.2.1 (Or.inl (by decide)) (by decide)⟩

/-! ## Writing the results of a query -/

theorem do_process_hits_for_query_eq {full_hit crh_score_spec crh_segment_spec
    crh_filter_spec calc_hit_list trim_spec hit_output_format : Type}
    (deps : detail.hits_processor_deps full_hit crh_score_spec crh_segment_spec crh_filter_spec
      calc_hit_list trim_spec hit_output_format)
    (self : detail.write_results_hits_processor crh_score_spec crh_segment_spec)
    (arg_query_id : String) (arg_filter_spec : crh_filter_spec) (arg_full_hits : List full_hit) :
    detail.do_process_hits_for_query deps self arg_query_id arg_filter_spec arg_full_hits =
      match deps.calc_hit_list_ctor arg_full_hits self.score_spec self.segment_spec
          arg_filter_spec with
      | .error e => .error e
      | .ok l =>
        match deps.resolve_hits l with
        | .error e => .error e
        | .ok r =>
          match deps.to_output_string r.arch (deps.get_full_hits l) deps.JON arg_query_id
              (if self.boundary_output = hit_boundary_output.TRIMMED then
                some (deps.get_overlap_trim_spec self.segment_spec) else none) with
          | .error e => .error e
          | .ok output => .ok (⟨self.the_ostream ++ output, self.score_spec, self.segment_spec,
              self.boundary_output⟩, []) := by
  have hopt : make_optional (self.boundary_output == hit_boundary_output.TRIMMED)
      (deps.get_overlap_trim_spec self.segment_spec) =
      (if self.boundary_output = hit_boundary_output.TRIMMED then
        some (deps.get_overlap_trim_spec self.segment_spec) else none) := by
    cases self.boundary_output <;> rfl
  simp only [detail.do_process_hits_for_query, hopt]
  cases deps.calc_hit_list_ctor arg_full_hits self.score_spec self.segment_spec
      arg_filter_spec with
  | error e => rfl
  | ok l =>
    simp only [bind, Except.bind]
    cases deps.resolve_hits l with
    | error e => rfl
    | ok r =>
      simp only
      cases deps.to_output_string r.arch (deps.get_full_hits l) deps.JON arg_query_id
        (if self.boundary_output = hit_boundary_output.TRIMMED then
          some (deps.get_overlap_trim_spec self.segment_spec) else none) <;> rfl

/-- C21: in `do_process_hits_for_query` the calls of the `calc_hit_list` constructor and of
`resolve_hits` do not read `boundary_output`: whatever they throw is thrown for every value of
`boundary_output`, and when they return the list `l` and the result `r`, then for every value
`b` of `boundary_output` the call is `to_output_string` on the architecture of `r`, the full
hits of `l`, the format and the query id, with the trim spec of the segment spec if `b` is
`TRIMMED` and with nothing otherwise. So two runs that differ in `boundary_output` only write
the same text when `to_output_string` does not read its last argument. -/
theorem boundary_output_only_reaches_to_output_string {full_hit crh_score_spec crh_segment_spec
    crh_filter_spec calc_hit_list trim_spec hit_output_format : Type}
    (deps : detail.hits_processor_deps full_hit crh_score_spec crh_segment_spec crh_filter_spec
      calc_hit_list trim_spec hit_output_format)
    (os : String) (score_spec : crh_score_spec) (segment_spec : crh_segment_spec)
    (arg_query_id : String) (arg_filter_spec : crh_filter_spec) (arg_full_hits : List full_hit) :
    (∀ (b : hit_boundary_output) (e : cath_error),
      deps.calc_hit_list_ctor arg_full_hits score_spec segment_spec arg_filter_spec = .error e →
      detail.do_process_hits_for_query deps ⟨os, score_spec, segment_spec, b⟩
        arg_query_id arg_filter_spec arg_full_hits = .error e) ∧
    (∀ (b : hit_boundary_output) (l : calc_hit_list) (e : cath_error),
      deps.calc_hit_list_ctor arg_full_hits score_spec segment_spec arg_filter_spec = .ok l →
      deps.resolve_hits l = .error e →
      detail.do_process_hits_for_query deps ⟨os, score_spec, segment_spec, b⟩
        arg_query_id arg_filter_spec arg_full_hits = .error e) ∧
    (∀ (b : hit_boundary_output) (l : calc_hit_list) (r : scored_hit_arch),
      deps.calc_hit_list_ctor arg_full_hits score_spec segment_spec arg_filter_spec = .ok l →
      deps.resolve_hits l = .ok r →
      detail.do_process_hits_for_query deps ⟨os, score_spec, segment_spec, b⟩
          arg_query_id arg_filter_spec arg_full_hits =
        (deps.to_output_string r.arch (deps.get_full_hits l) deps.JON arg_query_id
          (if b = hit_boundary_output.TRIMMED then some (deps.get_overlap_trim_spec segment_spec)
            else none)).map
          (fun output => (⟨os ++ output, score_spec, segment_spec, b⟩, []))) ∧
    (∀ b1 b2 : hit_boundary_output,
      (∀ a fh fmt q t1 t2,
        deps.to_output_string a fh fmt q t1 = deps.to_output_string a fh fmt q t2) →
      (detail.do_process_hits_for_query deps ⟨os, score_spec, segment_spec, b1⟩
          arg_query_id arg_filter_spec arg_full_hits).map (fun res => (res.1.the_ostream, res.2)) =
        (detail.do_process_hits_for_query deps ⟨os, score_spec, segment_spec, b2⟩
          arg_query_id arg_filter_spec arg_full_hits).map
          (fun res => (res.1.the_ostream, res.2))) := by
  refine ⟨fun b e h1 => ?_, fun b l e h1 h2 => ?_, fun b l r h1 h2 => ?_, fun b1 b2 hfmt => ?_⟩
  · rw [do_process_hits_for_query_eq]
    simp only [h1]
  · rw [do_process_hits_for_query_eq]
    simp only [h1, h2]
  · rw [do_process_hits_for_query_eq]
    simp only [h1, h2]
    cases deps.to_output_string r.arch (deps.get_full_hits l) deps.JON arg_query_id
      (if b = hit_boundary_output.TRIMMED then some (deps.get_overlap_trim_spec segment_spec)
        else none) <;> rfl
  · rw [do_process_hits_for_query_eq, do_process_hits_for_query_eq]
    simp only
    cases deps.calc_hit_list_ctor arg_full_hits score_spec segment_spec arg_filter_spec with
    | error e => rfl
    | ok l =>
      simp only
      cases deps.resolve_hits l with
      | error e => rfl
      | ok r =>
        simp only
        rw [hfmt r.arch (deps.get_full_hits l) deps.JON arg_query_id
          (if b1 = hit_boundary_output.TRIMMED then some (deps.get_overlap_trim_spec segment_spec)
            else none)
          (if b2 = hit_boundary_output.TRIMMED then some (deps.get_overlap_trim_spec segment_spec)
            else none)]
        cases deps.to_output_string r.arch (deps.get_full_hits l) deps.JON arg_query_id
          (if b2 = hit_boundary_output.TRIMMED then some (deps.get_overlap_trim_spec segment_spec)
            else none) <;> rfl

/-- C21 with the resolver of this development and the hits `[0,10)` (score 5) and `[5,15)`
(score 7): the same architecture of one hit is written with either value of
`boundary_output`. -/
theorem boundary_output_only_reaches_to_output_string_witness :
    detail.do_process_hits_for_query detail.example_deps
        ⟨"", (), 30, hit_boundary_output.TRIMMED⟩ "q1" ()
        [⟨⟨0, 10, []⟩, 5, 0⟩, ⟨⟨5, 15, []⟩, 7, 1⟩] =
      .ok (⟨"q1+ trimmed", (), 30, hit_boundary_output.TRIMMED⟩, []) ∧
    detail.do_process_hits_for_query detail.example_deps
        ⟨"", (), 30, hit_boundary_output.ORIG⟩ "q1" ()
        [⟨⟨0, 10, []⟩, 5, 0⟩, ⟨⟨5, 15, []⟩, 7, 1⟩] =
      .ok (⟨"q1+ orig", (), 30, hit_boundary_output.ORIG⟩, []) :=
  have h := (boundary_output_only_reaches_to_output_string detail.example_deps
    "" () 30 "q1" () [⟨⟨0, 10, []⟩, 5, 0⟩, ⟨⟨5, 15, []⟩, 7, 1⟩]).2.2.1
  ⟨(h hit_boundary_output.TRIMMED [⟨⟨0, 10, []⟩, 5, 0⟩, ⟨⟨5, 15, []⟩, 7, 1⟩]
      ⟨⟨[⟨⟨5, 15, []⟩, 7, 1⟩]⟩, 7⟩ (by decide) (by decide)).trans (by decide),
    (h hit_boundary_output.ORIG [⟨⟨0, 10, []⟩, 5, 0⟩, ⟨⟨5, 15, []⟩, 7, 1⟩]
      ⟨⟨[⟨⟨5, 15, []⟩, 7, 1⟩]⟩, 7⟩ (by decide) (by decide)).trans (by decide)⟩

/-- C22: whenever `do_process_hits_for_query` returns, the caller's `arg_full_hits` is empty
after the call; and it does return when the `calc_hit_list` constructor, `resolve_hits` and
`to_output_string` return. -/
theorem do_process_hits_for_query_releases_hits {full_hit crh_score_spec crh_segment_spec
    crh_filter_spec calc_hit_list trim_spec hit_output_format : Type}
    (deps : detail.hits_processor_deps full_hit crh_score_spec crh_segment_spec crh_filter_spec
      calc_hit_list trim_spec hit_output_format)
    (self : detail.write_results_hits_processor crh_score_spec crh_segment_spec)
    (arg_query_id : String) (arg_filter_spec : crh_filter_spec) (arg_full_hits : List full_hit) :
    (∀ self_after hits_after,
      detail.do_process_hits_for_query deps self arg_query_id arg_filter_spec arg_full_hits =
        .ok (self_after, hits_after) → hits_after = []) ∧
    (∀ l r output,
      deps.calc_hit_list_ctor arg_full_hits self.score_spec self.segment_spec arg_filter_spec =
        .ok l →
      deps.resolve_hits l = .ok r →
      deps.to_output_string r.arch (deps.get_full_hits l) deps.JON arg_query_id
          (make_optional (self.boundary_output == hit_boundary_output.TRIMMED)
            (deps.get_overlap_trim_spec self.segment_spec)) = .ok output →
      detail.do_process_hits_for_query deps self arg_query_id arg_filter_spec arg_full_hits =
        .ok ({ self with the_ostream := self.the_ostream ++ output }, [])) := by
  have hopt : make_optional (self.boundary_output == hit_boundary_output.TRIMMED)
      (deps.get_overlap_trim_spec self.segment_spec) =
      (if self.boundary_output = hit_boundary_output.TRIMMED then
        some (deps.get_overlap_trim_spec self.segment_spec) else none) := by
    cases self.boundary_output <;> rfl
  refine ⟨fun self_after hits_after h => ?_, fun l r output h1 h2 h3 => ?_⟩
  · rw [do_process_hits_for_query_eq] at h
    revert h
    cases deps.calc_hit_list_ctor arg_full_hits self.score_spec self.segment_spec
      arg_filter_spec with
    | error e => intro h; cases h
    | ok l =>
      simp only
      cases deps.resolve_hits l with
      | error e => intro h; cases h
      | ok r =>
        simp only
        cases deps.to_output_string r.arch (deps.get_full_hits l) deps.JON arg_query_id
          (if self.boundary_output = hit_boundary_output.TRIMMED then
            some (deps.get_overlap_trim_spec self.segment_spec) else none) with
        | error e => intro h; cases h
        | ok output =>
          intro h
          exact (congrArg Prod.snd (Except.ok.inj h)).symm
  · rw [hopt] at h3
    rw [do_process_hits_for_query_eq]
    simp only [h1, h2, h3]

/-- C22 with the resolver of this development and the two hits `[0,10)` and `[5,15)` handed
in: the call returns and leaves no hits to the caller. -/
theorem do_process_hits_for_query_releases_hits_witness :
    detail.do_process_hits_for_query detail.example_deps
        ⟨"", (), 30, hit_boundary_output.ORIG⟩ "q1" ()
        [⟨⟨0, 10, []⟩, 5, 0⟩, ⟨⟨5, 15, []⟩, 7, 1⟩] =
      .ok (⟨"q1+ orig", (), 30, hit_boundary_output.ORIG⟩, []) ∧
    ∀ self_after hits_after,
      detail.do_process_hits_for_query detail.example_deps
          ⟨"", (), 30, hit_boundary_output.ORIG⟩ "q1" ()
          [⟨⟨0, 10, []⟩, 5, 0⟩, ⟨⟨5, 15, []⟩, 7, 1⟩] =
        .ok (self_after, hits_after) → hits_after = [] :=
  ⟨by decide,
    (do_process_hits_for_query_releases_hits detail.example_deps
      ⟨"", (), 30, hit_boundary_output.ORIG⟩ "q1" ()
      [⟨⟨0, 10, []⟩, 5, 0⟩, ⟨⟨5, 15, []⟩, 7, 1⟩]).1⟩

/-! ## The score category of an id -/

theorem is_word_char_iff (c : Char) :
    is_word_char c = true ↔
      (65 ≤ c.toNat ∧ c.toNat ≤ 90) ∨ (97 ≤ c.toNat ∧ c.toNat ≤ 122) ∨
        (48 ≤ c.toNat ∧ c.toNat ≤ 57) ∨ c = '_' := by
  simp only [is_word_char, Char.isAlphanum, Char.isAlpha, Char.isUpper, Char.isLower,
    Char.isDigit, Char.toNat, Bool.or_eq_true, Bool.and_eq_true, decide_eq_true_eq, ge_iff_le,
    UInt32.le_def, BitVec.le_def, or_assoc, beq_iff_eq]
  exact Iff.rfl

theorem regex_search_dc_regex_of_length {prm_id : List Char} (hlen : prm_id.length = 35)
    (hpre : ['d', 'c', '_'].isPrefixOf prm_id = true) :
    regex_search_dc_regex prm_id = true ↔ ∀ c ∈ prm_id.drop 3, is_word_char c = true := by
  have h1 : (prm_id.drop 3).length = 32 := by rw [List.length_drop, hlen]
  have h2 : (prm_id.drop 3).take 32 = prm_id.drop 3 := List.take_of_length_le (by omega)
  have h3 : prm_id.drop 35 = [] := List.drop_of_length_le (by omega)
  simp only [regex_search_dc_regex, match_dc_word32, hpre, h1, h2, h3, true_and, le_refl]
  by_cases hall : (prm_id.drop 3).all is_word_char = true
  · rw [if_pos hall]
    simpa using hall
  · rw [if_neg hall]
    simpa using hall

/-- C23: `cath_score_category_of_id` returns `DC_TYPE` exactly when `prm_apply_cath_policies` is
true, the id has 35 characters, its first three are `dc_` and each of the other 32 is an ASCII
letter (codes 65 to 90 and 97 to 122), a digit (codes 48 to 57) or an underscore; in every
other case it returns `NORMAL`, as it does for every id when `prm_apply_cath_policies` is
false. -/
theorem cath_score_category_of_id_spec (prm_id : List Char) (prm_apply_cath_policies : Bool) :
    (cath_score_category_of_id prm_id prm_apply_cath_policies = cath_id_score_category.DC_TYPE ↔
      prm_apply_cath_policies = true ∧ prm_id.length = 35 ∧ prm_id.take 3 = ['d', 'c', '_'] ∧
        (prm_id.drop 3).length = 32 ∧
        ∀ c ∈ prm_id.drop 3,
          (65 ≤ c.toNat ∧ c.toNat ≤ 90) ∨ (97 ≤ c.toNat ∧ c.toNat ≤ 122) ∨
            (48 ≤ c.toNat ∧ c.toNat ≤ 57) ∨ c = '_') ∧
    (cath_score_category_of_id prm_id prm_apply_cath_policies ≠ cath_id_score_category.DC_TYPE →
      cath_score_category_of_id prm_id prm_apply_cath_policies = cath_id_score_category.NORMAL) ∧
    cath_score_category_of_id prm_id false = cath_id_score_category.NORMAL := by
  have hpre : (['d', 'c', '_'].isPrefixOf prm_id = true) ↔ prm_id.take 3 = ['d', 'c', '_'] := by
    rw [List.isPrefixOf_iff_prefix, List.prefix_iff_eq_take]
    exact eq_comm
  refine ⟨?_, ?_, rfl⟩
  · cases prm_apply_cath_policies with
    | false => simp [cath_score_category_of_id]
    | true =>
      simp only [cath_score_category_of_id, if_true, true_and]
      by_cases hc : prm_id.length = 35 ∧ ['d', 'c', '_'].isPrefixOf prm_id = true
      · rw [if_pos hc]
        have hs := regex_search_dc_regex_of_length hc.1 hc.2
        have h1 : (prm_id.drop 3).length = 32 := by rw [List.length_drop, hc.1]
        by_cases hr : regex_search_dc_regex prm_id = true
        · rw [if_pos hr]
          refine iff_of_true rfl ⟨hc.1, hpre.1 hc.2, h1, fun c hcm => ?_⟩
          exact (is_word_char_iff c).1 (hs.1 hr c hcm)
        · rw [if_neg hr]
          refine iff_of_false (by simp) ?_
          rintro ⟨_, _, _, hw⟩
          exact hr (hs.2 (fun c hcm => (is_word_char_iff c).2 (hw c hcm)))
      · rw [if_neg hc]
        refine iff_of_false (by simp) ?_
        rintro ⟨h1, h2, _, _⟩
        exact hc ⟨h1, hpre.2 h2⟩
  · intro h
    cases hres : cath_score_category_of_id prm_id prm_apply_cath_policies with
    | NORMAL => rfl
    | DC_TYPE => exact absurd hres h

/-- C23 at the id `dc_72a964d791dea7a3dd35a8bbf49385b8`, and at the same id with a hyphen in
place of its last character. -/
theorem cath_score_category_of_id_spec_witness :
    cath_score_category_of_id "dc_72a964d791dea7a3dd35a8bbf49385b8".toList true =
      cath_id_score_category.DC_TYPE ∧
    cath_score_category_of_id "dc_72a964d791dea7a3dd35a8bbf49385b8".toList false =
      cath_id_score_category.NORMAL ∧
    cath_score_category_of_id "dc_72a964d791dea7a3dd35a8bbf49385b-".toList true =
      cath_id_score_category.NORMAL :=
  ⟨(cath_score_category_of_id_spec "dc_72a964d791dea7a3dd35a8bbf49385b8".toList true).1.2
      ⟨rfl, by decide, by decide, by decide, by decide⟩,
    by decide, by decide⟩

end rslv

/-! ## Names for the viewer -/

theorem clean_name_foldl_eq (arg_name acc : List Char) :
    arg_name.foldl
        (fun new_name name_char =>
          if is_alnum name_char then
            new_name ++ [name_char]
          else if is_space name_char || name_char == '_' then
            new_name ++ ['_']
          else
            new_name)
        acc =
      acc ++ arg_name.filterMap
        (fun c => if is_alnum c then some c
          else if is_space c || c == '_' then some '_' else none) := by
  induction arg_name generalizing acc with
  | nil => simp
  | cons c rest ih =>
    rw [List.foldl_cons, ih]
    by_cases h1 : is_alnum c = true
    · simp [List.filterMap_cons, h1]
    · by_cases h2 : (is_space c || c == '_') = true
      · simp only [List.filterMap_cons, h1, h2, if_true, if_false, Bool.false_eq_true,
          List.append_assoc, List.singleton_append]
      · simp only [List.filterMap_cons, h1, h2, if_false, Bool.false_eq_true]

/-- C24 (the code falls short of it): the comment above `clean_name_for_viewer()` says "keep
alpha-numeric characters", "convert all space characters to underscores", "drop all other
characters"; an underscore is neither alphanumeric nor a space character, and the function
keeps it: `a_b` comes out as `a_b`, where the description gives `ab`. -/
theorem clean_name_for_viewer_keeps_underscore :
    is_alnum '_' = false ∧ is_space '_' = false ∧
    clean_name_for_viewer ['a', '_', 'b'] = ['a', '_', 'b'] ∧
    clean_name_as_described ['a', '_', 'b'] = ['a', 'b'] ∧
    clean_name_for_viewer ['a', '_', 'b'] ≠ clean_name_as_described ['a', '_', 'b'] := by
  decide

/-- What `clean_name_for_viewer` computes: scanning the name from left to right it keeps each
alphanumeric character, writes an underscore for each space character and for each underscore,
and drops every other character. The result is no longer than the name, each of its
characters is an alphanumeric character of the name or an underscore written for a space
character or an underscore of the name, and on a name without underscores the result is the
string of the description (keep alphanumerics, spaces to underscores, drop the rest). -/
theorem clean_name_for_viewer_spec (arg_name : List Char) :
    clean_name_for_viewer arg_name =
      arg_name.filterMap
        (fun c => if is_alnum c then some c
          else if is_space c || c == '_' then some '_' else none) ∧
    (clean_name_for_viewer arg_name).length ≤ arg_name.length ∧
    (∀ c ∈ clean_name_for_viewer arg_name,
      (is_alnum c = true ∧ c ∈ arg_name) ∨
        (c = '_' ∧ ∃ d ∈ arg_name, is_space d = true ∨ d = '_')) ∧
    ('_' ∉ arg_name → clean_name_for_viewer arg_name = clean_name_as_described arg_name) := by
  have heq : clean_name_for_viewer arg_name =
      arg_name.filterMap
        (fun c => if is_alnum c then some c
          else if is_space c || c == '_' then some '_' else none) := by
    have := clean_name_foldl_eq arg_name []
    simpa [clean_name_for_viewer] using this
  refine ⟨heq, ?_, ?_, ?_⟩
  · rw [heq]
    exact List.length_filterMap_le _ _
  · rw [heq]
    intro c hc
    obtain ⟨d, hd, hdc⟩ := List.mem_filterMap.1 hc
    by_cases h1 : is_alnum d = true
    · rw [if_pos h1] at hdc
      cases hdc
      exact Or.inl ⟨h1, hd⟩
    · rw [if_neg h1] at hdc
      by_cases h2 : (is_space d || d == '_') = true
      · rw [if_pos h2] at hdc
        cases hdc
        refine Or.inr ⟨rfl, d, hd, ?_⟩
        simpa using h2
      · rw [if_neg h2] at hdc
        cases hdc
  · intro hnot
    rw [heq, clean_name_as_described]
    apply List.filterMap_congr
    intro c hc
    have hne : c ≠ '_' := fun h => hnot (h ▸ hc)
    have : (c == '_') = false := by simpa using hne
    simp only [this, Bool.or_false]

namespace opts

/-! ## The options of `cath-score-align` -/

/-- C25: `do_get_error_or_help_string` returns `none` exactly when at most one alignment source
and exactly one PDB source are given; the empty string when neither is given; the message
about alignment sources, with their number, when more than one alignment source is given
(whatever the number of PDB sources); and otherwise the message about PDB sources, with their
number. `check_ok_to_use` throws `invalid_argument_exception` exactly when the string it gets
from `get_error_or_help_string()` is not `none`, so, on the result of
`do_get_error_or_help_string`, exactly when the counts are not (at most one, one). -/
theorem do_get_error_or_help_string_spec (num_aln_acquirers num_pdb_acquirers : Nat) :
    (do_get_error_or_help_string num_aln_acquirers num_pdb_acquirers = none ↔
      num_aln_acquirers ≤ 1 ∧ num_pdb_acquirers = 1) ∧
    (num_aln_acquirers = 0 ∧ num_pdb_acquirers = 0 →
      do_get_error_or_help_string num_aln_acquirers num_pdb_acquirers = some "") ∧
    (1 < num_aln_acquirers →
      do_get_error_or_help_string num_aln_acquirers num_pdb_acquirers =
        some ("Please specify at most one source of an alignment or superposition (" ++
          toString num_aln_acquirers ++ " specified)")) ∧
    (num_aln_acquirers ≤ 1 → num_pdb_acquirers ≠ 1 →
      ¬ (num_aln_acquirers = 0 ∧ num_pdb_acquirers = 0) →
      do_get_error_or_help_string num_aln_acquirers num_pdb_acquirers =
        some ("Please specify one source of PDBs (" ++
          toString num_pdb_acquirers ++ " specified)")) ∧
    (∀ error_or_help_string : Option String,
      (check_ok_to_use error_or_help_string =
          .error (.invalid_argument_exception "Attempt to use invalid cath_score_align_options") ↔
        error_or_help_string ≠ none) ∧
      (check_ok_to_use error_or_help_string = .ok () ↔ error_or_help_string = none)) ∧
    (check_ok_to_use (do_get_error_or_help_string num_aln_acquirers num_pdb_acquirers) = .ok () ↔
      num_aln_acquirers ≤ 1 ∧ num_pdb_acquirers = 1) := by
  have hnone : do_get_error_or_help_string num_aln_acquirers num_pdb_acquirers = none ↔
      num_aln_acquirers ≤ 1 ∧ num_pdb_acquirers = 1 := by
    unfold do_get_error_or_help_string
    split_ifs with h1 h2 h3
    · simp; omega
    · simp; omega
    · simp; omega
    · simp; omega
  have hcheck : ∀ error_or_help_string : Option String,
      (check_ok_to_use error_or_help_string =
          .error (.invalid_argument_exception "Attempt to use invalid cath_score_align_options") ↔
        error_or_help_string ≠ none) ∧
      (check_ok_to_use error_or_help_string = .ok () ↔ error_or_help_string = none) := by
    intro s
    cases s with
    | none => simp [check_ok_to_use]
    | some v => simp [check_ok_to_use]
  refine ⟨hnone, fun h => ?_, fun h => ?_, fun h1 h2 h3 => ?_, hcheck, ?_⟩
  · unfold do_get_error_or_help_string
    rw [if_pos h]
  · unfold do_get_error_or_help_string
    rw [if_neg (by omega), if_pos h]
  · unfold do_get_error_or_help_string
    rw [if_neg h3, if_neg (by omega), if_pos h2]
  · rw [(hcheck _).2, hnone]

/-- C25 at two alignment sources and one PDB source, and at one of each. -/
theorem do_get_error_or_help_string_spec_witness :
    do_get_error_or_help_string 2 1 =
      some "Please specify at most one source of an alignment or superposition (2 specified)" ∧
    do_get_error_or_help_string 1 0 = some "Please specify one source of PDBs (0 specified)" ∧
    do_get_error_or_help_string 0 0 = some "" ∧
    do_get_error_or_help_string 1 1 = none ∧
    check_ok_to_use (do_get_error_or_help_string 1 1) = .ok () :=
  ⟨by decide, by decide, by decide, by decide,
    (do_get_error_or_help_string_spec 1 1).2.2.2.2.2.2 ⟨by decide, rfl⟩⟩

end opts

end cath
